import Mathlib

/-! Mython: lexer, runtime and evaluator, embedded from `src/mython`.

A shallow embedding of `lexer.cpp`, `runtime.cpp` and `statement.cpp`.

Conventions of the embedding.

* A C++ `char` is a Lean `Char` with the same code (0..255).  `char` is taken to be
  signed, as on the x86 ABIs, so `(char)EOF` is the byte `0xFF` and the test
  `c == char_traits<char>::eof()` is `c = '\xff'`.
* `std::istream` is a read position in a byte sequence together with the three state
  bits; the library members used by the source (`get`, `peek`, `unget`, `getline`,
  `operator>>`) are modelled after their standard behaviour.
* Every source loop is a recursive function with an explicit iteration budget
  (`fuel`); running out of budget is the outcome `LexFail.outOfFuel`, distinct from a
  failed `assert`, which is `LexFail.assertion` (assertions are enabled).
-/

namespace Mython

/-! ## Input stream -/

/-- The stream `std::istream` over a byte buffer: `consumed` holds the bytes behind the
read position (most recent first), `rest` the bytes ahead of it. -/
structure IStream where
  consumed : List Char
  rest : List Char
  eofbit : Bool
  failbit : Bool
  badbit : Bool
deriving DecidableEq, Repr

namespace IStream

/-- A fresh stream positioned at the start of `data`. -/
def ofList (data : List Char) : IStream :=
  { consumed := [], rest := data, eofbit := false, failbit := false, badbit := false }

/-- The member `good()`: no state bit is set. -/
def good (s : IStream) : Bool := !s.eofbit && !s.failbit && !s.badbit

/-- The member `get()`: `none` stands for `Traits::eof()`.  A stream that is not good
only gets `failbit`; at the end of the buffer `eofbit` and `failbit` are set. -/
def get (s : IStream) : Option Char × IStream :=
  if s.good then
    match s.rest with
    | [] => (none, { s with eofbit := true, failbit := true })
    | c :: r => (some c, { s with consumed := c :: s.consumed, rest := r })
  else (none, { s with failbit := true })

/-- The member `peek()`: at the end of the buffer only `eofbit` is set. -/
def peek (s : IStream) : Option Char × IStream :=
  if s.good then
    match s.rest with
    | [] => (none, { s with eofbit := true })
    | c :: _ => (some c, s)
  else (none, { s with failbit := true })

/-- The member `unget()`: clears `eofbit`, then steps the read position back by one
unless a state bit is still set (then `failbit` is set and nothing moves). -/
def unget (s : IStream) : IStream :=
  let s1 := { s with eofbit := false }
  if s1.good then
    match s1.consumed with
    | [] => { s1 with badbit := true }
    | c :: p => { s1 with consumed := p, rest := c :: s1.rest }
  else { s1 with failbit := true }

/-- The call `getline(input, line)` with the line discarded: extracts through the next
line feed; reaching the end of the buffer sets `eofbit`, and `failbit` too when nothing
was extracted. -/
def getline (s : IStream) : IStream :=
  if s.good then
    let line := s.rest.takeWhile (fun c => c != '\n')
    match s.rest.dropWhile (fun c => c != '\n') with
    | [] => { s with consumed := line.reverse ++ s.consumed, rest := [], eofbit := true,
                     failbit := s.rest.isEmpty }
    | c :: r => { s with consumed := c :: (line.reverse ++ s.consumed), rest := r }
  else { s with failbit := true }

end IStream

/-- The conversion `char c = input.get()`: `Traits::eof()` becomes the byte `0xFF`. -/
def toChar : Option Char → Char
  | some c => c
  | none => '\xff'

/-! ## Tokens -/

/-- The variant `parse::Token`. -/
inductive Token where
  | Number (value : Int)
  | Id (value : List Char)
  | Char (value : Char)
  | String (value : List Char)
  | Class | Return | If | Else | Def | Newline | Print | Indent | Dedent
  | And | Or | Not | Eq | NotEq | LessOrEq | GreaterOrEq | None | True | False | Eof
deriving DecidableEq, Repr

/-- Outcomes of the lexer other than a token. -/
inductive LexFail where
  | assertion
  | outOfFuel
deriving DecidableEq, Repr

/-! ## Token readers -/

def isDigit (c : Char) : Bool := decide ('0' ≤ c) && decide (c ≤ '9')

/-- The characters `operator>>` skips before a number (`std::isspace` in the C locale). -/
def isSpace (c : Char) : Bool :=
  c == ' ' || c == '\t' || c == '\n' || c == '\x0b' || c == '\x0c' || c == '\r'

def digitsValue (ds : List Char) : Nat :=
  ds.foldl (fun acc d => 10 * acc + (d.toNat - '0'.toNat)) 0

def INT_MAX : Int := 2147483647

def INT_MIN : Int := -2147483648

/-- The function `GetNumber`: `input >> result` for an `int`.  Leading white space is
skipped, an optional sign and the longest run of decimal digits are extracted; a value
out of range is clamped and sets `failbit`, exhausting the buffer sets `eofbit`, and
without any digit the result is `0` with `failbit`. -/
def GetNumber (s : IStream) : Int × IStream :=
  if s.good then
    let ws := s.rest.takeWhile isSpace
    let r0 := s.rest.dropWhile isSpace
    let (sign, r1) : List Char × List Char :=
      match r0 with
      | c :: r => if c = '-' ∨ c = '+' then ([c], r) else ([], r0)
      | [] => ([], r0)
    let ds := r1.takeWhile isDigit
    let r2 := r1.dropWhile isDigit
    let taken := ws ++ sign ++ ds
    let s1 : IStream := { s with consumed := taken.reverse ++ s.consumed, rest := r2,
                                 eofbit := r2.isEmpty }
    if ds.isEmpty then (0, { s1 with failbit := true })
    else
      let v : Int := if sign = ['-'] then -(digitsValue ds : Int) else (digitsValue ds : Int)
      if v > INT_MAX then (INT_MAX, { s1 with failbit := true })
      else if v < INT_MIN then (INT_MIN, { s1 with failbit := true })
      else (v, s1)
  else (0, { s with failbit := true })

/-- The loop of `GetStr`, entered with the byte `c` just read. -/
def GetStrLoop : Nat → Char → Char → Char → List Char → IStream →
    Except LexFail (List Char × IStream)
  | 0, _, _, _, _, _ => .error .outOfFuel
  | fuel + 1, k, pred_c, c, result, s =>
    if c ≠ k ∨ pred_c = '\\' then
      let result1 :=
        if pred_c = '\\' then
          if c = '\'' ∨ c = '"' then result ++ [c]
          else if c = 'n' then result ++ ['\n']
          else if c = 't' then result ++ ['\t']
          else result ++ ['\\']
        else if c ≠ '\\' then result ++ [c]
        else result
      let g := s.get
      GetStrLoop fuel k c (toChar g.1) result1 g.2
    else
      .ok (if pred_c = '\\' then result ++ ['\\'] else result, s)

/-- The function `GetStr`. -/
def GetStr (fuel : Nat) (s : IStream) : Except LexFail (List Char × IStream) :=
  let g0 := s.get
  let k := toChar g0.1
  let g1 := g0.2.get
  GetStrLoop fuel k ' ' (toChar g1.1) [] g1.2

def isIdChar (c : Char) : Bool :=
  (decide ('a' ≤ c) && decide (c ≤ 'z')) || (decide ('A' ≤ c) && decide (c ≤ 'Z'))
    || (decide ('0' ≤ c) && decide (c ≤ '9')) || c == '_'

/-- The loop of `GetId`, entered with the byte `c` just read; the final `unget` is part
of it. -/
def GetIdLoop : Nat → Char → List Char → IStream → Except LexFail (List Char × IStream)
  | 0, _, _, _ => .error .outOfFuel
  | fuel + 1, c, result, s =>
    if isIdChar c then
      let g := s.get
      GetIdLoop fuel (toChar g.1) (result ++ [c]) g.2
    else .ok (result, s.unget)

/-- The function `GetId`. -/
def GetId (fuel : Nat) (s : IStream) : Except LexFail (List Char × IStream) :=
  let g0 := s.get
  let g1 := g0.2.get
  GetIdLoop fuel (toChar g1.1) [toChar g0.1] g1.2

/-! ## The lexer -/

/-- The state of `parse::Lexer`. -/
structure Lexer where
  input : IStream
  token : Token
  indent : Nat
  dedent : Nat
deriving DecidableEq, Repr

/-- The loop `for (; c == ' '; c = input_.get()) { assert(input_.get() == ' '); ++i; }`. -/
def countIndent : Nat → Nat → Char → IStream → Except LexFail (Nat × Char × IStream)
  | 0, _, _, _ => .error .outOfFuel
  | fuel + 1, i, c, s =>
    if c = ' ' then
      let a := s.get
      if a.1 = some ' ' then
        let g := a.2.get
        countIndent fuel (i + 1) (toChar g.1) g.2
      else .error .assertion
    else .ok (i, c, s)

/-- The loop `for (; c == '\n' || c == '#'; c = input_.get())` that discards line ends
and comment lines. -/
def skipLines : Nat → Char → IStream → Except LexFail (Char × IStream)
  | 0, _, _ => .error .outOfFuel
  | fuel + 1, c, s =>
    if c = '\n' ∨ c = '#' then
      let s1 := if c = '#' then s.getline else s
      let g := s1.get
      skipLines fuel (toChar g.1) g.2
    else .ok (c, s)

/-- The loop `while (c == '\n' || c == '#')` of the line start; `n` bounds the inner
loops. -/
def lineStartLoop (n : Nat) : Nat → Nat → Char → IStream →
    Except LexFail (Nat × Char × IStream)
  | 0, _, _, _ => .error .outOfFuel
  | fuel + 1, i, c, s =>
    if c = '\n' ∨ c = '#' then
      match skipLines n c s with
      | .error e => .error e
      | .ok (c1, s1) =>
        match countIndent n 0 c1 s1 with
        | .error e => .error e
        | .ok (i2, c2, s2) => lineStartLoop n fuel i2 c2 s2
    else .ok (i, c, s)

/-- The loop `for (; c == ' '; c = input_.get()) {}`. -/
def skipSpaces : Nat → Char → IStream → Except LexFail (Char × IStream)
  | 0, _, _ => .error .outOfFuel
  | fuel + 1, c, s =>
    if c = ' ' then
      let g := s.get
      skipSpaces fuel (toChar g.1) g.2
    else .ok (c, s)

/-- The reserved words tested after `GetId`. -/
def keyword (str : List Char) : Token :=
  if str = "class".toList then .Class
  else if str = "return".toList then .Return
  else if str = "if".toList then .If
  else if str = "else".toList then .Else
  else if str = "def".toList then .Def
  else if str = "print".toList then .Print
  else if str = "and".toList then .And
  else if str = "or".toList then .Or
  else if str = "not".toList then .Not
  else if str = "None".toList then .None
  else if str = "True".toList then .True
  else if str = "False".toList then .False
  else .Id str

def isPunct (c : Char) : Bool :=
  c == '=' || c == '.' || c == ',' || c == '(' || c == '+' || c == '<' || c == '>'
    || c == '-' || c == ')' || c == '*' || c == '/' || c == ':'

/-- The tail of `NextToken` from the test `c == char_traits<char>::eof()` on: the byte
`c` has been read and the stream stands behind it. -/
def classify (fuel : Nat) (lx : Lexer) (c : Char) (s : IStream) : Except LexFail Lexer :=
  if c = '\xff' then
    if lx.token ≠ .Newline ∧ lx.token ≠ .Dedent then
      .ok { input := s, token := .Newline, indent := 0, dedent := lx.indent }
    else .ok { lx with input := s, token := .Eof }
  else if isDigit c then
    let r := GetNumber s.unget
    .ok { lx with input := r.2, token := .Number r.1 }
  else if c = '\'' ∨ c = '"' then
    match GetStr fuel s.unget with
    | .error e => .error e
    | .ok (str, s1) => .ok { lx with input := s1, token := .String str }
  else if (decide ('a' ≤ c) && decide (c ≤ 'z')) || (decide ('A' ≤ c) && decide (c ≤ 'Z'))
      || c == '_' then
    match GetId fuel s.unget with
    | .error e => .error e
    | .ok (str, s1) => .ok { lx with input := s1, token := keyword str }
  else if c = '\n' then .ok { lx with input := s, token := .Newline }
  else if c = '#' then .ok { lx with input := s.getline, token := .Newline }
  else if c = '=' ∧ s.peek.1 = some '=' then
    .ok { lx with input := s.peek.2.get.2, token := .Eq }
  else if c = '!' ∧ s.peek.1 = some '=' then
    if s.peek.2.get.1 = some '=' then .ok { lx with input := s.peek.2.get.2, token := .NotEq }
    else .error .assertion
  else if c = '<' ∧ s.peek.1 = some '=' then
    if s.peek.2.get.1 = some '=' then
      .ok { lx with input := s.peek.2.get.2, token := .LessOrEq }
    else .error .assertion
  else if c = '>' ∧ s.peek.1 = some '=' then
    if s.peek.2.get.1 = some '=' then
      .ok { lx with input := s.peek.2.get.2, token := .GreaterOrEq }
    else .error .assertion
  else if isPunct c then
    -- `peek` has run (and may have set `eofbit`) exactly for the four bytes that start a
    -- two-byte operator
    .ok { lx with input := if c = '=' ∨ c = '!' ∨ c = '<' ∨ c = '>' then s.peek.2 else s,
                  token := .Char c }
  else .error .assertion

/-- The member `Lexer::NextToken`: the new lexer state, whose `token` is the token
returned. -/
def NextToken (fuel : Nat) (lx : Lexer) : Except LexFail Lexer :=
  if lx.token = .Eof then .ok lx
  else if lx.dedent > 0 then .ok { lx with dedent := lx.dedent - 1, token := .Dedent }
  else
    let g := lx.input.get
    if lx.token = .Newline then
      match countIndent fuel 0 (toChar g.1) g.2 with
      | .error e => .error e
      | .ok (i0, c0, s0) =>
        match lineStartLoop fuel fuel i0 c0 s0 with
        | .error e => .error e
        | .ok (i, c, s) =>
          if i > lx.indent then
            .ok { lx with input := s.unget, indent := lx.indent + 1, token := .Indent }
          else if i < lx.indent then
            .ok { input := s.unget, dedent := lx.indent - i - 1, indent := i,
                  token := .Dedent }
          else classify fuel lx c s
    else
      match skipSpaces fuel (toChar g.1) g.2 with
      | .error e => .error e
      | .ok (c, s) => classify fuel lx c s

/-- Modelled from the spec: the state of a lexer before its constructor calls `NextToken`
(the member initialisers are in `lexer.h`, which is absent).  The levels start at zero
and the start state counts as an ordinary token, neither `Newline`, `Dedent` nor `Eof`. -/
def Lexer.start (input : IStream) : Lexer :=
  { input := input, token := .Number 0, indent := 0, dedent := 0 }

/-- The tokens returned by `n` successive calls of `NextToken`, with the final state. -/
def lexSteps (fuel : Nat) : Nat → Lexer → Except LexFail (List Token × Lexer)
  | 0, lx => .ok ([], lx)
  | n + 1, lx =>
    match NextToken fuel lx with
    | .error e => .error e
    | .ok lx1 =>
      match lexSteps fuel n lx1 with
      | .error e => .error e
      | .ok (ts, lx2) => .ok (lx1.token :: ts, lx2)

/-- The first `n` tokens of the stream for the text `data`: the constructor's token and
those of `n - 1` further calls of `NextToken`. -/
def tokenize (fuel n : Nat) (data : List Char) : Except LexFail (List Token × Lexer) :=
  lexSteps fuel n (Lexer.start (IStream.ofList data))

/-! ## Auxiliary definitions for the statements about the lexer -/

/-- The four layout tokens. -/
def Token.isLayout : Token → Bool
  | .Indent | .Dedent | .Eof | .Newline => true
  | _ => false

/-- The number of `Indent` (resp. `Dedent`) tokens a token contributes. -/
def Token.indents (t : Token) : Nat := if t = .Indent then 1 else 0

def Token.dedents (t : Token) : Nat := if t = .Dedent then 1 else 0

/-- The relation between a token and the one returned next that `NextToken_eof`
establishes. -/
def EofAfter (prev next : Token) : Prop :=
  next = .Eof → prev = .Eof ∨ prev = .Newline ∨ prev = .Dedent

/-- A stream without state bits, `consumed` behind and `rest` ahead of the read position. -/
def IStream.goodAt (consumed rest : List Char) : IStream :=
  { consumed := consumed, rest := rest, eofbit := false, failbit := false, badbit := false }

/-- A piece of the body of a string literal as the specification describes it: an
ordinary byte, or a backslash followed by a byte. -/
inductive StrPiece where
  | plain (c : Char)
  | escape (c : Char)
deriving DecidableEq, Repr

/-- The source text of a piece. -/
def StrPiece.source : StrPiece → List Char
  | .plain c => [c]
  | .escape c => ['\\', c]

/-- The single byte a piece denotes: `\n` is the line feed, `\t` the tab, an escaped
quote the quote. -/
def StrPiece.value : StrPiece → Char
  | .plain c => c
  | .escape c => if c = 'n' then '\n' else if c = 't' then '\t' else c

/-- The pieces of the claim: ordinary bytes other than the backslash and the opening
quote `q`, and the four recognized escapes. -/
def StrPiece.recognized (q : Char) : StrPiece → Bool
  | .plain c => c != '\\' && c != q
  | .escape c => c == '\'' || c == '"' || c == 'n' || c == 't'

/-- The source text of a body. -/
def bodySource : List StrPiece → List Char
  | [] => []
  | x :: xs => x.source ++ bodySource xs

/-! ## Runtime values (`runtime.cpp`)

The type parameter `B` is the type of method bodies (`runtime::Executable`, whose only
member is the virtual `Execute`), and `W` is everything a call can change: the context
with its output stream and the fields of the instances.  How a body runs is the
parameter `exec` of the functions below.  A call yields its outcome together with the
state it leaves behind, also when it does not return a value: what was written before an
exception stays written. -/

/-- The record `runtime::Method`. -/
structure Method (B : Type) where
  name : String
  formal_params : List String
  body : B

/-- The object `runtime::Class`: name, methods (sorted by the constructor) and parent. -/
inductive Class (B : Type) where
  | mk (name : String) (methods : List (Method B)) (parent : Option (Class B))

/-- The dynamic types below `runtime::Object`.  An instance is identified by its address;
its class reference `cls_` never changes and is carried along, its fields live in the
state `W`. -/
inductive Object (B : Type) where
  | Number (value : Int)
  | String (value : String)
  | Bool (value : Bool)
  | Class (cls : Class B)
  | ClassInstance (addr : Nat) (cls : Class B)

/-- The holder `runtime::ObjectHolder`; `none` is the empty holder `ObjectHolder::None()`. -/
abbrev ObjectHolder (B : Type) := Option (Object B)

/-- The map `runtime::Closure`. -/
abbrev Closure (B : Type) := List (String × ObjectHolder B)

/-- The assignment `closure[key] = value`. -/
def Closure.assign {B : Type} (closure : Closure B) (key : String) (value : ObjectHolder B) :
    Closure B :=
  (key, value) :: closure.filter (fun e => e.1 != key)

/-- What the runtime throws: `std::runtime_error`, and the holder thrown by
`Return::Execute`, which passes through the runtime functions unchanged. -/
inductive Thrown (B : Type) where
  | runtime_error (what : String)
  | object_holder (value : ObjectHolder B)

/-- How an execution ends without a value: a C++ exception in flight, a failed `assert`,
undefined behaviour of the C++ program (a call through a null pointer, an integer division
that traps), or the iteration budget of the embedding running out. -/
inductive Stop (B : Type) where
  | thrown (e : Thrown B)
  | assertion
  | undefined
  | outOfFuel

/-- The virtual call `body->Execute(closure, context)`: the outcome and the state after
it.  The closure of a call is local to `Call` and is dropped. -/
abbrev Executor (B W : Type) := B → Closure B → W → Except (Stop B) (ObjectHolder B) × W

/-- The comparison `lhs < rhs` of two `std::string`s: lexicographic on the bytes, a
proper prefix being smaller. -/
def strLessData : List Char → List Char → Bool
  | [], [] => false
  | [], _ :: _ => true
  | _ :: _, [] => false
  | a :: as, b :: bs => if a < b then true else if b < a then false else strLessData as bs

def strLess (lhs rhs : String) : Bool := strLessData lhs.data rhs.data

/-- The function `IsTrue`. -/
def IsTrue {B : Type} (object : ObjectHolder B) : Bool :=
  match object with
  | none => false
  | some (.Number value) => value != 0
  | some (.String value) => !value.isEmpty
  | some (.Bool value) => value
  | some _ => false

/-- The library call `std::lower_bound` with the comparison `lhs.name > rhs` of
`GetMethod`: the halving search, `len` being the length of the range still to search. -/
def lowerBound {B : Type} (methods : List (Method B)) (name : String) : Nat → Nat → Nat → Nat
  | 0, first, _ => first
  | fuel + 1, first, len =>
    if len > 0 then
      let half := len / 2
      let middle := first + half
      match methods[middle]? with
      | some m =>
        if strLess name m.name then lowerBound methods name fuel (middle + 1) (len - half - 1)
        else lowerBound methods name fuel first half
      | none => first
    else first

/-- The constructor `Class::Class`: the methods are sorted by descending name.
`std::sort` leaves the order of methods with equal names unspecified; the insertion sort
used here is one of the orders it may produce. -/
def Class.new {B : Type} (name : String) (methods : List (Method B))
    (parent : Option (Class B)) : Class B :=
  .mk name (methods.insertionSort (fun lhs rhs => strLess rhs.name lhs.name)) parent

/-- The member `Class::GetMethod`. -/
def Class.GetMethod {B : Type} : Class B → String → Option (Method B)
  | .mk _ methods parent, name =>
    let it := lowerBound methods name methods.length 0 methods.length
    let method : Option (Method B) :=
      match methods[it]? with
      | some m => if m.name = name then some m else none
      | none => none
    match method with
    | some m => some m
    | none =>
      match parent with
      | some p => p.GetMethod name
      | none => none

/-- The member `ClassInstance::HasMethod`. -/
def HasMethod {B : Type} (cls : Class B) (method : String) (argument_count : Nat) : Bool :=
  match cls.GetMethod method with
  | some met => met.formal_params.length == argument_count
  | none => false

/-- The loop `closure[met->formal_params[i]] = actual_args[i]` of `Call`. -/
def bindArgs {B : Type} : List String → List (ObjectHolder B) → Closure B → Closure B
  | p :: ps, a :: as, closure => bindArgs ps as (closure.assign p a)
  | _, _, closure => closure

/-- The member `ClassInstance::Call` of the instance at `addr` with class `cls`. -/
def Call {B W : Type} (exec : Executor B W) (addr : Nat) (cls : Class B) (method : String)
    (actual_args : List (ObjectHolder B)) (context : W) :
    Except (Stop B) (ObjectHolder B) × W :=
  match cls.GetMethod method with
  | none =>
    (.error (.thrown (.runtime_error
      ("Error in ClassInstance::Call: \"" ++ method ++ "\" method in Call was not found"))),
     context)
  | some met =>
    if met.formal_params.length ≠ actual_args.length then
      (.error (.thrown (.runtime_error
        ("Error in ClassInstance::Call: \"" ++ method ++ "\" method in Call was not found"))),
       context)
    else
      exec met.body
        (bindArgs met.formal_params actual_args [("self", some (.ClassInstance addr cls))])
        context

/-- The exception of `Equal`. -/
def equalError (B : Type) : Stop B :=
  .thrown (.runtime_error "Cannot compare objects for equality")

/-- The exception of `Less`. -/
def lessError (B : Type) : Stop B :=
  .thrown (.runtime_error "Cannot compare objects for less")

/-- The function `Equal`. -/
def Equal {B W : Type} (exec : Executor B W) (lhs rhs : ObjectHolder B) (context : W) :
    Except (Stop B) Bool × W :=
  match lhs, rhs with
  | none, none => (.ok true, context)
  | none, some _ => (.error (equalError B), context)
  | some _, none => (.error (equalError B), context)
  | some (.ClassInstance addr cls), some r =>
    if HasMethod cls "__eq__" 1 then
      match Call exec addr cls "__eq__" [some r] context with
      | (.ok v, context1) => (.ok (IsTrue v), context1)
      | (.error e, context1) => (.error e, context1)
    else (.error (equalError B), context)
  | some (.Number number1), some r =>
    match r with
    | .Number number2 => (.ok (number1 == number2), context)
    | _ => (.error (equalError B), context)
  | some (.String str1), some r =>
    match r with
    | .String str2 => (.ok (str1 == str2), context)
    | _ => (.error (equalError B), context)
  | some (.Bool bool1), some r =>
    match r with
    | .Bool bool2 => (.ok (bool1 == bool2), context)
    | _ => (.error (equalError B), context)
  | some (.Class _), some _ => (.error (equalError B), context)

/-- The function `Less`. -/
def Less {B W : Type} (exec : Executor B W) (lhs rhs : ObjectHolder B) (context : W) :
    Except (Stop B) Bool × W :=
  match lhs, rhs with
  | none, _ => (.error (lessError B), context)
  | some _, none => (.error (lessError B), context)
  | some (.ClassInstance addr cls), some r =>
    if HasMethod cls "__lt__" 1 then
      match Call exec addr cls "__lt__" [some r] context with
      | (.ok v, context1) => (.ok (IsTrue v), context1)
      | (.error e, context1) => (.error e, context1)
    else (.error (lessError B), context)
  | some (.Number number1), some r =>
    match r with
    | .Number number2 => (.ok (decide (number1 < number2)), context)
    | _ => (.error (lessError B), context)
  | some (.String str1), some r =>
    match r with
    | .String str2 => (.ok (strLess str1 str2), context)
    | _ => (.error (lessError B), context)
  | some (.Bool bool1), some r =>
    match r with
    | .Bool bool2 => (.ok (decide (bool1.toNat < bool2.toNat)), context)
    | _ => (.error (lessError B), context)
  | some (.Class _), some _ => (.error (lessError B), context)

/-- Equality of operands none of which dispatches to `__eq__`, in the words of the
specification: both absent, or two Numbers, two Strings or two Bools compared
structurally; anything else is the comparison error. -/
def EqualPrimitive {B : Type} (lhs rhs : ObjectHolder B) : Except (Stop B) Bool :=
  match lhs, rhs with
  | none, none => .ok true
  | some (.Number a), some (.Number b) => .ok (decide (a = b))
  | some (.String s), some (.String t) => .ok (decide (s = t))
  | some (.Bool p), some (.Bool q) => .ok (decide (p = q))
  | _, _ => .error (.thrown (.runtime_error "Cannot compare objects for equality"))

/-- Exactly one of three truth values is true. -/
def ExactlyOne (x y z : Bool) : Prop :=
  (x = true ∧ y = false ∧ z = false) ∨ (x = false ∧ y = true ∧ z = false) ∨
    (x = false ∧ y = false ∧ z = true)

/-- Exactly one of `Less(a, b)`, `Equal(a, b)`, `Less(b, a)` is true, none of the three
calls fails, and none changes the state `w`. -/
def Trichotomy {B W : Type} (exec : Executor B W) (a b : ObjectHolder B) (w : W) : Prop :=
  ∃ x y z, Less exec a b w = (.ok x, w) ∧ Equal exec a b w = (.ok y, w) ∧
    Less exec b a w = (.ok z, w) ∧ ExactlyOne x y z

/-- A method body that returns `True` whatever its arguments. -/
def alwaysTrue : Executor Unit Unit := fun _ _ w => (.ok (some (.Bool true)), w)

/-- The class `V` of scenario S5: one method `__eq__` with one formal parameter. -/
def classV : Class Unit := Class.new "V" [⟨"__eq__", ["other"], ()⟩] none

/-! ## Auxiliary definitions for the statements about method lookup -/

/-- A class declaration as the program gives it: the name and the methods in the order
written. -/
abbrev ClassDecl (B : Type) := String × List (Method B)

/-- The class built by the constructor `Class::Class` from a chain of declarations, `c`
itself first, then its parent, grandparent and so on. -/
def Class.ofChain {B : Type} : ClassDecl B → List (ClassDecl B) → Class B
  | c, [] => Class.new c.1 c.2 none
  | c, p :: ps => Class.new c.1 c.2 (some (Class.ofChain p ps))

/-- The naive lookup of the specification: the first method called `name` in the nearest
declaration of the chain that has one. -/
def naiveGetMethod {B : Type} : List (ClassDecl B) → String → Option (Method B)
  | [], _ => none
  | c :: cs, name =>
    match c.2.find? (fun m => m.name == name) with
    | some m => some m
    | none => naiveGetMethod cs name

/-- The order the constructor sorts by, read from the left: the name on the left is not
smaller than the name on the right. -/
def nameGE {B : Type} (m1 m2 : Method B) : Prop := strLess m1.name m2.name = false

/-! ## The derived comparisons (`runtime.cpp`) -/

/-- The function `NotEqual`. -/
def NotEqual {B W : Type} (exec : Executor B W) (lhs rhs : ObjectHolder B) (context : W) :
    Except (Stop B) Bool × W :=
  match Equal exec lhs rhs context with
  | (.ok b, context1) => (.ok (!b), context1)
  | (.error e, context1) => (.error e, context1)

/-- The function `Greater`: `!Less(...) && !Equal(...)`, the second call only when the
first returns false. -/
def Greater {B W : Type} (exec : Executor B W) (lhs rhs : ObjectHolder B) (context : W) :
    Except (Stop B) Bool × W :=
  match Less exec lhs rhs context with
  | (.ok true, context1) => (.ok false, context1)
  | (.ok false, context1) =>
    match Equal exec lhs rhs context1 with
    | (.ok b, context2) => (.ok (!b), context2)
    | (.error e, context2) => (.error e, context2)
  | (.error e, context1) => (.error e, context1)

/-- The function `LessOrEqual`: `Less(...) || Equal(...)`. -/
def LessOrEqual {B W : Type} (exec : Executor B W) (lhs rhs : ObjectHolder B) (context : W) :
    Except (Stop B) Bool × W :=
  match Less exec lhs rhs context with
  | (.ok true, context1) => (.ok true, context1)
  | (.ok false, context1) => Equal exec lhs rhs context1
  | (.error e, context1) => (.error e, context1)

/-- The function `GreaterOrEqual`. -/
def GreaterOrEqual {B W : Type} (exec : Executor B W) (lhs rhs : ObjectHolder B)
    (context : W) : Except (Stop B) Bool × W :=
  match Less exec lhs rhs context with
  | (.ok b, context1) => (.ok (!b), context1)
  | (.error e, context1) => (.error e, context1)

/-! ## The syntax tree and its evaluation (`statement.cpp`) -/

/-- The member `Comparison::comparator_`: one of the six comparison functions. -/
inductive Comparator where
  | Equal | NotEqual | Less | Greater | LessOrEqual | GreaterOrEqual

/-- The node classes of `namespace ast`.  A `NewInstance` node owns its member
`cls_ins_`, an instance built once with the node; `addr` is the address of that member,
different for different nodes.  `FieldAssignment` holds its `VariableValue` by value, here
its `dotted_ids`.  `ValueStatement` stands for the literal nodes of `statement.h`. -/
inductive Statement where
  | ValueStatement (value : Option (Object Statement))
  | Assignment (var : String) (rv : Statement)
  | VariableValue (dotted_ids : List String)
  | Print (name : Option String) (args : List Statement)
  | MethodCall (object : Statement) (method : String) (args : List Statement)
  | Stringify (argument : Statement)
  | Add (lhs rhs : Statement)
  | Sub (lhs rhs : Statement)
  | Mult (lhs rhs : Statement)
  | Div (lhs rhs : Statement)
  | Compound (args : List Statement)
  | Return (statement : Statement)
  | ClassDefinition (cls : Option (Object Statement))
  | FieldAssignment (object : List String) (field_name : String) (rv : Statement)
  | IfElse (condition if_body : Statement) (else_body : Option Statement)
  | Or (lhs rhs : Statement)
  | And (lhs rhs : Statement)
  | Not (argument : Statement)
  | Comparison (cmp : Comparator) (lhs rhs : Statement)
  | NewInstance (addr : Nat) (cls : Class Statement) (args : List Statement)
  | MethodBody (body : Statement)

/-- The holders of the interpreter. -/
abbrev Holder := ObjectHolder Statement

/-- The closures of the interpreter. -/
abbrev Env := Closure Statement

/-- What an evaluation can change besides the closure it is given: the text written to
the output stream of the context, and the field maps `closure_` of the instances, by
address (an address without entry has the empty map it was built with). -/
structure World where
  output : String
  fields : List (Nat × Env)

/-- The text written so far followed by `text`. -/
def World.write (w : World) (text : String) : World :=
  { w with output := w.output ++ text }

/-- The member `ClassInstance::Fields` of the instance at `addr`. -/
def World.fieldsOf (w : World) (addr : Nat) : Env :=
  match w.fields.lookup addr with
  | some closure => closure
  | none => []

/-- The assignment `Fields()[key] = value` on the instance at `addr`. -/
def World.setField (w : World) (addr : Nat) (key : String) (value : Holder) : World :=
  { w with fields := (addr, (w.fieldsOf addr).assign key value) ::
      w.fields.filter (fun e => e.1 != addr) }

/-- The result of `Execute`: the outcome, and the closure and the state it leaves. -/
abbrev Res := Except (Stop Statement) Holder × Env × World

/-- The member `Class::GetName`. -/
def Class.GetName {B : Type} : Class B → String
  | .mk name _ _ => name

/-- The value of the `int` expression `x` after two's-complement wrap-around to 32 bits
(the C++ standard leaves signed overflow undefined; this is what the machine addition,
subtraction and multiplication yield). -/
def wrapInt (x : Int) : Int := (x + 2147483648) % 4294967296 - 2147483648

/-- The text `os << this` writes for the instance at `addr`: implementation-defined. -/
def addressText (addr : Nat) : String := "0x" ++ String.mk (Nat.toDigits 16 addr)

/-- Modelled from the spec: the members `Print` of `Number` and `String`
(`ValueObject<T>::Print` in `runtime.h`, which is absent) write a Number in decimal and a
String as its raw content.  `Bool::Print`, `Class::Print` and `ClassInstance::Print` are
those of `runtime.cpp`.  The result is the text written to `os`. -/
def PrintObject (exec : Executor Statement World) :
    Nat → Object Statement → World → Except (Stop Statement) String × World
  | 0, _, w => (.error .outOfFuel, w)
  | fuel + 1, obj, w =>
    match obj with
    | .Number value => (.ok (toString value), w)
    | .String value => (.ok value, w)
    | .Bool value => (.ok (if value then "True" else "False"), w)
    | .Class cls => (.ok ("Class " ++ cls.GetName), w)
    | .ClassInstance addr cls =>
      if HasMethod cls "__str__" 0 then
        match Call exec addr cls "__str__" [] w with
        | (.ok (some r), w1) => PrintObject exec fuel r w1
        | (.ok none, w1) => (.error .assertion, w1)
        | (.error e, w1) => (.error e, w1)
      else (.ok (addressText addr), w)

/-- The statements `if (obj_h) obj_h->Print(os, context); else os << "None"` with the
output stream of the context as `os`. -/
def PrintHolder (exec : Executor Statement World) (fuel : Nat) (obj_h : Holder) (w : World) :
    Except (Stop Statement) Unit × World :=
  match obj_h with
  | some obj =>
    match PrintObject exec fuel obj w with
    | (.ok text, w1) => (.ok (), w1.write text)
    | (.error e, w1) => (.error e, w1)
  | none => (.ok (), w.write "None")

/-- The loop `for (auto& arg : args_) actual_args.push_back(arg->Execute(...))`. -/
def ExecuteArgs (ex : Statement → Env → World → Res) :
    List Statement → Env → World → Except (Stop Statement) (List Holder) × Env × World
  | [], closure, w => (.ok [], closure, w)
  | arg :: rest, closure, w =>
    match ex arg closure w with
    | (.ok v, closure1, w1) =>
      match ExecuteArgs ex rest closure1 w1 with
      | (.ok vs, closure2, w2) => (.ok (v :: vs), closure2, w2)
      | (.error e, closure2, w2) => (.error e, closure2, w2)
    | (.error e, closure1, w1) => (.error e, closure1, w1)

/-- The loop of `Compound::Execute`. -/
def ExecuteCompound (ex : Statement → Env → World → Res) :
    List Statement → Env → World → Res
  | [], closure, w => (.ok none, closure, w)
  | s :: rest, closure, w =>
    match ex s closure w with
    | (.ok _, closure1, w1) => ExecuteCompound ex rest closure1 w1
    | (.error e, closure1, w1) => (.error e, closure1, w1)

/-- The loop `for (size_t i = 1; ...)` of `Print::Execute`: a space, then the argument. -/
def PrintRest (ex : Statement → Env → World → Res) (exec : Executor Statement World)
    (fuel : Nat) : List Statement → Env → World → Except (Stop Statement) Unit × Env × World
  | [], closure, w => (.ok (), closure, w)
  | arg :: rest, closure, w =>
    match ex arg closure (w.write " ") with
    | (.ok obj_h, closure1, w1) =>
      match PrintHolder exec fuel obj_h w1 with
      | (.ok _, w2) => PrintRest ex exec fuel rest closure1 w2
      | (.error e, w2) => (.error e, closure1, w2)
    | (.error e, closure1, w1) => (.error e, closure1, w1)

/-- The loop of `VariableValue::Execute` over the ids after the first. -/
def ResolveFields : List String → Holder → World → Except (Stop Statement) Holder
  | [], result, _ => .ok result
  | id :: ids, result, w =>
    match result with
    | some (.ClassInstance addr _) =>
      match (w.fieldsOf addr).lookup id with
      | some v => ResolveFields ids v w
      | none =>
        .error (.thrown (.runtime_error
          ("Error in VariableValue::Execute: \"" ++ id ++ "\" field was not found")))
    | _ => .error .assertion

/-- The member `VariableValue::Execute`. -/
def VariableValueExecute (dotted_ids : List String) (closure : Env) (w : World) :
    Except (Stop Statement) Holder :=
  match dotted_ids with
  | [] => .error .assertion
  | id0 :: ids =>
    match closure.lookup id0 with
    | some result => ResolveFields ids result w
    | none =>
      .error (.thrown (.runtime_error
        ("Error in VariableValue::Execute: \"" ++ id0 ++ "\" field was not found")))

/-- The arithmetic of `Add::Execute` on two evaluated operands. -/
def AddHolders (exec : Executor Statement World) (lhs rhs : Holder) (w : World) :
    Except (Stop Statement) Holder × World :=
  match lhs, rhs with
  | some (.ClassInstance addr cls), some r =>
    if HasMethod cls "__add__" 1 then Call exec addr cls "__add__" [some r] w
    else (.error (.thrown (.runtime_error "Error in Add::Execute")), w)
  | some (.Number number1), some (.Number number2) =>
    (.ok (some (.Number (wrapInt (number1 + number2)))), w)
  | some (.String str1), some (.String str2) => (.ok (some (.String (str1 ++ str2))), w)
  | some (.Bool bool1), some (.Bool bool2) =>
    (.ok (some (.Bool (bool1.toNat + bool2.toNat != 0))), w)
  | _, _ => (.error (.thrown (.runtime_error "Error in Add::Execute")), w)

/-- The arithmetic of `Div::Execute` on two evaluated operands.  The machine division
traps on a zero divisor and on `INT_MIN / -1`; otherwise the quotient is truncated. -/
def DivHolders (lhs rhs : Holder) : Except (Stop Statement) Holder :=
  match lhs, rhs with
  | some (.Number number1), some (.Number number2) =>
    if number2 = 0 ∨ (number1 = INT_MIN ∧ number2 = -1) then .error .undefined
    else .ok (some (.Number (Int.tdiv number1 number2)))
  | _, _ => .error (.thrown (.runtime_error "Error in Dir::Execute"))

/-- The arithmetic of `Sub::Execute` on two evaluated operands. -/
def SubHolders (lhs rhs : Holder) : Except (Stop Statement) Holder :=
  match lhs, rhs with
  | some (.Number number1), some (.Number number2) =>
    .ok (some (.Number (wrapInt (number1 - number2))))
  | _, _ => .error (.thrown (.runtime_error "Error in Sub::Execute"))

/-- The arithmetic of `Mult::Execute` on two evaluated operands. -/
def MultHolders (lhs rhs : Holder) : Except (Stop Statement) Holder :=
  match lhs, rhs with
  | some (.Number number1), some (.Number number2) =>
    .ok (some (.Number (wrapInt (number1 * number2))))
  | _, _ => .error (.thrown (.runtime_error "Error in Mult::Execute"))

/-- The call `comparator_(lhs, rhs, context)`. -/
def Comparator.apply (cmp : Comparator) (exec : Executor Statement World) (lhs rhs : Holder)
    (w : World) : Except (Stop Statement) Bool × World :=
  match cmp with
  | .Equal => Mython.Equal exec lhs rhs w
  | .NotEqual => Mython.NotEqual exec lhs rhs w
  | .Less => Mython.Less exec lhs rhs w
  | .Greater => Mython.Greater exec lhs rhs w
  | .LessOrEqual => Mython.LessOrEqual exec lhs rhs w
  | .GreaterOrEqual => Mython.GreaterOrEqual exec lhs rhs w

/-- The evaluation of two operands, the left one first (`lhs_->Execute`, then
`rhs_->Execute`), followed by `f` on the two holders. -/
def ExecuteBinary (ex : Statement → Env → World → Res) (lhs rhs : Statement)
    (f : Holder → Holder → World → Except (Stop Statement) Holder × World)
    (closure : Env) (w : World) : Res :=
  match ex lhs closure w with
  | (.ok l, closure1, w1) =>
    match ex rhs closure1 w1 with
    | (.ok r, closure2, w2) => ((f l r w2).1, closure2, (f l r w2).2)
    | (.error e, closure2, w2) => (.error e, closure2, w2)
  | (.error e, closure1, w1) => (.error e, closure1, w1)

/-- The virtual call `body->Execute(closure, context)` as `Call` sees it: the closure is
local to the call and dropped when it ends. -/
def asExecutor (ex : Statement → Env → World → Res) : Executor Statement World :=
  fun body closure w => ((ex body closure w).1, (ex body closure w).2.2)

/-- Modelled from the spec: a literal node (`NumericConst`, `StringConst`, `BoolConst`,
`None` of `statement.h`, which is absent) evaluates to the value it holds and changes
nothing. -/
def ValueStatementExecute (value : Holder) (closure : Env) (w : World) : Res :=
  (.ok value, closure, w)

/-- The virtual member `Execute` of the node classes; `fuel` bounds the depth of the
evaluation. -/
def Execute : Nat → Statement → Env → World → Res
  | 0, _, closure, context => (.error .outOfFuel, closure, context)
  | fuel + 1, stmt, closure, context =>
    match stmt with
    | .ValueStatement value => ValueStatementExecute value closure context
    | .Assignment var rv =>
      match Execute fuel rv closure context with
      | (.ok v, closure1, context1) => (.ok v, closure1.assign var v, context1)
      | (.error e, closure1, context1) => (.error e, closure1, context1)
    | .VariableValue dotted_ids =>
      (VariableValueExecute dotted_ids closure context, closure, context)
    | .Print (some name) _ =>
      match closure.lookup name with
      | none => (.error (.thrown (.runtime_error "Error in Print::Execute")), closure, context)
      | some none => (.error .assertion, closure, context)
      | some (some obj) =>
        match PrintObject (asExecutor (Execute fuel)) fuel obj context with
        | (.ok text, context1) => (.ok none, closure, (context1.write text).write "\n")
        | (.error e, context1) => (.error e, closure, context1)
    | .Print none [] => (.ok none, closure, context.write "\n")
    | .Print none (arg :: rest) =>
      match Execute fuel arg closure context with
      | (.ok obj_h, closure1, context1) =>
        match PrintHolder (asExecutor (Execute fuel)) fuel obj_h context1 with
        | (.ok _, context2) =>
          match PrintRest (Execute fuel) (asExecutor (Execute fuel)) fuel rest closure1
              context2 with
          | (.ok _, closure3, context3) => (.ok none, closure3, context3.write "\n")
          | (.error e, closure3, context3) => (.error e, closure3, context3)
        | (.error e, context2) => (.error e, closure1, context2)
      | (.error e, closure1, context1) => (.error e, closure1, context1)
    | .MethodCall object method args =>
      match ExecuteArgs (Execute fuel) args closure context with
      | (.ok actual_args, closure1, context1) =>
        match Execute fuel object closure1 context1 with
        | (.ok (some (.ClassInstance addr cls)), closure2, context2) =>
          ((Call (asExecutor (Execute fuel)) addr cls method actual_args context2).1, closure2,
           (Call (asExecutor (Execute fuel)) addr cls method actual_args context2).2)
        | (.ok _, closure2, context2) => (.error .undefined, closure2, context2)
        | (.error e, closure2, context2) => (.error e, closure2, context2)
      | (.error e, closure1, context1) => (.error e, closure1, context1)
    | .Stringify argument =>
      match Execute fuel argument closure context with
      | (.ok (some obj), closure1, context1) =>
        match PrintObject (asExecutor (Execute fuel)) fuel obj context1 with
        | (.ok text, context2) => (.ok (some (.String text)), closure1, context2)
        | (.error e, context2) => (.error e, closure1, context2)
      | (.ok none, closure1, context1) => (.ok (some (.String "None")), closure1, context1)
      | (.error e, closure1, context1) => (.error e, closure1, context1)
    | .Add lhs rhs =>
      ExecuteBinary (Execute fuel) lhs rhs (AddHolders (asExecutor (Execute fuel))) closure
        context
    | .Sub lhs rhs =>
      ExecuteBinary (Execute fuel) lhs rhs (fun l r w => (SubHolders l r, w)) closure context
    | .Mult lhs rhs =>
      ExecuteBinary (Execute fuel) lhs rhs (fun l r w => (MultHolders l r, w)) closure context
    | .Div lhs rhs =>
      ExecuteBinary (Execute fuel) lhs rhs (fun l r w => (DivHolders l r, w)) closure context
    | .Compound args => ExecuteCompound (Execute fuel) args closure context
    | .Return statement =>
      match Execute fuel statement closure context with
      | (.ok v, closure1, context1) => (.error (.thrown (.object_holder v)), closure1, context1)
      | (.error e, closure1, context1) => (.error e, closure1, context1)
    | .ClassDefinition cls =>
      match cls with
      | some (.Class c) => (.ok none, closure.assign c.GetName cls, context)
      | _ => (.error .undefined, closure, context)
    | .FieldAssignment object field_name rv =>
      match VariableValueExecute object closure context with
      | .ok (some (.ClassInstance addr _)) =>
        match Execute fuel rv closure context with
        | (.ok v, closure1, context1) => (.ok v, closure1, context1.setField addr field_name v)
        | (.error e, closure1, context1) => (.error e, closure1, context1)
      | .ok _ =>
        (.error (.thrown (.runtime_error
          "FieldAssignment::Execute: Error in FieldAssignment::Execute")), closure, context)
      | .error e => (.error e, closure, context)
    | .IfElse condition if_body else_body =>
      match Execute fuel condition closure context with
      | (.ok c, closure1, context1) =>
        if IsTrue c then Execute fuel if_body closure1 context1
        else
          match else_body with
          | some else_body => Execute fuel else_body closure1 context1
          | none => (.ok none, closure1, context1)
      | (.error e, closure1, context1) => (.error e, closure1, context1)
    | .Or lhs rhs =>
      match Execute fuel lhs closure context with
      | (.ok l, closure1, context1) =>
        if IsTrue l then (.ok (some (.Bool true)), closure1, context1)
        else
          match Execute fuel rhs closure1 context1 with
          | (.ok r, closure2, context2) => (.ok (some (.Bool (IsTrue r))), closure2, context2)
          | (.error e, closure2, context2) => (.error e, closure2, context2)
      | (.error e, closure1, context1) => (.error e, closure1, context1)
    | .And lhs rhs =>
      match Execute fuel lhs closure context with
      | (.ok l, closure1, context1) =>
        if !IsTrue l then (.ok (some (.Bool false)), closure1, context1)
        else
          match Execute fuel rhs closure1 context1 with
          | (.ok r, closure2, context2) => (.ok (some (.Bool (IsTrue r))), closure2, context2)
          | (.error e, closure2, context2) => (.error e, closure2, context2)
      | (.error e, closure1, context1) => (.error e, closure1, context1)
    | .Not argument =>
      match Execute fuel argument closure context with
      | (.ok a, closure1, context1) => (.ok (some (.Bool (!IsTrue a))), closure1, context1)
      | (.error e, closure1, context1) => (.error e, closure1, context1)
    | .Comparison cmp lhs rhs =>
      -- C++ leaves the order of the two operand evaluations open here; left first
      ExecuteBinary (Execute fuel) lhs rhs
        (fun l r w =>
          match cmp.apply (asExecutor (Execute fuel)) l r w with
          | (.ok b, w1) => (.ok (some (.Bool b)), w1)
          | (.error e, w1) => (.error e, w1))
        closure context
    | .NewInstance addr cls args =>
      if HasMethod cls "__init__" args.length then
        match ExecuteArgs (Execute fuel) args closure context with
        | (.ok objs, closure1, context1) =>
          match Call (asExecutor (Execute fuel)) addr cls "__init__" objs context1 with
          | (.ok _, context2) => (.ok (some (.ClassInstance addr cls)), closure1, context2)
          | (.error e, context2) => (.error e, closure1, context2)
        | (.error e, closure1, context1) => (.error e, closure1, context1)
      else (.ok (some (.ClassInstance addr cls)), closure, context)
    | .MethodBody body =>
      match Execute fuel body closure context with
      | (.ok _, closure1, context1) => (.ok none, closure1, context1)
      | (.error (.thrown (.object_holder obj_h)), closure1, context1) =>
        (.ok obj_h, closure1, context1)
      | (.error e, closure1, context1) => (.error e, closure1, context1)

/-! ## Auxiliary definitions for the statements about calls and evaluation -/

/-- The exception of `ClassInstance::Call`. -/
def methodNotFound (B : Type) (method : String) : Stop B :=
  .thrown (.runtime_error
    ("Error in ClassInstance::Call: \"" ++ method ++ "\" method in Call was not found"))

/-- Some declaration of the chain has a method called `name` with `n` formal
parameters. -/
def declaresWithArity {B : Type} (chain : List (ClassDecl B)) (name : String) (n : Nat) :
    Bool :=
  chain.any (fun d => d.2.any (fun x => x.name == name && x.formal_params.length == n))

/-- A class `B` that declares `m(a, b)`, derived from a class `A` that declares `m(a)`. -/
def classBoverA : Class Unit :=
  Class.ofChain ("B", [⟨"m", ["a", "b"], ()⟩]) [("A", [⟨"m", ["a"], ()⟩])]

/-- The literal node of a Number. -/
def NumericConst (n : Int) : Statement := .ValueStatement (some (.Number n))

/-- The literal node of a String. -/
def StringConst (s : String) : Statement := .ValueStatement (some (.String s))

/-- The literal node of a Bool. -/
def BoolConst (b : Bool) : Statement := .ValueStatement (some (.Bool b))

/-- The state before a program runs: nothing written, no field set. -/
def World.initial : World := { output := "", fields := [] }

/-- The method body of scenario S6, `if x: return 1 else return 2`, followed by a
statement that prints, all wrapped in `MethodBody`. -/
def bodyS6 : Statement :=
  .MethodBody (.Compound [
    .IfElse (.VariableValue ["x"]) (.Return (NumericConst 1)) (some (.Return (NumericConst 2))),
    .Print none [StringConst "after the return"]])

/-- A class whose method `pick(x)` has the body of scenario S6. -/
def classS6 : Class Statement := Class.new "S" [⟨"pick", ["x"], bodyS6⟩] none

/-- A caller of scenario S6: calls `pick(0)` on an instance and prints the result and
then goes on to print `done`. -/
def callerS6 : Statement :=
  .Compound [
    .Assignment "s" (.NewInstance 0 classS6 []),
    .Print none [.MethodCall (.VariableValue ["s"]) "pick" [NumericConst 0]],
    .Print none [StringConst "done"]]

/-- A class `A` without methods. -/
def classA : Class Statement := Class.new "A" [] none

/-- A class `F` whose method `make()` is `return A()`; the `NewInstance` node of `A()` is
the one at address 1. -/
def classF : Class Statement :=
  Class.new "F" [⟨"make", [], .MethodBody (.Return (.NewInstance 1 classA []))⟩] none

/-- The program `f = F(); p = f.make(); q = f.make(); p.x = 1; print q.x`: the node
`A()` inside `make` is executed twice. -/
def programTwoInstances : Statement :=
  .Compound [
    .Assignment "f" (.NewInstance 0 classF []),
    .Assignment "p" (.MethodCall (.VariableValue ["f"]) "make" []),
    .Assignment "q" (.MethodCall (.VariableValue ["f"]) "make" []),
    .FieldAssignment ["p"] "x" (NumericConst 1),
    .Print none [.VariableValue ["q", "x"]]]

/-- A class `L` with `__init__()` printing `obj`, `m(a)` returning `a`, and `log()`
printing `arg` and returning 0. -/
def classL : Class Statement :=
  Class.new "L" [
    ⟨"__init__", [], .MethodBody (.Print none [StringConst "obj"])⟩,
    ⟨"m", ["a"], .MethodBody (.Return (.VariableValue ["a"]))⟩,
    ⟨"log", [], .MethodBody (.Compound [.Print none [StringConst "arg"],
      .Return (NumericConst 0)])⟩] none

/-- The method call `L().m(self.log())` as `L` would write it: the object expression
prints `obj`, the argument expression prints `arg`. -/
def callWithEffects : Statement :=
  .MethodCall (.NewInstance 1 classL []) "m" [.MethodCall (.VariableValue ["self"]) "log" []]

/-- The program `x = 1; x.m()`. -/
def programCallOnNumber : Statement :=
  .Compound [
    .Assignment "x" (NumericConst 1),
    .MethodCall (.VariableValue ["x"]) "m" []]

/-- The sum of two operands that do not dispatch to `__add__`, in the words of the
specification: Number with Number, String with String, Bool with Bool (true when one of
them is); anything else is the error of `Add`. -/
def AddPrimitive (lhs rhs : Holder) : Except (Stop Statement) Holder :=
  match lhs, rhs with
  | some (.Number a), some (.Number b) => .ok (some (.Number (wrapInt (a + b))))
  | some (.String s), some (.String t) => .ok (some (.String (s ++ t)))
  | some (.Bool p), some (.Bool q) => .ok (some (.Bool (p || q)))
  | _, _ => .error (.thrown (.runtime_error "Error in Add::Execute"))

/-- A value that is absent or a Number, a String or a Bool. -/
def isPrimitiveOrNone : Holder → Bool
  | none => true
  | some (.Number _) => true
  | some (.String _) => true
  | some (.Bool _) => true
  | some _ => false

/-- The rendering of the specification: `None` for an absent value, `True` or `False`,
a Number in decimal, a String as it is. -/
def renderPrimitive : Holder → String
  | none => "None"
  | some (.Bool b) => if b then "True" else "False"
  | some (.Number n) => toString n
  | some (.String s) => s
  | some _ => ""

/-- Texts separated by exactly one space. -/
def joinWithSpaces : List String → String
  | [] => ""
  | [s] => s
  | s :: t :: rest => s ++ " " ++ joinWithSpaces (t :: rest)

/-- Evaluating the arguments in order and writing their renderings, `sep` before the
first and one space before each of the others, leads from one closure and state to
another: each argument is evaluated in the state left by what was written before it. -/
inductive PrintsArgs (fuel : Nat) : String → List Statement → Env → World → Env → World → Prop
  | nil (sep : String) (closure : Env) (w : World) : PrintsArgs fuel sep [] closure w closure w
  | cons (sep : String) (arg : Statement) (rest : List Statement) (closure closure1 closure2 : Env)
      (w w1 w2 : World) (v : Holder) :
      Execute fuel arg closure (w.write sep) = (.ok v, closure1, w1) →
      isPrimitiveOrNone v = true →
      PrintsArgs fuel " " rest closure1 (w1.write (renderPrimitive v)) closure2 w2 →
      PrintsArgs fuel sep (arg :: rest) closure w closure2 w2

/-- Texts separated by single spaces, with `sep` in front when there is any text. -/
def separated (sep : String) : List String → String
  | [] => ""
  | u :: us => sep ++ joinWithSpaces (u :: us)

/-! ## Auxiliary definitions for the statements about return, instances and sums -/

/-- Executing `stmt` with the budget `fuel` from `closure` and `w` reaches a `Return(e)`
that lies in `stmt` under any nesting of `Compound` and `IfElse`: the statements in front
of it in each enclosing `Compound` run to their end, each enclosing `IfElse` evaluates its
condition and takes the branch that holds it, and `e` evaluates to `v`, leaving `closure1`
and `w1`. -/
inductive ReachesReturn : Nat → Statement → Env → World → Holder → Env → World → Prop
  | here (fuel : Nat) (e : Statement) (closure closure1 : Env) (w w1 : World) (v : Holder) :
      Execute fuel e closure w = (.ok v, closure1, w1) →
      ReachesReturn (fuel + 1) (.Return e) closure w v closure1 w1
  | compound (fuel : Nat) (pre : List Statement) (s : Statement) (post : List Statement)
      (closure closure0 closure1 : Env) (w w0 w1 : World) (v : Holder) :
      ExecuteCompound (Execute fuel) pre closure w = (.ok none, closure0, w0) →
      ReachesReturn fuel s closure0 w0 v closure1 w1 →
      ReachesReturn (fuel + 1) (.Compound (pre ++ s :: post)) closure w v closure1 w1
  | ifTrue (fuel : Nat) (c a : Statement) (b : Option Statement)
      (closure closure0 closure1 : Env) (w w0 w1 : World) (x v : Holder) :
      Execute fuel c closure w = (.ok x, closure0, w0) → IsTrue x = true →
      ReachesReturn fuel a closure0 w0 v closure1 w1 →
      ReachesReturn (fuel + 1) (.IfElse c a b) closure w v closure1 w1
  | ifFalse (fuel : Nat) (c a b : Statement)
      (closure closure0 closure1 : Env) (w w0 w1 : World) (x v : Holder) :
      Execute fuel c closure w = (.ok x, closure0, w0) → IsTrue x = false →
      ReachesReturn fuel b closure0 w0 v closure1 w1 →
      ReachesReturn (fuel + 1) (.IfElse c a (some b)) closure w v closure1 w1

/-- The body `print "a"; if x: (return 7; print "b"); print "c"`: the `Return` lies in a
`Compound` inside an `IfElse` without else branch inside the `Compound` of the body. -/
def bodyNested : Statement :=
  .Compound [
    .Print none [StringConst "a"],
    .IfElse (.VariableValue ["x"])
      (.Compound [.Return (NumericConst 7), .Print none [StringConst "b"]]) none,
    .Print none [StringConst "c"]]

/-- A class `P` whose method `__add__(other)` is `return 1`. -/
def classP : Class Statement :=
  Class.new "P" [⟨"__add__", ["other"], .MethodBody (.Return (NumericConst 1))⟩] none

/-- The sum `p + None` for a variable `p`. -/
def sumWithNone : Statement := .Add (.VariableValue ["p"]) (.ValueStatement none)

/-! ## Auxiliary definitions for the statement about the derived comparisons -/

/-- The six comparison functions on `a` and `b` all return without changing the state
`w`, and their results are related as the order demands: `Greater(a, b)` is `Less(b, a)`,
`GreaterOrEqual(a, b)` is `LessOrEqual(b, a)` and is `Greater(a, b) or Equal(a, b)`,
`NotEqual(a, b)` is `Less(a, b) or Less(b, a)`. -/
def ComparisonsConsistent {B W : Type} (exec : Executor B W) (a b : ObjectHolder B)
    (w : W) : Prop :=
  ∃ lt eq gt ne le ge lt' le' : Bool,
    Less exec a b w = (.ok lt, w) ∧ Equal exec a b w = (.ok eq, w) ∧
    Greater exec a b w = (.ok gt, w) ∧ NotEqual exec a b w = (.ok ne, w) ∧
    LessOrEqual exec a b w = (.ok le, w) ∧ GreaterOrEqual exec a b w = (.ok ge, w) ∧
    Less exec b a w = (.ok lt', w) ∧ LessOrEqual exec b a w = (.ok le', w) ∧
    gt = lt' ∧ ge = le' ∧ ge = (gt || eq) ∧ ne = (lt || lt')

/-! ## Auxiliary definitions for the statement about unrecognized escapes -/

/-- The pieces of a body in which every backslash is followed by a byte other than a
backslash: ordinary bytes other than the backslash and the opening quote `q`, and a
backslash followed by any byte but the backslash. -/
def StrPiece.accepted (q : Char) : StrPiece → Bool
  | .plain c => c != '\\' && c != q
  | .escape c => c != '\\'

/-- The escapes that are not among `\'`, `\"`, `\n`, `\t` and not a double backslash. -/
def unrecognizedEscape (x : Char) : Bool :=
  x != '\'' && x != '"' && x != 'n' && x != 't' && x != '\\'

/-- What a piece adds to the payload: an ordinary byte itself, a recognized escape the
byte it denotes, any other escape a single backslash. -/
def StrPiece.payload : StrPiece → List Char
  | .plain c => [c]
  | .escape c =>
    if c = '\'' ∨ c = '"' ∨ c = 'n' ∨ c = 't' then [StrPiece.value (.escape c)] else ['\\']

/-- The payload of a body. -/
def bodyPayload : List StrPiece → List Char
  | [] => []
  | x :: xs => x.payload ++ bodyPayload xs

/-! ## Auxiliary definitions for the statement about blank lines -/

/-- The relation "not both `Newline`" between a token and the one returned after it. -/
def NotBothNewline (prev next : Token) : Prop :=
  ¬ (prev = .Newline ∧ next = .Newline)

/-- A line that holds no token: `2 * indent` spaces, then either the line feed at once or
a comment, which is `#`, a text and the line feed. -/
structure BlankLine where
  indent : Nat
  comment : Option (List Char)
deriving DecidableEq, Repr

/-- The source text of such a line. -/
def BlankLine.source (b : BlankLine) : List Char :=
  match b.comment with
  | none => List.replicate (2 * b.indent) ' ' ++ ['\n']
  | some text => List.replicate (2 * b.indent) ' ' ++ '#' :: (text ++ ['\n'])

/-- The text of a comment holds no line feed. -/
def BlankLine.wellFormed (b : BlankLine) : Bool :=
  match b.comment with
  | none => true
  | some text => text.all (fun c => c != '\n')

/-- The source text of a run of such lines. -/
def blankSource : List BlankLine → List Char
  | [] => []
  | b :: bs => b.source ++ blankSource bs

/-- The text does not go on with a space, a line feed or a `#`: it is at its end or at a
byte of another kind. -/
def startsToken : List Char → Bool
  | [] => true
  | c :: _ => c != ' ' && c != '\n' && c != '#'

/-- The loops at the head of the `Newline` branch of `NextToken`, from the byte `c` just
read: the count of the indent, then the loop over blank and comment lines. -/
def lineScan (n fuel : Nat) (c : Char) (s : IStream) : Except LexFail (Nat × Char × IStream) :=
  match countIndent n 0 c s with
  | .error e => .error e
  | .ok (i, c1, s1) => lineStartLoop n fuel i c1 s1

/-- One round of the loop over blank and comment lines, entered at its inner loop with a
budget `m` of its own. -/
def skipScan (n m fuel : Nat) (c : Char) (s : IStream) :
    Except LexFail (Nat × Char × IStream) :=
  match skipLines m c s with
  | .error e => .error e
  | .ok (c1, s1) => lineScan n fuel c1 s1

/-! ## Lexer: structure of one step -/

theorem ite_isLayout (c : Prop) [Decidable c] (a b : Token) (ha : a.isLayout = false)
    (hb : b.isLayout = false) : (if c then a else b).isLayout = false := by
  by_cases h : c
  · rw [if_pos h]; exact ha
  · rw [if_neg h]; exact hb

theorem keyword_not_layout (str : List Char) : (keyword str).isLayout = false := by
  unfold keyword
  repeat' (first | rfl | apply ite_isLayout)

theorem keyword_ne (str : List Char) :
    keyword str ≠ .Indent ∧ keyword str ≠ .Dedent ∧ keyword str ≠ .Eof ∧
      keyword str ≠ .Newline := by
  have h := keyword_not_layout str
  refine ⟨?_, ?_, ?_, ?_⟩ <;> intro e <;> rw [e] at h <;> cases h

/-- What `classify` can do to the lexer state: either the synthetic `Newline` at the end
of input, or a token that is neither `Indent` nor `Dedent` with the levels untouched. -/
theorem classify_cases {fuel : Nat} {lx lx1 : Lexer} {c : Char} {s : IStream}
    (h : classify fuel lx c s = .ok lx1) :
    (lx1.token = .Newline ∧ lx1.indent = 0 ∧ lx1.dedent = lx.indent ∧ c = '\xff' ∧
        lx.token ≠ .Newline ∧ lx.token ≠ .Dedent) ∨
      (lx1.indent = lx.indent ∧ lx1.dedent = lx.dedent ∧ lx1.token ≠ .Indent ∧
        lx1.token ≠ .Dedent ∧
        (lx1.token = .Eof → c = '\xff' ∧ (lx.token = .Newline ∨ lx.token = .Dedent))) := by
  unfold classify at h
  by_cases h1 : c = '\xff'
  · rw [if_pos h1] at h
    split at h
    · injection h with h; subst h; simp_all
    · injection h with h; subst h
      right
      refine ⟨rfl, rfl, by simp, by simp, fun _ => ⟨h1, ?_⟩⟩
      tauto
  rw [if_neg h1] at h
  right
  by_cases h2 : isDigit c = true
  · rw [if_pos h2] at h
    injection h with h; subst h; simp
  rw [if_neg h2] at h
  by_cases h3 : c = '\'' ∨ c = '"'
  · rw [if_pos h3] at h
    split at h
    · injection h
    · injection h with h; subst h; simp
  rw [if_neg h3] at h
  split at h
  · split at h
    · injection h
    · injection h with h; subst h; simp [keyword_ne]
  repeat' (first
    | (injection h with h; subst h; simp)
    | injection h
    | split at h)

/-- One call of `NextToken`, seen from the outside: the ways the returned state can
relate to the state before. -/
theorem NextToken_cases {fuel : Nat} {lx lx1 : Lexer} (h : NextToken fuel lx = .ok lx1) :
    (lx.token = .Eof ∧ lx1 = lx) ∨
    (lx.token ≠ .Eof ∧ 0 < lx.dedent ∧ lx1.token = .Dedent ∧ lx1.indent = lx.indent ∧
        lx1.dedent + 1 = lx.dedent) ∨
    (lx.token = .Newline ∧ lx.dedent = 0 ∧ lx1.token = .Indent ∧
        lx1.indent = lx.indent + 1 ∧ lx1.dedent = 0) ∨
    (lx.token = .Newline ∧ lx.dedent = 0 ∧ lx1.token = .Dedent ∧
        lx1.indent + lx1.dedent + 1 = lx.indent) ∨
    (lx.token ≠ .Eof ∧ lx.dedent = 0 ∧ ∃ c s, classify fuel lx c s = .ok lx1) := by
  unfold NextToken at h
  by_cases h1 : lx.token = .Eof
  · rw [if_pos h1] at h
    injection h with h
    exact Or.inl ⟨h1, h.symm⟩
  rw [if_neg h1] at h
  by_cases h2 : lx.dedent > 0
  · rw [if_pos h2] at h
    injection h with h; subst h
    refine Or.inr (Or.inl ⟨h1, h2, rfl, rfl, ?_⟩)
    show lx.dedent - 1 + 1 = lx.dedent
    omega
  rw [if_neg h2] at h
  have hd : lx.dedent = 0 := by omega
  by_cases h3 : lx.token = .Newline
  · simp only [h3, if_true] at h
    split at h
    · injection h
    · split at h
      · injection h
      · split at h
        · injection h with h; subst h
          exact Or.inr (Or.inr (Or.inl ⟨h3, hd, rfl, rfl, hd⟩))
        · split at h
          · injection h with h; subst h
            refine Or.inr (Or.inr (Or.inr (Or.inl ⟨h3, hd, rfl, ?_⟩)))
            dsimp only
            omega
          · exact Or.inr (Or.inr (Or.inr (Or.inr ⟨h1, hd, _, _, h⟩)))
  · simp only [h3, if_false] at h
    split at h
    · injection h
    · exact Or.inr (Or.inr (Or.inr (Or.inr ⟨h1, hd, _, _, h⟩)))

/-- Bookkeeping of one step: the open levels (`indent + dedent`) change exactly by the
`Indent` or `Dedent` returned. -/
theorem NextToken_levels {fuel : Nat} {lx lx1 : Lexer} (h : NextToken fuel lx = .ok lx1) :
    lx1.indent + lx1.dedent + lx1.token.dedents = lx.indent + lx.dedent + lx1.token.indents := by
  rcases NextToken_cases h with ⟨h1, rfl⟩ | ⟨_, _, h1, h2, h3⟩ | ⟨_, h0, h1, h2, h3⟩ |
    ⟨_, h0, h1, h2⟩ | ⟨_, h0, c, s, hc⟩
  · simp [Token.indents, Token.dedents, h1]
  · simp [Token.indents, Token.dedents, h1]; omega
  · simp [Token.indents, Token.dedents, h1]; omega
  · simp [Token.indents, Token.dedents, h1]; omega
  · rcases classify_cases hc with ⟨h1, h2, h3, _⟩ | ⟨h1, h2, h3, h4, _⟩
    · simp [Token.indents, Token.dedents, h1]; omega
    · simp [Token.indents, Token.dedents, h3, h4]; omega

/-- An `Eof` is only ever returned after `Newline`, `Dedent` or `Eof`. -/
theorem NextToken_eof {fuel : Nat} {lx lx1 : Lexer} (h : NextToken fuel lx = .ok lx1)
    (he : lx1.token = .Eof) :
    lx.token = .Eof ∨ lx.token = .Newline ∨ lx.token = .Dedent := by
  rcases NextToken_cases h with ⟨h1, rfl⟩ | ⟨_, _, h1, _⟩ | ⟨_, _, h1, _⟩ |
    ⟨_, _, h1, _⟩ | ⟨_, _, c, s, hc⟩
  · exact Or.inl h1
  · rw [h1] at he; cases he
  · rw [h1] at he; cases he
  · rw [h1] at he; cases he
  · rcases classify_cases hc with ⟨h1, _⟩ | ⟨_, _, _, _, h5⟩
    · rw [h1] at he; cases he
    · exact Or.inr (h5 he).2

/-! ## Lexer: runs of several steps -/

theorem lexSteps_succ {fuel n : Nat} {lx lx2 : Lexer} {ts : List Token}
    (h : lexSteps fuel (n + 1) lx = .ok (ts, lx2)) :
    ∃ lx1 ts1, NextToken fuel lx = .ok lx1 ∧ lexSteps fuel n lx1 = .ok (ts1, lx2) ∧
      ts = lx1.token :: ts1 := by
  unfold lexSteps at h
  split at h
  · injection h
  · rename_i lx1 h1
    split at h
    · injection h
    · rename_i ts1 lx3 h2
      injection h with h
      injection h with ha hb
      subst ha; subst hb
      exact ⟨lx1, ts1, h1, h2, rfl⟩

theorem lexSteps_length {fuel : Nat} : ∀ {n : Nat} {lx lx2 : Lexer} {ts : List Token},
    lexSteps fuel n lx = .ok (ts, lx2) → ts.length = n
  | 0, lx, lx2, ts, h => by
    unfold lexSteps at h
    injection h with h; injection h with ha hb; subst ha; rfl
  | n + 1, lx, lx2, ts, h => by
    obtain ⟨lx1, ts1, _, h2, rfl⟩ := lexSteps_succ h
    simp [lexSteps_length h2]

/-- Every prefix of a run is itself a run. -/
theorem lexSteps_take {fuel : Nat} : ∀ {n : Nat} {lx lx2 : Lexer} {ts : List Token},
    lexSteps fuel n lx = .ok (ts, lx2) → ∀ m, m ≤ n →
      ∃ lxm, lexSteps fuel m lx = .ok (ts.take m, lxm)
  | _, lx, _, _, _, 0, _ => ⟨lx, by simp [lexSteps]⟩
  | n + 1, lx, lx2, ts, h, m + 1, hm => by
    obtain ⟨lx1, ts1, h1, h2, rfl⟩ := lexSteps_succ h
    obtain ⟨lxm, h3⟩ := lexSteps_take h2 m (by omega)
    exact ⟨lxm, by simp [lexSteps, h1, h3]⟩

/-- Bookkeeping of a run: open levels afterwards plus `Dedent`s returned equal open
levels before plus `Indent`s returned. -/
theorem lexSteps_levels {fuel : Nat} : ∀ {n : Nat} {lx lx2 : Lexer} {ts : List Token},
    lexSteps fuel n lx = .ok (ts, lx2) →
      lx2.indent + lx2.dedent + ts.count .Dedent = lx.indent + lx.dedent + ts.count .Indent
  | 0, lx, lx2, ts, h => by
    unfold lexSteps at h
    injection h with h; injection h with ha hb; subst ha; subst hb; simp
  | n + 1, lx, lx2, ts, h => by
    obtain ⟨lx1, ts1, h1, h2, rfl⟩ := lexSteps_succ h
    have e1 := NextToken_levels h1
    have e2 := lexSteps_levels h2
    have c1 : (lx1.token :: ts1).count .Dedent = ts1.count .Dedent + lx1.token.dedents := by
      simp [List.count_cons, Token.dedents]
    have c2 : (lx1.token :: ts1).count .Indent = ts1.count .Indent + lx1.token.indents := by
      simp [List.count_cons, Token.indents]
    omega

theorem lexSteps_chain {fuel : Nat} : ∀ {n : Nat} {lx lx2 : Lexer} {ts : List Token},
    lexSteps fuel n lx = .ok (ts, lx2) → List.Chain EofAfter lx.token ts
  | 0, lx, lx2, ts, h => by
    unfold lexSteps at h
    injection h with h; injection h with ha hb; subst ha; exact List.Chain.nil
  | n + 1, lx, lx2, ts, h => by
    obtain ⟨lx1, ts1, h1, h2, rfl⟩ := lexSteps_succ h
    exact List.Chain.cons (fun he => NextToken_eof h1 he) (lexSteps_chain h2)

/-- C3. Prefix balance: in every prefix of the token stream the lexer emits for an
input, the `Dedent` tokens are at most as many as the `Indent` tokens. -/
theorem lexer_prefix_balance (fuel n : Nat) (data : List Char) (ts : List Token)
    (lx2 : Lexer) (h : tokenize fuel n data = .ok (ts, lx2)) (p : List Token)
    (hp : p <+: ts) : p.count .Dedent ≤ p.count .Indent := by
  have hlen : ts.length = n := lexSteps_length h
  have hple : p.length ≤ n := hlen ▸ hp.length_le
  obtain ⟨lxm, hm⟩ := lexSteps_take h p.length hple
  rw [← List.prefix_iff_eq_take.mp hp] at hm
  have e := lexSteps_levels hm
  simp only [Lexer.start] at e
  omega

theorem lexer_prefix_balance_witness :
    ([Token.If, .Number 1, .Char ':', .Newline, .Indent, .Id ['x'], .Char '=', .Number 2,
        .Newline, .Id ['y'], .Char '=', .Number 3, .Newline, .Dedent] : List Token).count
        .Dedent ≤
      ([Token.If, .Number 1, .Char ':', .Newline, .Indent, .Id ['x'], .Char '=', .Number 2,
        .Newline, .Id ['y'], .Char '=', .Number 3, .Newline, .Dedent] : List Token).count
        .Indent :=
  lexer_prefix_balance 40 19 "if 1:\n  x = 2\n  y = 3\nz = 4\n".toList _ _ rfl _
    ⟨[.Id ['z'], .Char '=', .Number 4, .Newline, .Eof], rfl⟩

/-- C4. Lexer EOF: whenever the lexer reaches `Eof`, the token emitted immediately before
the first `Eof` exists and is `Newline` or `Dedent`. -/
theorem lexer_eof_predecessor (fuel n : Nat) (data : List Char) (ts : List Token)
    (lx2 : Lexer) (h : tokenize fuel n data = .ok (ts, lx2)) (pre post : List Token)
    (hts : ts = pre ++ Token.Eof :: post) (hfirst : Token.Eof ∉ pre) :
    ∃ pre1, pre = pre1 ++ [Token.Newline] ∨ pre = pre1 ++ [Token.Dedent] := by
  have hc := lexSteps_chain h
  rw [hts, List.chain_split] at hc
  have hc1 := hc.1
  rcases List.eq_nil_or_concat pre with rfl | ⟨pre1, x, rfl⟩
  · rw [List.nil_append, List.chain_singleton] at hc1
    rcases hc1 rfl with e | e | e <;> simp [Lexer.start] at e
  · rw [List.concat_eq_append, List.append_assoc, List.singleton_append,
      List.chain_split] at hc1
    have hx := hc1.2
    rw [List.chain_singleton] at hx
    refine ⟨pre1, ?_⟩
    rcases hx rfl with e | e | e
    · exact absurd (by simp [e]) hfirst
    · exact Or.inl (by simp [e])
    · exact Or.inr (by simp [e])

theorem lexer_eof_predecessor_witness :
    ∃ pre1, ([Token.Id ['x'], .Newline] : List Token) = pre1 ++ [Token.Newline] ∨
      ([Token.Id ['x'], .Newline] : List Token) = pre1 ++ [Token.Dedent] :=
  lexer_eof_predecessor 10 4 "x".toList _ _ rfl [.Id ['x'], .Newline] [.Eof] rfl (by decide)

/-! ## Lexer: the indentation step -/

theorem IStream.eq_goodAt_of_good {s : IStream} (h : s.good = true) :
    s = IStream.goodAt s.consumed s.rest := by
  cases s with
  | mk p r e f b =>
    simp only [IStream.good, Bool.and_eq_true, Bool.not_eq_true'] at h
    obtain ⟨⟨rfl, rfl⟩, rfl⟩ := h
    rfl

theorem IStream.get_goodAt_cons (p r : List Char) (c : Char) :
    (IStream.goodAt p (c :: r)).get = (some c, IStream.goodAt (c :: p) r) := rfl

theorem IStream.unget_goodAt_cons (p r : List Char) (c : Char) :
    (IStream.goodAt (c :: p) r).unget = IStream.goodAt p (c :: r) := rfl

theorem toChar_some (c : Char) : toChar (some c) = c := rfl

theorem replicate_two_succ (k : Nat) (p : List Char) :
    List.replicate (2 * k) ' ' ++ ' ' :: ' ' :: p = List.replicate (2 * (k + 1)) ' ' ++ p := by
  have e : 2 * (k + 1) = 2 * k + 2 := by ring
  rw [e, List.replicate_add]
  simp

/-- The space-counting loop on a line that starts with exactly `2 * k` spaces. -/
theorem countIndent_spaces (c : Char) (tail : List Char) (hc : c ≠ ' ') :
    ∀ (k fuel i : Nat) (p : List Char), k < fuel →
      countIndent fuel i
          (toChar (IStream.goodAt p (List.replicate (2 * k) ' ' ++ c :: tail)).get.1)
          (IStream.goodAt p (List.replicate (2 * k) ' ' ++ c :: tail)).get.2 =
        .ok (i + k, c, IStream.goodAt (c :: (List.replicate (2 * k) ' ' ++ p)) tail)
  | 0, fuel + 1, i, p, _ => by
    simp [IStream.get_goodAt_cons, toChar_some, countIndent, hc]
  | k + 1, fuel + 1, i, p, hf => by
    have e : List.replicate (2 * (k + 1)) ' ' ++ c :: tail =
        ' ' :: ' ' :: (List.replicate (2 * k) ' ' ++ c :: tail) := by
      have e2 : 2 * (k + 1) = 2 + 2 * k := by ring
      rw [e2, List.replicate_add]
      rfl
    rw [e, IStream.get_goodAt_cons]
    simp only [toChar_some, countIndent, if_true, IStream.get_goodAt_cons]
    rw [countIndent_spaces c tail hc k fuel (i + 1) (' ' :: ' ' :: p) (by omega),
      replicate_two_succ]
    congr 2
    omega

theorem lineStartLoop_ordinary (n fuel i : Nat) (c : Char) (s : IStream)
    (h1 : c ≠ '\n') (h2 : c ≠ '#') :
    lineStartLoop n (fuel + 1) i c s = .ok (i, c, s) := by
  simp [lineStartLoop, h1, h2]

/-- `NextToken` right after a `Newline`, on a line of `2 * k` spaces and then a byte
that starts neither a blank nor a comment line. -/
theorem NextToken_line_start (fuel : Nat) (lx : Lexer) (k : Nat) (c : Char)
    (p tail : List Char) (htok : lx.token = .Newline) (hded : lx.dedent = 0)
    (hin : lx.input = IStream.goodAt p (List.replicate (2 * k) ' ' ++ c :: tail))
    (h0 : c ≠ ' ') (h1 : c ≠ '\n') (h2 : c ≠ '#') (hfuel : k < fuel) :
    NextToken fuel lx =
      if k > lx.indent then
        .ok { lx with input := IStream.goodAt (List.replicate (2 * k) ' ' ++ p) (c :: tail),
                      indent := lx.indent + 1, token := .Indent }
      else if k < lx.indent then
        .ok { input := IStream.goodAt (List.replicate (2 * k) ' ' ++ p) (c :: tail),
              dedent := lx.indent - k - 1, indent := k, token := .Dedent }
      else classify fuel lx c (IStream.goodAt (c :: (List.replicate (2 * k) ' ' ++ p)) tail) := by
  obtain ⟨f, rfl⟩ : ∃ f, fuel = f + 1 := ⟨fuel - 1, by omega⟩
  unfold NextToken
  rw [if_neg (by rw [htok]; simp), if_neg (by omega)]
  simp only [htok, if_true, hin]
  rw [countIndent_spaces c tail h0 k (f + 1) 0 p hfuel]
  simp only [lineStartLoop_ordinary _ _ _ _ _ h1 h2, Nat.zero_add, IStream.unget_goodAt_cons]

/-- `NextToken` inside a line (the last token is neither `Newline` nor `Eof`, nothing is
pending), at a byte that is not a space: the byte is classified. -/
theorem NextToken_mid_line (fuel : Nat) (lx : Lexer) (c : Char) (p tail : List Char)
    (hn : lx.token ≠ .Newline) (he : lx.token ≠ .Eof) (hded : lx.dedent = 0)
    (hin : lx.input = IStream.goodAt p (c :: tail)) (h0 : c ≠ ' ') :
    NextToken (fuel + 1) lx = classify (fuel + 1) lx c (IStream.goodAt (c :: p) tail) := by
  unfold NextToken
  rw [if_neg he, if_neg (by omega)]
  simp only [hn, if_false, hin, IStream.get_goodAt_cons, toChar_some, skipSpaces, h0]

/-- Pending `Dedent`s are flushed one per call. -/
theorem lexSteps_flush (fuel : Nat) : ∀ (d : Nat) (lx : Lexer), lx.token = .Dedent →
    lx.dedent = d →
    lexSteps fuel d lx = .ok (List.replicate d .Dedent,
      { input := lx.input, token := .Dedent, indent := lx.indent, dedent := 0 })
  | 0, lx, ht, hd => by
    cases lx
    simp only at hd ht
    subst hd; subst ht
    rfl
  | d + 1, lx, ht, hd => by
    have h1 : NextToken fuel lx = .ok { lx with dedent := d, token := .Dedent } := by
      unfold NextToken
      rw [if_neg (by rw [ht]; simp), if_pos (by omega)]
      simp [hd]
    unfold lexSteps
    rw [h1]
    simp only []
    rw [lexSteps_flush fuel d _ rfl rfl]
    rfl

/-- C1. Indentation step: after a `Newline`, with no `Dedent` pending and indent level
`L`, on a line that starts with exactly `2 * k` spaces followed by a byte that begins
neither a blank nor a comment line (and is not `0xFF`, which the code takes for the end
of input), the lexer emits nothing if `k = L`, exactly one
`Indent` if `k = L + 1` and exactly `L - k` `Dedent`s if `k < L`; afterwards the indent
level is `k`, nothing is pending, and the next call classifies that first byte of the
line, returning a token that is neither `Indent` nor `Dedent`.  Scenario S1 is the second
part. -/
theorem indentation_step :
    (∀ (fuel : Nat) (lx : Lexer) (k : Nat) (c : Char) (tail : List Char),
      lx.token = .Newline → lx.dedent = 0 → lx.input.good = true →
      lx.input.rest = List.replicate (2 * k) ' ' ++ c :: tail →
      (c ≠ ' ' ∧ c ≠ '\n' ∧ c ≠ '#' ∧ c ≠ '\xff') → k ≤ lx.indent + 1 → k < fuel →
      ∃ lx1 : Lexer,
        lexSteps fuel (if k = lx.indent + 1 then 1 else lx.indent - k) lx =
          .ok (if k = lx.indent + 1 then [Token.Indent]
               else List.replicate (lx.indent - k) Token.Dedent, lx1) ∧
        lx1.indent = k ∧ lx1.dedent = 0 ∧
        NextToken fuel lx1 = classify fuel lx1 c
          (IStream.goodAt (c :: (List.replicate (2 * k) ' ' ++ lx.input.consumed)) tail) ∧
        ∀ lx2, NextToken fuel lx1 = .ok lx2 →
          lx2.token ≠ .Indent ∧ lx2.token ≠ .Dedent ∧ lx2.indent = k ∧ lx2.dedent = 0) ∧
    (tokenize 40 19 "if 1:\n  x = 2\n  y = 3\nz = 4\n".toList).map Prod.fst =
      .ok [.If, .Number 1, .Char ':', .Newline, .Indent, .Id ['x'], .Char '=', .Number 2,
        .Newline, .Id ['y'], .Char '=', .Number 3, .Newline, .Dedent, .Id ['z'], .Char '=',
        .Number 4, .Newline, .Eof] := by
  refine ⟨?_, rfl⟩
  intro fuel lx k c tail htok hded hgood hrest hc hk hfuel
  obtain ⟨h0, h1, h2, h3⟩ := hc
  obtain ⟨f, rfl⟩ : ∃ f, fuel = f + 1 := ⟨fuel - 1, by omega⟩
  have hin : lx.input = IStream.goodAt lx.input.consumed
      (List.replicate (2 * k) ' ' ++ c :: tail) := by
    rw [← hrest]; exact IStream.eq_goodAt_of_good hgood
  have hstep := NextToken_line_start (f + 1) lx k c lx.input.consumed tail htok hded hin
    h0 h1 h2 hfuel
  -- the closing part, for any state that the structure tokens lead to
  have hfinal : ∀ lx1 : Lexer, lx1.indent = k → lx1.dedent = 0 →
      NextToken (f + 1) lx1 = classify (f + 1) lx1 c
        (IStream.goodAt (c :: (List.replicate (2 * k) ' ' ++ lx.input.consumed)) tail) →
      ∀ lx2, NextToken (f + 1) lx1 = .ok lx2 →
        lx2.token ≠ .Indent ∧ lx2.token ≠ .Dedent ∧ lx2.indent = k ∧ lx2.dedent = 0 := by
    intro lx1 hi hd hcl lx2 h
    rw [hcl] at h
    rcases classify_cases h with ⟨_, _, _, e, _⟩ | ⟨e1, e2, e3, e4, _⟩
    · exact absurd e h3
    · exact ⟨e3, e4, by rw [e1, hi], by rw [e2, hd]⟩
  by_cases hk1 : k = lx.indent + 1
  · -- one `Indent`
    rw [if_pos (by omega : k > lx.indent)] at hstep
    refine ⟨{ lx with
        input := IStream.goodAt (List.replicate (2 * k) ' ' ++ lx.input.consumed) (c :: tail),
        indent := lx.indent + 1, token := .Indent }, ?_, ?_, ?_, ?_, ?_⟩
    · rw [if_pos hk1, if_pos hk1]
      simp only [lexSteps, hstep]
    · exact hk1.symm
    · exact hded
    · exact NextToken_mid_line f _ c _ tail (by simp) (by simp) hded rfl h0
    · exact hfinal _ hk1.symm hded
        (NextToken_mid_line f _ c _ tail (by simp) (by simp) hded rfl h0)
  by_cases hk2 : k < lx.indent
  · -- `L - k` `Dedent`s: the first from the line start, the others pending
    rw [if_neg (by omega), if_pos hk2] at hstep
    obtain ⟨m, hm⟩ : ∃ m, lx.indent - k = m + 1 := ⟨lx.indent - k - 1, by omega⟩
    have hflush := lexSteps_flush (f + 1) m
      { input := IStream.goodAt (List.replicate (2 * k) ' ' ++ lx.input.consumed) (c :: tail),
        dedent := lx.indent - k - 1, indent := k, token := .Dedent } rfl (by simp; omega)
    refine ⟨{ input := IStream.goodAt (List.replicate (2 * k) ' ' ++ lx.input.consumed)
                (c :: tail),
              token := .Dedent, indent := k, dedent := 0 }, ?_, ?_, ?_, ?_, ?_⟩
    · rw [if_neg hk1, if_neg hk1, hm]
      simp only [lexSteps, hstep, hflush, List.replicate_succ]
    · rfl
    · rfl
    · exact NextToken_mid_line f _ c _ tail (by simp) (by simp) rfl rfl h0
    · exact hfinal _ rfl rfl
        (NextToken_mid_line f _ c _ tail (by simp) (by simp) rfl rfl h0)
  · -- same level: the call classifies the byte at once
    have hkL : k = lx.indent := by omega
    rw [if_neg (by omega), if_neg hk2] at hstep
    refine ⟨lx, ?_, hkL.symm, hded, hstep, hfinal lx hkL.symm hded hstep⟩
    rw [if_neg hk1, if_neg hk1]
    have e : lx.indent - k = 0 := by omega
    rw [e]
    rfl

theorem indentation_step_witness :
    ∃ lx1 : Lexer,
      lexSteps 5 (if 1 = 0 + 1 then 1 else 0 - 1)
          { input := IStream.goodAt "\n:1 fi".toList "  x = 2\n".toList, token := .Newline,
            indent := 0, dedent := 0 } =
        .ok (if 1 = 0 + 1 then [Token.Indent]
             else List.replicate (0 - 1) Token.Dedent, lx1) ∧
      lx1.indent = 1 ∧ lx1.dedent = 0 ∧
      NextToken 5 lx1 = classify 5 lx1 'x'
        (IStream.goodAt ('x' :: (List.replicate (2 * 1) ' ' ++ "\n:1 fi".toList))
          " = 2\n".toList) ∧
      ∀ lx2, NextToken 5 lx1 = .ok lx2 →
        lx2.token ≠ .Indent ∧ lx2.token ≠ .Dedent ∧ lx2.indent = 1 ∧ lx2.dedent = 0 :=
  indentation_step.1 5
    { input := IStream.goodAt "\n:1 fi".toList "  x = 2\n".toList, token := .Newline,
      indent := 0, dedent := 0 } 1 'x' " = 2\n".toList rfl rfl rfl rfl
    (by decide) (by decide) (by decide)

/-! ## Lexer: string literals -/

theorem GetStrLoop_body (k : Char) (hk : k ≠ '\\') (tail : List Char) :
    ∀ (body : List StrPiece) (fuel : Nat) (pred_c : Char) (result p : List Char),
      (∀ x ∈ body, x.recognized k = true) → pred_c ≠ '\\' →
      (bodySource body).length < fuel →
      GetStrLoop fuel k pred_c
          (toChar (IStream.goodAt p (bodySource body ++ k :: tail)).get.1) result
          (IStream.goodAt p (bodySource body ++ k :: tail)).get.2 =
        .ok (result ++ body.map StrPiece.value,
             IStream.goodAt (k :: ((bodySource body).reverse ++ p)) tail)
  | [], fuel + 1, pred_c, result, p, _, hp, _ => by
    simp [bodySource, IStream.get_goodAt_cons, toChar_some, GetStrLoop, hp]
  | .plain c :: body, fuel + 1, pred_c, result, p, hb, hp, hf => by
    have hc : c ≠ '\\' ∧ c ≠ k := by
      have := hb (.plain c) (List.mem_cons_self _ _)
      simpa [StrPiece.recognized] using this
    have hb1 : ∀ x ∈ body, x.recognized k = true :=
      fun x hx => hb x (List.mem_cons_of_mem _ hx)
    have hf1 : (bodySource body).length < fuel := by
      simp [bodySource, StrPiece.source] at hf; omega
    have ih := GetStrLoop_body k hk tail body fuel c (result ++ [c]) (c :: p) hb1 hc.1 hf1
    simp only [bodySource, StrPiece.source, List.cons_append, List.nil_append,
      IStream.get_goodAt_cons, toChar_some]
    unfold GetStrLoop
    rw [if_pos (Or.inl hc.2), if_neg hp, if_pos hc.1, ih]
    simp [StrPiece.value]
  | .escape e :: body, fuel + 2, pred_c, result, p, hb, hp, hf => by
    have he : e = '\'' ∨ e = '"' ∨ e = 'n' ∨ e = 't' := by
      have := hb (.escape e) (List.mem_cons_self _ _)
      simp only [StrPiece.recognized, Bool.or_eq_true, beq_iff_eq] at this
      tauto
    have hb1 : ∀ x ∈ body, x.recognized k = true :=
      fun x hx => hb x (List.mem_cons_of_mem _ hx)
    have hf1 : (bodySource body).length < fuel := by
      simp [bodySource, StrPiece.source] at hf; omega
    have he1 : e ≠ '\\' := by rcases he with rfl | rfl | rfl | rfl <;> decide
    have ih := GetStrLoop_body k hk tail body fuel e
      (result ++ [StrPiece.value (.escape e)]) (e :: '\\' :: p) hb1 he1 hf1
    simp only [bodySource, StrPiece.source, List.cons_append, List.nil_append,
      IStream.get_goodAt_cons, toChar_some]
    unfold GetStrLoop
    rw [if_pos (Or.inl (Ne.symm hk)), if_neg hp, if_neg (by simp)]
    simp only [IStream.get_goodAt_cons, toChar_some]
    unfold GetStrLoop
    rw [if_pos (Or.inr rfl), if_pos rfl]
    have hv : (if e = '\'' ∨ e = '"' then result ++ [e]
        else if e = 'n' then result ++ ['\n']
        else if e = 't' then result ++ ['\t'] else result ++ ['\\']) =
        result ++ [StrPiece.value (.escape e)] := by
      rcases he with rfl | rfl | rfl | rfl <;> simp [StrPiece.value]
    rw [hv, ih]
    simp [StrPiece.value]
  | .escape e :: body, 1, _, _, _, _, _, hf => by
    simp [bodySource, StrPiece.source] at hf
  | _, 0, _, _, _, _, _, hf => by simp at hf

theorem GetStr_body (q : Char) (hq : q ≠ '\\') (body : List StrPiece) (p tail : List Char)
    (fuel : Nat) (hb : ∀ x ∈ body, x.recognized q = true)
    (hfuel : (bodySource body).length < fuel) :
    GetStr fuel (IStream.goodAt p (q :: (bodySource body ++ q :: tail))) =
      .ok (body.map StrPiece.value,
           IStream.goodAt (q :: ((bodySource body).reverse ++ q :: p)) tail) := by
  unfold GetStr
  simp only [IStream.get_goodAt_cons, toChar_some]
  rw [GetStrLoop_body q hq tail body fuel ' ' [] (q :: p) hb (by decide) hfuel]
  simp

/-- C6. Recognized string escapes: a literal opened by `q` (one of the two quotes) whose
body is made of ordinary bytes (neither backslash nor `q`) and of the escapes `\'`, `\"`,
`\n`, `\t` is read by `GetStr` as the body with each escape replaced by the byte it
denotes, the stream is left right behind the closing `q`, and `NextToken` returns the
`String` token with that payload. -/
theorem string_literal_recognized (fuel : Nat) (lx : Lexer) (q : Char)
    (body : List StrPiece) (p tail : List Char) (hq : q = '\'' ∨ q = '"')
    (hb : ∀ x ∈ body, x.recognized q = true)
    (hin : lx.input = IStream.goodAt p (q :: (bodySource body ++ q :: tail)))
    (he : lx.token ≠ .Eof) (hded : lx.dedent = 0)
    (hind : lx.token = .Newline → lx.indent = 0)
    (hfuel : (bodySource body).length < fuel) :
    GetStr fuel lx.input =
        .ok (body.map StrPiece.value,
             IStream.goodAt (q :: ((bodySource body).reverse ++ q :: p)) tail) ∧
      NextToken fuel lx =
        .ok { lx with input := IStream.goodAt (q :: ((bodySource body).reverse ++ q :: p)) tail,
                      token := .String (body.map StrPiece.value) } := by
  have hq1 : q ≠ '\\' := by rcases hq with rfl | rfl <;> decide
  have hq2 : q ≠ ' ' := by rcases hq with rfl | rfl <;> decide
  have hq3 : q ≠ '\n' := by rcases hq with rfl | rfl <;> decide
  have hq4 : q ≠ '#' := by rcases hq with rfl | rfl <;> decide
  have hq5 : q ≠ '\xff' := by rcases hq with rfl | rfl <;> decide
  have hq6 : isDigit q = false := by rcases hq with rfl | rfl <;> decide
  have hg := GetStr_body q hq1 body p tail fuel hb hfuel
  obtain ⟨f, rfl⟩ : ∃ f, fuel = f + 1 := ⟨fuel - 1, by omega⟩
  have hcl : classify (f + 1) lx q (IStream.goodAt (q :: p) (bodySource body ++ q :: tail)) =
      .ok { lx with input := IStream.goodAt (q :: ((bodySource body).reverse ++ q :: p)) tail,
                    token := .String (body.map StrPiece.value) } := by
    unfold classify
    rw [if_neg hq5, if_neg (by simp [hq6]), if_pos hq, IStream.unget_goodAt_cons, hg]
  refine ⟨by rw [hin]; exact hg, ?_⟩
  by_cases hn : lx.token = .Newline
  · have h := NextToken_line_start (f + 1) lx 0 q p (bodySource body ++ q :: tail) hn hded
      (by simpa using hin) hq2 hq3 hq4 (by omega)
    have hi := hind hn
    rw [h, if_neg (by omega), if_neg (by omega)]
    simpa using hcl
  · rw [NextToken_mid_line f lx q p _ hn he hded hin hq2]
    exact hcl

theorem string_literal_recognized_witness :
    GetStr 10 (IStream.ofList "\"a\\nb\"".toList) =
        .ok (['a', '\n', 'b'], IStream.goodAt "\"bn\\a\"".toList []) ∧
      NextToken 10 (Lexer.start (IStream.ofList "\"a\\nb\"".toList)) =
        .ok { input := IStream.goodAt "\"bn\\a\"".toList [], token := .String ['a', '\n', 'b'],
              indent := 0, dedent := 0 } :=
  string_literal_recognized 10 (Lexer.start (IStream.ofList "\"a\\nb\"".toList)) '"'
    [.plain 'a', .escape 'n', .plain 'b'] [] [] (Or.inr rfl) (by decide) rfl (by decide) rfl
    (by decide) (by decide)

/-! ## Lexer: the two defects -/

theorem GetStrLoop_at_end (k : Char) (hk : k ≠ '\xff') :
    ∀ (fuel : Nat) (pred_c : Char) (result : List Char) (s : IStream), s.rest = [] →
      GetStrLoop fuel k pred_c '\xff' result s = .error .outOfFuel
  | 0, _, _, _, _ => rfl
  | fuel + 1, pred_c, result, s, hs => by
    have hg : toChar s.get.1 = '\xff' ∧ s.get.2.rest = [] := by
      unfold IStream.get
      split
      · rw [hs]; exact ⟨rfl, rfl⟩
      · exact ⟨rfl, hs⟩
    unfold GetStrLoop
    rw [if_pos (Or.inl (Ne.symm hk))]
    simp only [hg.1]
    exact GetStrLoop_at_end k hk fuel _ _ _ hg.2

/-- Without a further occurrence of the opening byte `k` the loop of `GetStr` never
returns, whatever the iteration budget. -/
theorem GetStrLoop_unterminated (k : Char) (hk : k ≠ '\xff') :
    ∀ (rest : List Char) (fuel : Nat) (pred_c : Char) (result p : List Char),
      (∀ x ∈ rest, x ≠ k) →
      GetStrLoop fuel k pred_c (toChar (IStream.goodAt p rest).get.1) result
        (IStream.goodAt p rest).get.2 = .error .outOfFuel
  | [], fuel, pred_c, result, p, _ => GetStrLoop_at_end k hk fuel _ _ _ rfl
  | _ :: _, 0, _, _, _, _ => rfl
  | c :: rest, fuel + 1, pred_c, result, p, h => by
    have hc : c ≠ k := h c (List.mem_cons_self _ _)
    rw [IStream.get_goodAt_cons, toChar_some]
    unfold GetStrLoop
    rw [if_pos (Or.inl hc)]
    exact GetStrLoop_unterminated k hk rest fuel _ _ _
      (fun x hx => h x (List.mem_cons_of_mem _ hx))

/-- C5 (the code at the failing input). On the unterminated literal `"abc` neither
`GetStr` nor the lexer returns, whatever the iteration budget: the loop of `GetStr` has no
test for the end of input. -/
theorem unterminated_string_never_returns (fuel : Nat) :
    GetStr fuel (IStream.ofList "\"abc".toList) = .error .outOfFuel ∧
      NextToken fuel (Lexer.start (IStream.ofList "\"abc".toList)) = .error .outOfFuel := by
  have hg : GetStr fuel (IStream.ofList "\"abc".toList) = .error .outOfFuel := by
    unfold GetStr
    exact GetStrLoop_unterminated '"' (by decide) "abc".toList fuel ' ' [] ['"'] (by decide)
  refine ⟨hg, ?_⟩
  cases fuel with
  | zero => rfl
  | succ f =>
    rw [NextToken_mid_line f _ '"' [] "abc".toList (by simp [Lexer.start])
      (by simp [Lexer.start]) rfl rfl (by decide)]
    unfold classify
    rw [if_neg (by decide), if_neg (by decide), if_pos (Or.inr rfl), IStream.unget_goodAt_cons]
    have hg1 : GetStr (f + 1) (IStream.goodAt [] ('"' :: "abc".toList)) = .error .outOfFuel := hg
    rw [hg1]

/-- C2 (the code at the failing input). On a text whose last line consists of two spaces
the lexer reaches `Eof` with one `Indent` and no `Dedent` emitted. -/
theorem unbalanced_at_trailing_spaces :
    (tokenize 20 8 "if 1:\n  x\n  ".toList).map Prod.fst =
      .ok [.If, .Number 1, .Char ':', .Newline, .Indent, .Id ['x'], .Newline, .Eof] := rfl

/-! ## Runtime: truthiness and comparison -/

/-- C7. Truthiness: `IsTrue` is false for the absent holder, `n ≠ 0` for `Number n` (so
true for negative numbers), "non-empty" for a `String`, `b` for `Bool b`, and false for a
class instance and for a class object. -/
theorem IsTrue_spec (B : Type) :
    IsTrue (none : ObjectHolder B) = false ∧
    (∀ n : Int, IsTrue (some (.Number n) : ObjectHolder B) = decide (n ≠ 0)) ∧
    (∀ n : Int, n < 0 → IsTrue (some (.Number n) : ObjectHolder B) = true) ∧
    (∀ s : String, IsTrue (some (.String s) : ObjectHolder B) = decide (s ≠ "")) ∧
    (∀ b : Bool, IsTrue (some (.Bool b) : ObjectHolder B) = b) ∧
    (∀ (addr : Nat) (cls : Class B), IsTrue (some (.ClassInstance addr cls)) = false) ∧
    (∀ cls : Class B, IsTrue (some (.Class cls)) = false) := by
  refine ⟨rfl, ?_, ?_, ?_, fun _ => rfl, fun _ _ => rfl, fun _ => rfl⟩
  · intro n
    simp [IsTrue, bne, beq_eq_decide]
  · intro n hn
    have : n ≠ 0 := by omega
    simp [IsTrue, this]
  · intro s
    by_cases h : s = ""
    · subst h; rfl
    · have h1 : s.isEmpty = false := by
        rw [Bool.eq_false_iff]
        intro e
        exact h ((String.isEmpty_iff s).mp e)
      simp [IsTrue, h1, h]

theorem IsTrue_spec_witness : IsTrue (some (.Number (-3)) : ObjectHolder Unit) = true :=
  (IsTrue_spec Unit).2.2.1 (-3) (by decide)

/-- C8. Equality on non-instance operands: when the left operand is not a class instance,
`Equal` is true if both holders are absent, structural equality on two Numbers, two
Strings or two Bools, and the comparison error in every other case; the state is left
alone.  In particular `Equal(x, x)` is true for every Number, String, Bool and for None. -/
theorem Equal_non_instance {B W : Type} (exec : Executor B W) (w : W) :
    (∀ lhs rhs : ObjectHolder B, (∀ addr cls, lhs ≠ some (.ClassInstance addr cls)) →
      Equal exec lhs rhs w = (EqualPrimitive lhs rhs, w)) ∧
    Equal exec none none w = (.ok true, w) ∧
    (∀ n : Int, Equal exec (some (.Number n)) (some (.Number n)) w = (.ok true, w)) ∧
    (∀ s : String, Equal exec (some (.String s)) (some (.String s)) w = (.ok true, w)) ∧
    (∀ b : Bool, Equal exec (some (.Bool b)) (some (.Bool b)) w = (.ok true, w)) := by
  refine ⟨?_, rfl, ?_, ?_, ?_⟩
  · intro lhs rhs h
    rcases lhs with _ | (a | a | a | a | ⟨a, c⟩)
    · rcases rhs with _ | r <;> rfl
    · rcases rhs with _ | (b | b | b | b | ⟨b, d⟩) <;>
        simp [Equal, EqualPrimitive, equalError, beq_eq_decide]
    · rcases rhs with _ | (b | b | b | b | ⟨b, d⟩) <;>
        simp [Equal, EqualPrimitive, equalError, beq_eq_decide]
    · rcases rhs with _ | (b | b | b | b | ⟨b, d⟩) <;>
        simp [Equal, EqualPrimitive, equalError, beq_eq_decide]
    · rcases rhs with _ | (b | b | b | b | ⟨b, d⟩) <;>
        simp [Equal, EqualPrimitive, equalError, beq_eq_decide]
    · exact absurd rfl (h a c)
  · intro n; simp [Equal]
  · intro s; simp [Equal]
  · intro b; simp [Equal]

theorem Equal_non_instance_witness :
    Equal alwaysTrue (some (.Number 1)) (some (.String "1")) () =
      (EqualPrimitive (some (.Number 1)) (some (.String "1")), ()) :=
  (Equal_non_instance alwaysTrue ()).1 (some (.Number 1)) (some (.String "1"))
    (fun _ _ h => by cases h)

/-- C9 as stated fails: the instance of `V`, whose `__eq__` takes one parameter and
returns `True`, compared with the absent holder.  The call `lhs.__eq__(rhs)` would return
`True`, but `Equal` fails with the comparison error. -/
theorem Equal_dispatch_absent_rhs :
    HasMethod classV "__eq__" 1 = true ∧
    (Call alwaysTrue 0 classV "__eq__" [none] ()).1.map IsTrue = .ok true ∧
    Equal alwaysTrue (some (.ClassInstance 0 classV)) none () =
      (.error (.thrown (.runtime_error "Cannot compare objects for equality")), ()) :=
  ⟨rfl, rfl, rfl⟩

/-- C9, amended. For a left operand that is an instance whose class resolves a
one-parameter `__eq__` and a right operand that is present (of any kind), `Equal` is
`IsTrue` of what `lhs.__eq__(rhs)` returns, with the effects of that call, and fails only
if the call fails; with the absent holder on the right `Equal` fails with the comparison
error. -/
theorem Equal_dispatch {B W : Type} (exec : Executor B W) (addr : Nat) (cls : Class B)
    (w : W) (h : HasMethod cls "__eq__" 1 = true) :
    (∀ r : Object B, Equal exec (some (.ClassInstance addr cls)) (some r) w =
      ((Call exec addr cls "__eq__" [some r] w).1.map IsTrue,
       (Call exec addr cls "__eq__" [some r] w).2)) ∧
    Equal exec (some (.ClassInstance addr cls)) none w =
      (.error (.thrown (.runtime_error "Cannot compare objects for equality")), w) := by
  refine ⟨fun r => ?_, rfl⟩
  simp only [Equal, h, if_true]
  rcases Call exec addr cls "__eq__" [some r] w with ⟨_ | v, w1⟩ <;> rfl

theorem Equal_dispatch_witness :
    (∀ r : Object Unit, Equal alwaysTrue (some (.ClassInstance 0 classV)) (some r) () =
      ((Call alwaysTrue 0 classV "__eq__" [some r] ()).1.map IsTrue,
       (Call alwaysTrue 0 classV "__eq__" [some r] ()).2)) ∧
    Equal alwaysTrue (some (.ClassInstance 0 classV)) none () =
      (.error (.thrown (.runtime_error "Cannot compare objects for equality")), ()) :=
  Equal_dispatch alwaysTrue 0 classV () rfl

theorem strLessData_trichotomy : ∀ a b : List Char,
    ExactlyOne (strLessData a b) (decide (a = b)) (strLessData b a)
  | [], [] => by simp [ExactlyOne, strLessData]
  | [], _ :: _ => by simp [ExactlyOne, strLessData]
  | _ :: _, [] => by simp [ExactlyOne, strLessData]
  | a :: as, b :: bs => by
    have ih := strLessData_trichotomy as bs
    rcases lt_trichotomy a b with h | h | h
    · have h1 : ¬ b < a := not_lt.mpr h.le
      have h2 : a ≠ b := h.ne
      simp [ExactlyOne, strLessData, h, h1, h2]
    · subst h
      simpa [ExactlyOne, strLessData] using ih
    · have h1 : ¬ a < b := not_lt.mpr h.le
      have h2 : a ≠ b := h.ne'
      simp [ExactlyOne, strLessData, h, h1, h2]

/-- C10. Ordering totality: for two Numbers, two Strings or two Bools, exactly one of
`Less(a, b)`, `Equal(a, b)`, `Less(b, a)` is true, and none of the three calls fails. -/
theorem ordering_totality {B W : Type} (exec : Executor B W) (w : W) :
    (∀ a b : Int, Trichotomy exec (some (.Number a)) (some (.Number b)) w) ∧
    (∀ a b : String, Trichotomy exec (some (.String a)) (some (.String b)) w) ∧
    (∀ a b : Bool, Trichotomy exec (some (.Bool a)) (some (.Bool b)) w) := by
  refine ⟨fun a b => ?_, fun a b => ?_, fun a b => ?_⟩
  · refine ⟨decide (a < b), a == b, decide (b < a), rfl, rfl, rfl, ?_⟩
    rcases lt_trichotomy a b with h | h | h
    · have h1 : ¬ b < a := not_lt.mpr h.le
      have h2 : a ≠ b := h.ne
      simp [ExactlyOne, h, h1, h2]
    · subst h; simp [ExactlyOne]
    · have h1 : ¬ a < b := not_lt.mpr h.le
      have h2 : a ≠ b := h.ne'
      simp [ExactlyOne, h, h1, h2]
  · refine ⟨strLess a b, a == b, strLess b a, rfl, rfl, rfl, ?_⟩
    have h := strLessData_trichotomy a.data b.data
    have e : decide (a.data = b.data) = (a == b) := by
      by_cases hab : a = b
      · subst hab; simp
      · have : a.data ≠ b.data := fun hd => hab (String.ext hd)
        simp [hab, this]
    rw [e] at h
    exact h
  · refine ⟨decide (a.toNat < b.toNat), a == b, decide (b.toNat < a.toNat), rfl, rfl, rfl, ?_⟩
    cases a <;> cases b <;> simp [ExactlyOne]

/-! ## Runtime: method lookup -/

theorem strLessData_irrefl (a : List Char) : strLessData a a = false := by
  have h := strLessData_trichotomy a a
  simp only [ExactlyOne, decide_True] at h
  rcases h with ⟨_, h, _⟩ | ⟨h, _, _⟩ | ⟨_, h, _⟩
  · cases h
  · exact h
  · cases h

theorem strLessData_asymm {a b : List Char} (h : strLessData a b = true) :
    strLessData b a = false := by
  have t := strLessData_trichotomy a b
  simp only [ExactlyOne] at t
  rcases t with ⟨_, _, h3⟩ | ⟨h1, _, _⟩ | ⟨h1, _, _⟩
  · exact h3
  · rw [h] at h1; cases h1
  · rw [h] at h1; cases h1

theorem strLessData_connex {a b : List Char} (h1 : strLessData a b = false)
    (h2 : strLessData b a = false) : a = b := by
  have t := strLessData_trichotomy a b
  simp only [ExactlyOne] at t
  rcases t with ⟨e, _, _⟩ | ⟨_, e, _⟩ | ⟨_, _, e⟩
  · rw [h1] at e; cases e
  · simpa using e
  · rw [h2] at e; cases e

theorem strLessData_trans : ∀ {a b c : List Char}, strLessData a b = true →
    strLessData b c = true → strLessData a c = true
  | [], [], _, h, _ => by simp [strLessData] at h
  | [], _ :: _, [], _, h => by simp [strLessData] at h
  | [], _ :: _, _ :: _, _, _ => by simp [strLessData]
  | _ :: _, [], _, h, _ => by simp [strLessData] at h
  | _ :: _, _ :: _, [], _, h => by simp [strLessData] at h
  | x :: a, y :: b, z :: c, h1, h2 => by
    simp only [strLessData] at h1 h2 ⊢
    rcases lt_trichotomy x y with hxy | hxy | hxy
    · rcases lt_trichotomy y z with hyz | hyz | hyz
      · simp [lt_trans hxy hyz]
      · subst hyz; simp [hxy]
      · simp [hyz, not_lt.mpr hyz.le] at h2
    · subst hxy
      rcases lt_trichotomy x z with hyz | hyz | hyz
      · simp [hyz]
      · subst hyz
        simp only [lt_irrefl, if_false] at h1 h2 ⊢
        exact strLessData_trans h1 h2
      · simp [hyz, not_lt.mpr hyz.le] at h2
    · simp [hxy, not_lt.mpr hxy.le] at h1

theorem strLess_connex {a b : String} (h1 : strLess a b = false) (h2 : strLess b a = false) :
    a = b :=
  String.ext (strLessData_connex h1 h2)

/-- From `x ≥ y` and `name < y` follows `name < x`. -/
theorem strLess_of_nameGE {B : Type} {x y : Method B} {name : String} (h : nameGE x y)
    (hy : strLess name y.name = true) : strLess name x.name = true := by
  by_contra hx
  have hx : strLess name x.name = false := by simpa using hx
  by_cases hxn : strLess x.name name = true
  · have := strLessData_trans hxn hy
    unfold nameGE strLess at h
    rw [this] at h; cases h
  · have hxn : strLess x.name name = false := by simpa using hxn
    have e := strLess_connex hx hxn
    unfold nameGE at h
    rw [← e, hy] at h; cases h

theorem nameGE_trans {B : Type} {x y z : Method B} (h1 : nameGE x y) (h2 : nameGE y z) :
    nameGE x z := by
  unfold nameGE
  by_contra h
  have h : strLess x.name z.name = true := by simpa using h
  have := strLess_of_nameGE h2 h
  unfold nameGE at h1
  rw [this] at h1; cases h1

theorem pairwise_orderedInsert {B : Type} (a : Method B) :
    ∀ l : List (Method B), l.Pairwise nameGE →
      (l.orderedInsert (fun lhs rhs => strLess rhs.name lhs.name) a).Pairwise nameGE
  | [], _ => by simp [List.orderedInsert]
  | b :: l, h => by
    rw [List.pairwise_cons] at h
    simp only [List.orderedInsert]
    split
    · rename_i hab
      have hgab : nameGE a b := strLessData_asymm hab
      refine List.Pairwise.cons ?_ (List.Pairwise.cons h.1 h.2)
      intro x hx
      rcases List.mem_cons.mp hx with rfl | hx
      · exact hgab
      · exact nameGE_trans hgab (h.1 x hx)
    · rename_i hab
      refine List.Pairwise.cons ?_ (pairwise_orderedInsert a l h.2)
      intro x hx
      rcases (List.mem_orderedInsert _).mp hx with rfl | hx
      · simpa [nameGE] using hab
      · exact h.1 x hx

/-- The constructor leaves the methods sorted by descending name. -/
theorem pairwise_insertionSort {B : Type} : ∀ l : List (Method B),
    (l.insertionSort (fun lhs rhs => strLess rhs.name lhs.name)).Pairwise nameGE
  | [] => List.Pairwise.nil
  | b :: l => pairwise_orderedInsert b _ (pairwise_insertionSort l)

/-- In a list sorted by descending name the methods with a name above `name` form an
initial segment. -/
theorem partitioned_of_pairwise {B : Type} {l : List (Method B)} (hs : l.Pairwise nameGE)
    (name : String) {i j : Nat} {mi mj : Method B} (hij : i ≤ j) (hi : l[i]? = some mi)
    (hj : l[j]? = some mj) (h : strLess name mj.name = true) :
    strLess name mi.name = true := by
  rcases Nat.eq_or_lt_of_le hij with rfl | hlt
  · rw [hi] at hj; injection hj with e; rw [e]; exact h
  · obtain ⟨h1, e1⟩ := List.getElem?_eq_some.mp hi
    obtain ⟨h2, e2⟩ := List.getElem?_eq_some.mp hj
    have := List.pairwise_iff_getElem.mp hs i j h1 h2 hlt
    rw [e1, e2] at this
    exact strLess_of_nameGE this h

/-- The halving search returns the partition point: every method before it has a name
above `name`, no method from it on has. -/
theorem lowerBound_spec {B : Type} (l : List (Method B)) (name : String)
    (hs : l.Pairwise nameGE) :
    ∀ (fuel first len : Nat), len ≤ fuel → first + len ≤ l.length →
      (∀ i m, i < first → l[i]? = some m → strLess name m.name = true) →
      (∀ i m, first + len ≤ i → l[i]? = some m → strLess name m.name = false) →
      (∀ i m, i < lowerBound l name fuel first len → l[i]? = some m →
          strLess name m.name = true) ∧
        (∀ i m, lowerBound l name fuel first len ≤ i → l[i]? = some m →
          strLess name m.name = false)
  | 0, first, len, hf, _, hlo, hhi => by
    have : len = 0 := by omega
    subst this
    exact ⟨hlo, hhi⟩
  | fuel + 1, first, len, hf, hn, hlo, hhi => by
    unfold lowerBound
    by_cases hlen : len > 0
    · rw [if_pos hlen]
      have hmid : first + len / 2 < l.length := by
        have : len / 2 < len := Nat.div_lt_self hlen (by decide)
        omega
      have hget : l[first + len / 2]? = some (l[first + len / 2]) :=
        List.getElem?_eq_getElem hmid
      simp only [hget]
      by_cases hp : strLess name (l[first + len / 2]).name = true
      · rw [if_pos hp]
        apply lowerBound_spec l name hs fuel _ _
        · have : len / 2 < len := Nat.div_lt_self hlen (by decide)
          omega
        · have : len / 2 < len := Nat.div_lt_self hlen (by decide)
          omega
        · intro i m hi hm
          exact partitioned_of_pairwise hs name (by omega) hm hget hp
        · intro i m hi hm
          have : len / 2 < len := Nat.div_lt_self hlen (by decide)
          exact hhi i m (by omega) hm
      · rw [if_neg hp]
        apply lowerBound_spec l name hs fuel _ _
        · have : len / 2 < len := Nat.div_lt_self hlen (by decide)
          omega
        · have : len / 2 < len := Nat.div_lt_self hlen (by decide)
          omega
        · exact hlo
        · intro i m hi hm
          by_contra hc
          have hc : strLess name m.name = true := by simpa using hc
          exact hp (partitioned_of_pairwise hs name hi hget hm hc)
    · rw [if_neg hlen]
      have : len = 0 := by omega
      subst this
      exact ⟨hlo, hhi⟩

/-- The lookup of `GetMethod` in the methods of one class. -/
theorem localLookup_spec {B : Type} (l : List (Method B)) (name : String)
    (hs : l.Pairwise nameGE) :
    (∀ m, (match l[lowerBound l name l.length 0 l.length]? with
          | some m => if m.name = name then some m else none
          | none => none) = some m → m ∈ l ∧ m.name = name) ∧
      ((match l[lowerBound l name l.length 0 l.length]? with
          | some m => if m.name = name then some m else none
          | none => none) = none → ∀ x ∈ l, x.name ≠ name) := by
  obtain ⟨hlo, hhi⟩ := lowerBound_spec l name hs l.length 0 l.length (le_refl _) (by omega)
    (fun i m hi _ => absurd hi (Nat.not_lt_zero i))
    (fun i m hi hm => by
      have := (List.getElem?_eq_some.mp hm).1
      omega)
  generalize lowerBound l name l.length 0 l.length = it at hlo hhi
  constructor
  · intro m hm
    cases hget : l[it]? with
    | none => rw [hget] at hm; cases hm
    | some x =>
      rw [hget] at hm
      simp only at hm
      split at hm
      · rename_i hx
        injection hm with hm
        subst hm
        exact ⟨List.getElem?_mem hget, hx⟩
      · cases hm
  · intro hnone x hx hname
    obtain ⟨j, hj⟩ := List.getElem?_of_mem hx
    have hirr : strLess name x.name = false := by
      rw [hname]; exact strLessData_irrefl _
    have hij : it ≤ j := by
      by_contra hlt
      have := hlo j x (by omega) hj
      rw [hirr] at this; cases this
    have hjlen := (List.getElem?_eq_some.mp hj).1
    have hget : l[it]? = some (l[it]) := List.getElem?_eq_getElem (by omega)
    rw [hget] at hnone
    simp only at hnone
    split at hnone
    · cases hnone
    · rename_i hne
      apply hne
      have h1 : strLess name (l[it]).name = false := hhi it _ (le_refl _) hget
      have h2 : strLess (l[it]).name name = false := by
        by_contra hc
        have hc : strLess (l[it]).name name = true := by simpa using hc
        rcases Nat.eq_or_lt_of_le hij with e | hlt
        · subst e
          rw [hget] at hj; injection hj with e
          rw [e, hname] at hc
          rw [strLess, strLessData_irrefl] at hc; cases hc
        · have hge := List.pairwise_iff_getElem.mp hs it j (by omega) hjlen hlt
          rw [(List.getElem?_eq_some.mp hj).2] at hge
          unfold nameGE at hge
          rw [hname, hc] at hge; cases hge
      exact (strLess_connex h1 h2).symm

theorem GetMethod_mk {B : Type} (n : String) (l : List (Method B))
    (parent : Option (Class B)) (name : String) :
    (Class.mk n l parent).GetMethod name =
      match (match l[lowerBound l name l.length 0 l.length]? with
          | some m => if m.name = name then some m else none
          | none => none) with
      | some m => some m
      | none =>
        match parent with
        | some p => p.GetMethod name
        | none => none := by
  rw [Class.GetMethod.eq_def]

/-- `GetMethod` on a class built from a chain of declarations: nothing is found only if
no declaration has a method of that name, and what is found has that name and belongs to
the nearest declaration that has one. -/
theorem GetMethod_ofChain {B : Type} (name : String) :
    ∀ (cs : List (ClassDecl B)) (c : ClassDecl B),
      ((Class.ofChain c cs).GetMethod name = none →
        ∀ e ∈ c :: cs, ∀ x ∈ e.2, x.name ≠ name) ∧
      (∀ m, (Class.ofChain c cs).GetMethod name = some m →
        m.name = name ∧ ∃ pre d post, c :: cs = pre ++ d :: post ∧
          (∀ e ∈ pre, ∀ x ∈ e.2, x.name ≠ name) ∧ m ∈ d.2)
  | [], c => by
    have hs := pairwise_insertionSort c.2
    obtain ⟨hsome, hnone⟩ := localLookup_spec _ name hs
    simp only [Class.ofChain, Class.new, GetMethod_mk]
    constructor
    · intro h e he x hx
      rw [List.mem_singleton] at he
      subst he
      split at h
      · cases h
      · rename_i hloc
        exact hnone hloc x ((List.mem_insertionSort _).mpr hx)
    · intro m h
      split at h
      · rename_i m1 hloc
        injection h with h; subst h
        obtain ⟨hm, hn⟩ := hsome _ hloc
        exact ⟨hn, [], c, [], rfl, by simp, (List.mem_insertionSort _).mp hm⟩
      · cases h
  | p :: ps, c => by
    have hs := pairwise_insertionSort c.2
    obtain ⟨hsome, hnone⟩ := localLookup_spec _ name hs
    obtain ⟨ih1, ih2⟩ := GetMethod_ofChain name ps p
    simp only [Class.ofChain, Class.new, GetMethod_mk]
    constructor
    · intro h e he x hx
      split at h
      · cases h
      · rename_i hloc
        rcases List.mem_cons.mp he with rfl | he
        · exact hnone hloc x ((List.mem_insertionSort _).mpr hx)
        · exact ih1 h e he x hx
    · intro m h
      split at h
      · rename_i m1 hloc
        injection h with h; subst h
        obtain ⟨hm, hn⟩ := hsome _ hloc
        exact ⟨hn, [], c, p :: ps, rfl, by simp, (List.mem_insertionSort _).mp hm⟩
      · rename_i hloc
        obtain ⟨hn, pre, d, post, e, hpre, hm⟩ := ih2 m h
        refine ⟨hn, c :: pre, d, post, by rw [e]; rfl, ?_, hm⟩
        intro e1 he1 x hx
        rcases List.mem_cons.mp he1 with rfl | he1
        · exact hnone hloc x ((List.mem_insertionSort _).mpr hx)
        · exact hpre e1 he1 x hx

theorem naiveGetMethod_eq_none {B : Type} (name : String) :
    ∀ chain : List (ClassDecl B),
      naiveGetMethod chain name = none ↔ ∀ e ∈ chain, ∀ x ∈ e.2, x.name ≠ name
  | [] => by simp [naiveGetMethod]
  | c :: cs => by
    have ih := naiveGetMethod_eq_none name cs
    unfold naiveGetMethod
    cases hf : c.2.find? (fun m => m.name == name) with
    | some m =>
      simp only [false_iff, reduceCtorEq]
      intro h
      have h1 := List.find?_some hf
      have h2 := List.mem_of_find?_eq_some hf
      exact h c (List.mem_cons_self _ _) m h2 (by simpa using h1)
    | none =>
      simp only [ih, List.mem_cons, forall_eq_or_imp, iff_and_self]
      intro _ x hx
      have := List.find?_eq_none.mp hf x hx
      simpa using this

theorem naiveGetMethod_append {B : Type} (name : String) (rest : List (ClassDecl B)) :
    ∀ pre : List (ClassDecl B), (∀ e ∈ pre, ∀ x ∈ e.2, x.name ≠ name) →
      naiveGetMethod (pre ++ rest) name = naiveGetMethod rest name
  | [], _ => rfl
  | c :: pre, h => by
    have hf : c.2.find? (fun m => m.name == name) = none := by
      rw [List.find?_eq_none]
      intro x hx
      simpa using h c (List.mem_cons_self _ _) x hx
    rw [List.cons_append, naiveGetMethod, hf]
    exact naiveGetMethod_append name rest pre
      (fun e he => h e (List.mem_cons_of_mem _ he))

/-- C11. Method resolution: on a class built from any chain of declarations, with the
methods given in any order, the binary search `GetMethod` agrees with the naive lookup:
it finds nothing exactly when no class of the chain declares a method of that name; what
it finds is called `name` and is declared in the nearest class of the chain that declares
such a method; and when no class declares two methods of one name it returns the very
method the naive lookup returns. -/
theorem GetMethod_refines_naive {B : Type} (c : ClassDecl B) (cs : List (ClassDecl B))
    (name : String) :
    ((Class.ofChain c cs).GetMethod name = none ↔ naiveGetMethod (c :: cs) name = none) ∧
    (∀ m, (Class.ofChain c cs).GetMethod name = some m →
      m.name = name ∧ ∃ pre d post, c :: cs = pre ++ d :: post ∧
        (∀ e ∈ pre, ∀ x ∈ e.2, x.name ≠ name) ∧ m ∈ d.2) ∧
    ((∀ e ∈ c :: cs, (e.2.map (fun m => m.name)).Nodup) →
      (Class.ofChain c cs).GetMethod name = naiveGetMethod (c :: cs) name) := by
  obtain ⟨h1, h2⟩ := GetMethod_ofChain name cs c
  refine ⟨⟨fun h => (naiveGetMethod_eq_none name _).mpr (h1 h), fun h => ?_⟩, h2, ?_⟩
  · cases hg : (Class.ofChain c cs).GetMethod name with
    | none => rfl
    | some m =>
      obtain ⟨hn, pre, d, post, e, _, hm⟩ := h2 m hg
      have := (naiveGetMethod_eq_none name _).mp h d (by rw [e]; simp) m hm
      exact absurd hn this
  · intro hnd
    cases hg : (Class.ofChain c cs).GetMethod name with
    | none => exact ((naiveGetMethod_eq_none name _).mpr (h1 hg)).symm
    | some m =>
      obtain ⟨hn, pre, d, post, e, hpre, hm⟩ := h2 m hg
      rw [e, naiveGetMethod_append name _ pre hpre, naiveGetMethod]
      cases hf : d.2.find? (fun m => m.name == name) with
      | none =>
        have := List.find?_eq_none.mp hf m hm
        simp [hn] at this
      | some m1 =>
        have h3 : m1.name = name := by simpa using List.find?_some hf
        have h4 := List.mem_of_find?_eq_some hf
        have hd := hnd d (by rw [e]; simp)
        have := List.inj_on_of_nodup_map hd hm h4 (by show m.name = m1.name; rw [hn, h3])
        rw [this]

theorem GetMethod_refines_naive_witness :
    (Class.ofChain ("B", [⟨"zeta", [], 1⟩, ⟨"alpha", ["x"], 2⟩]) [("A", [⟨"greet", [], 3⟩])]).GetMethod
        "greet" =
      naiveGetMethod [("B", [⟨"zeta", [], 1⟩, ⟨"alpha", ["x"], 2⟩]), ("A", [⟨"greet", [], 3⟩])]
        "greet" :=
  (GetMethod_refines_naive (B := Nat) ("B", [⟨"zeta", [], 1⟩, ⟨"alpha", ["x"], 2⟩])
    [("A", [⟨"greet", [], 3⟩])] "greet").2.2 (by decide)

/-! ## Runtime: calls -/

/-- C12 as stated fails: `B` declares `m` with two parameters and its parent `A` declares
`m` with one.  A class of the chain declares `m` with exactly one formal parameter, yet a
call of `m` with one argument on an instance of `B` fails with "method not found", and
`HasMethod("m", 1)` is false. -/
theorem Call_arity_shadowed :
    declaresWithArity [("B", [(⟨"m", ["a", "b"], ()⟩ : Method Unit)]), ("A", [⟨"m", ["a"], ()⟩])]
        "m" 1 = true ∧
      HasMethod classBoverA "m" 1 = false ∧
      Call alwaysTrue 0 classBoverA "m" [none] () = (.error (methodNotFound Unit "m"), ()) :=
  ⟨rfl, rfl, rfl⟩

theorem HasMethod_iff {B : Type} (cls : Class B) (method : String) (n : Nat) :
    HasMethod cls method n = true ↔
      ∃ met, cls.GetMethod method = some met ∧ met.formal_params.length = n := by
  unfold HasMethod
  cases h : cls.GetMethod method with
  | none => simp
  | some met => simp

/-- C12, amended. A call matches by name first: `GetMethod` resolves the name to a
method of the nearest class of the chain that declares that name, and only then the
number of formal parameters is compared.  `HasMethod(m, n)` is true exactly when the
method so resolved has `n` formal parameters; when it is false for `n = len(args)`,
`Call(m, args)` fails with "method not found"; when it is true, `Call` executes the body
of the resolved method, with `self` and the arguments bound. -/
theorem Call_matches_by_name {B W : Type} (exec : Executor B W) (addr : Nat)
    (c : ClassDecl B) (cs : List (ClassDecl B)) (method : String)
    (args : List (ObjectHolder B)) (w : W) :
    (∀ n, HasMethod (Class.ofChain c cs) method n = true ↔
      ∃ met, (Class.ofChain c cs).GetMethod method = some met ∧
        met.formal_params.length = n) ∧
    (HasMethod (Class.ofChain c cs) method args.length = false →
      Call exec addr (Class.ofChain c cs) method args w =
        (.error (methodNotFound B method), w)) ∧
    (HasMethod (Class.ofChain c cs) method args.length = true →
      ∃ met pre d post, c :: cs = pre ++ d :: post ∧
        (∀ e ∈ pre, ∀ x ∈ e.2, x.name ≠ method) ∧ met ∈ d.2 ∧ met.name = method ∧
        met.formal_params.length = args.length ∧
        Call exec addr (Class.ofChain c cs) method args w =
          exec met.body
            (bindArgs met.formal_params args
              [("self", some (.ClassInstance addr (Class.ofChain c cs)))]) w) := by
  refine ⟨fun n => HasMethod_iff _ _ _, ?_, ?_⟩
  · intro h
    unfold HasMethod at h
    unfold Call
    cases hg : (Class.ofChain c cs).GetMethod method with
    | none => rfl
    | some met =>
      rw [hg] at h
      have hne : met.formal_params.length ≠ args.length := by simpa using h
      simp only [hne, ne_eq, not_false_eq_true, if_true]
      rfl
  · intro h
    obtain ⟨met, hg, hlen⟩ := (HasMethod_iff _ _ _).mp h
    obtain ⟨hn, pre, d, post, e, hpre, hm⟩ := (GetMethod_ofChain method cs c).2 met hg
    refine ⟨met, pre, d, post, e, hpre, hm, hn, hlen, ?_⟩
    unfold Call
    rw [hg]
    simp only [hlen, ne_eq, not_true_eq_false, if_false]

theorem Call_matches_by_name_witness :
    ∃ met pre d post,
      ("A", [(⟨"m", ["a"], ()⟩ : Method Unit)]) :: [] = pre ++ d :: post ∧
        (∀ e ∈ pre, ∀ x ∈ e.2, x.name ≠ "m") ∧ met ∈ d.2 ∧ met.name = "m" ∧
        met.formal_params.length = ([none] : List (ObjectHolder Unit)).length ∧
        Call alwaysTrue 0 (Class.ofChain ("A", [⟨"m", ["a"], ()⟩]) []) "m" [none] () =
          alwaysTrue met.body
            (bindArgs met.formal_params [none]
              [("self", some (.ClassInstance 0 (Class.ofChain ("A", [⟨"m", ["a"], ()⟩]) [])))])
            () :=
  (Call_matches_by_name alwaysTrue 0 ("A", [⟨"m", ["a"], ()⟩]) [] "m" [none] ()).2.2 rfl

/-! ## Evaluation: one step of `Execute` at each kind of node used below -/

theorem Execute_Compound (fuel : Nat) (args : List Statement) (closure : Env) (w : World) :
    Execute (fuel + 1) (.Compound args) closure w =
      ExecuteCompound (Execute fuel) args closure w := rfl

theorem Execute_Return (fuel : Nat) (e : Statement) (closure : Env) (w : World) :
    Execute (fuel + 1) (.Return e) closure w =
      match Execute fuel e closure w with
      | (.ok v, closure1, w1) => (.error (.thrown (.object_holder v)), closure1, w1)
      | (.error x, closure1, w1) => (.error x, closure1, w1) := rfl

theorem Execute_MethodBody (fuel : Nat) (body : Statement) (closure : Env) (w : World) :
    Execute (fuel + 1) (.MethodBody body) closure w =
      match Execute fuel body closure w with
      | (.ok _, closure1, w1) => (.ok none, closure1, w1)
      | (.error (.thrown (.object_holder obj_h)), closure1, w1) => (.ok obj_h, closure1, w1)
      | (.error x, closure1, w1) => (.error x, closure1, w1) := rfl

theorem Execute_IfElse (fuel : Nat) (c a : Statement) (b : Option Statement) (closure : Env)
    (w : World) :
    Execute (fuel + 1) (.IfElse c a b) closure w =
      match Execute fuel c closure w with
      | (.ok x, closure1, w1) =>
        if IsTrue x then Execute fuel a closure1 w1
        else
          match b with
          | some else_body => Execute fuel else_body closure1 w1
          | none => (.ok none, closure1, w1)
      | (.error x, closure1, w1) => (.error x, closure1, w1) := rfl

theorem Execute_MethodCall (fuel : Nat) (object : Statement) (method : String)
    (args : List Statement) (closure : Env) (w : World) :
    Execute (fuel + 1) (.MethodCall object method args) closure w =
      match ExecuteArgs (Execute fuel) args closure w with
      | (.ok actual_args, closure1, w1) =>
        match Execute fuel object closure1 w1 with
        | (.ok (some (.ClassInstance addr cls)), closure2, w2) =>
          ((Call (asExecutor (Execute fuel)) addr cls method actual_args w2).1, closure2,
           (Call (asExecutor (Execute fuel)) addr cls method actual_args w2).2)
        | (.ok _, closure2, w2) => (.error .undefined, closure2, w2)
        | (.error e, closure2, w2) => (.error e, closure2, w2)
      | (.error e, closure1, w1) => (.error e, closure1, w1) := rfl

theorem Execute_NewInstance (fuel : Nat) (addr : Nat) (cls : Class Statement)
    (args : List Statement) (closure : Env) (w : World) :
    Execute (fuel + 1) (.NewInstance addr cls args) closure w =
      if HasMethod cls "__init__" args.length then
        match ExecuteArgs (Execute fuel) args closure w with
        | (.ok objs, closure1, w1) =>
          match Call (asExecutor (Execute fuel)) addr cls "__init__" objs w1 with
          | (.ok _, w2) => (.ok (some (.ClassInstance addr cls)), closure1, w2)
          | (.error e, w2) => (.error e, closure1, w2)
        | (.error e, closure1, w1) => (.error e, closure1, w1)
      else (.ok (some (.ClassInstance addr cls)), closure, w) := rfl

theorem Execute_Add (fuel : Nat) (lhs rhs : Statement) (closure : Env) (w : World) :
    Execute (fuel + 1) (.Add lhs rhs) closure w =
      ExecuteBinary (Execute fuel) lhs rhs (AddHolders (asExecutor (Execute fuel))) closure
        w := rfl

theorem Execute_Div (fuel : Nat) (lhs rhs : Statement) (closure : Env) (w : World) :
    Execute (fuel + 1) (.Div lhs rhs) closure w =
      ExecuteBinary (Execute fuel) lhs rhs (fun l r w => (DivHolders l r, w)) closure w := rfl

theorem Execute_Print_nil (fuel : Nat) (closure : Env) (w : World) :
    Execute (fuel + 1) (.Print none []) closure w = (.ok none, closure, w.write "\n") := rfl

theorem Execute_Print_cons (fuel : Nat) (arg : Statement) (rest : List Statement)
    (closure : Env) (w : World) :
    Execute (fuel + 1) (.Print none (arg :: rest)) closure w =
      match Execute fuel arg closure w with
      | (.ok obj_h, closure1, w1) =>
        match PrintHolder (asExecutor (Execute fuel)) fuel obj_h w1 with
        | (.ok _, w2) =>
          match PrintRest (Execute fuel) (asExecutor (Execute fuel)) fuel rest closure1 w2 with
          | (.ok _, closure3, w3) => (.ok none, closure3, w3.write "\n")
          | (.error e, closure3, w3) => (.error e, closure3, w3)
        | (.error e, w2) => (.error e, closure1, w2)
      | (.error e, closure1, w1) => (.error e, closure1, w1) := rfl

/-! ## Evaluation: logic and control flow -/

/-- C13. Short-circuit: once `L` has evaluated to `v`, `And(L, R)` is `Bool(false)` in
the state `L` left when `IsTrue v` is false, whatever `R` is (none of its effects
occur), and otherwise runs `R` in that state and returns `Bool(IsTrue L and IsTrue R)`;
`Or(L, R)` is `Bool(true)` in the state `L` left when `IsTrue v` is true, and otherwise
runs `R` and returns `Bool(IsTrue L or IsTrue R)`. -/
theorem short_circuit (fuel : Nat) (L R : Statement) (closure closure1 : Env)
    (w w1 : World) (v : Holder) (hL : Execute fuel L closure w = (.ok v, closure1, w1)) :
    (IsTrue v = false →
      Execute (fuel + 1) (.And L R) closure w = (.ok (some (.Bool false)), closure1, w1)) ∧
    (IsTrue v = true →
      Execute (fuel + 1) (.And L R) closure w =
        match Execute fuel R closure1 w1 with
        | (.ok r, closure2, w2) => (.ok (some (.Bool (IsTrue v && IsTrue r))), closure2, w2)
        | (.error e, closure2, w2) => (.error e, closure2, w2)) ∧
    (IsTrue v = true →
      Execute (fuel + 1) (.Or L R) closure w = (.ok (some (.Bool true)), closure1, w1)) ∧
    (IsTrue v = false →
      Execute (fuel + 1) (.Or L R) closure w =
        match Execute fuel R closure1 w1 with
        | (.ok r, closure2, w2) => (.ok (some (.Bool (IsTrue v || IsTrue r))), closure2, w2)
        | (.error e, closure2, w2) => (.error e, closure2, w2)) := by
  refine ⟨fun h => ?_, fun h => ?_, fun h => ?_, fun h => ?_⟩
  · simp only [Execute, hL, h, Bool.not_false, if_true]
  · simp only [Execute, hL, h, Bool.not_true, Bool.true_and]
    rfl
  · simp only [Execute, hL, h, if_true]
  · simp only [Execute, hL, h, Bool.false_or]
    rfl

theorem short_circuit_witness :
    Execute 2 (.And (BoolConst false) (.Print none [StringConst "R ran"])) [] World.initial =
      (.ok (some (.Bool false)), [], World.initial) :=
  (short_circuit 1 (BoolConst false) (.Print none [StringConst "R ran"]) [] []
    World.initial World.initial (some (.Bool false)) rfl).1 rfl

theorem ExecuteCompound_append (ex : Statement → Env → World → Res) (rest : List Statement) :
    ∀ (pre : List Statement) (closure closure1 : Env) (w w1 : World),
      ExecuteCompound ex pre closure w = (.ok none, closure1, w1) →
      ExecuteCompound ex (pre ++ rest) closure w = ExecuteCompound ex rest closure1 w1
  | [], closure, closure1, w, w1, h => by
    simp only [ExecuteCompound] at h
    injection h with _ h
    injection h with h1 h2
    subst h1; subst h2
    rfl
  | s :: pre, closure, closure1, w, w1, h => by
    simp only [ExecuteCompound, List.cons_append] at h ⊢
    rcases hs : ex s closure w with ⟨_ | v, c2, w2⟩
    · rw [hs] at h
      simp only at h
      injection h with h
      cases h
    · rw [hs] at h
      simp only at h ⊢
      exact ExecuteCompound_append ex rest pre c2 closure1 w2 w1 h

/-- A `Return` reached under any nesting of `Compound` and `IfElse` leaves the statement
as the return signal with its value, in the state the operand of `Return` left. -/
theorem ReachesReturn_signal {fuel : Nat} {stmt : Statement} {closure closure1 : Env}
    {w w1 : World} {v : Holder} (h : ReachesReturn fuel stmt closure w v closure1 w1) :
    Execute fuel stmt closure w = (.error (.thrown (.object_holder v)), closure1, w1) := by
  induction h with
  | here fuel e closure closure1 w w1 v he =>
    rw [Execute_Return, he]
  | compound fuel pre s post closure closure0 closure1 w w0 w1 v hpre _ ih =>
    rw [Execute_Compound, ExecuteCompound_append _ _ pre closure closure0 w w0 hpre]
    simp only [ExecuteCompound, ih]
  | ifTrue fuel c a b closure closure0 closure1 w w0 w1 x v hc hx _ ih =>
    rw [Execute_IfElse, hc]
    simp only [hx, if_true, ih]
  | ifFalse fuel c a b closure closure0 closure1 w w0 w1 x v hc hx _ ih =>
    rw [Execute_IfElse, hc]
    simp only [hx, Bool.false_eq_true, if_false, ih]

/-- C14. Return scoping: when executing a body reaches a `Return(e)` under any nesting of
`Compound` and `IfElse` (also an `IfElse` without else branch) and `e` evaluates to `v`,
the body ends with the return signal in the state `e` left, so nothing that follows the
`Return` in an enclosing `Compound` or `IfElse` is executed, whatever it is; the
`MethodBody` of that body returns `v` in that state, and a statement sequence that
contains the `MethodBody` goes on with its next statement.  A body that ends without a
`Return` gives None; an `IfElse` passes on the outcome of the branch taken; no
`MethodBody` ends with the return signal in flight.  Scenario S6 is evaluated for `x = 0`
and `x = 1`, with a statement after the `IfElse` that is not visited and a caller that
continues. -/
theorem return_scoping :
    (∀ (fuel : Nat) (body : Statement) (closure closure1 : Env) (w w1 : World) (v : Holder),
      ReachesReturn fuel body closure w v closure1 w1 →
      Execute fuel body closure w = (.error (.thrown (.object_holder v)), closure1, w1) ∧
      Execute (fuel + 1) (.MethodBody body) closure w = (.ok v, closure1, w1) ∧
      ∀ rest : List Statement,
        Execute (fuel + 2) (.Compound (.MethodBody body :: rest)) closure w =
          ExecuteCompound (Execute (fuel + 1)) rest closure1 w1) ∧
    (∀ (fuel : Nat) (pre post : List Statement) (e : Statement) (closure closure1 closure2 : Env)
        (w w1 w2 : World) (v : Holder),
      ExecuteCompound (Execute (fuel + 1)) pre closure w = (.ok none, closure1, w1) →
      Execute fuel e closure1 w1 = (.ok v, closure2, w2) →
      Execute (fuel + 3) (.MethodBody (.Compound (pre ++ .Return e :: post))) closure w =
        (.ok v, closure2, w2)) ∧
    (∀ (fuel : Nat) (body : Statement) (closure closure1 : Env) (w w1 : World) (v : Holder),
      Execute fuel body closure w = (.error (.thrown (.object_holder v)), closure1, w1) →
      Execute (fuel + 1) (.MethodBody body) closure w = (.ok v, closure1, w1)) ∧
    (∀ (fuel : Nat) (body : Statement) (closure closure1 : Env) (w w1 : World) (x : Holder),
      Execute fuel body closure w = (.ok x, closure1, w1) →
      Execute (fuel + 1) (.MethodBody body) closure w = (.ok none, closure1, w1)) ∧
    (∀ (fuel : Nat) (c a : Statement) (b : Option Statement) (closure closure1 : Env)
        (w w1 : World) (x : Holder),
      Execute fuel c closure w = (.ok x, closure1, w1) →
      Execute (fuel + 1) (.IfElse c a b) closure w =
        if IsTrue x then Execute fuel a closure1 w1
        else
          match b with
          | some else_body => Execute fuel else_body closure1 w1
          | none => (.ok none, closure1, w1)) ∧
    (∀ (fuel : Nat) (body : Statement) (closure : Env) (w : World) (v : Holder),
      (Execute fuel (.MethodBody body) closure w).1 ≠ .error (.thrown (.object_holder v))) ∧
    Execute 5 bodyS6 [("x", some (.Number 0))] World.initial =
      (.ok (some (.Number 2)), [("x", some (.Number 0))], World.initial) ∧
    Execute 5 bodyS6 [("x", some (.Number 1))] World.initial =
      (.ok (some (.Number 1)), [("x", some (.Number 1))], World.initial) ∧
    (Execute 8 callerS6 [] World.initial).1 = .ok none ∧
    (Execute 8 callerS6 [] World.initial).2.2.output = "2\ndone\n" ∧
    Execute 6 (.MethodBody bodyNested) [("x", some (.Number 0))] World.initial =
      (.ok none, [("x", some (.Number 0))],
       ((World.initial.write "a").write "\n").write ("c" ++ "\n")) := by
  refine ⟨?_, ?_, ?_, ?_, ?_, ?_, rfl, rfl, rfl, rfl, ?_⟩
  · intro fuel body closure closure1 w w1 v h
    have hs := ReachesReturn_signal h
    have hm : Execute (fuel + 1) (.MethodBody body) closure w = (.ok v, closure1, w1) := by
      rw [Execute_MethodBody, hs]
    refine ⟨hs, hm, fun rest => ?_⟩
    rw [Execute_Compound]
    simp only [ExecuteCompound, hm]
  · intro fuel pre post e closure closure1 closure2 w w1 w2 v hpre he
    have hret : Execute (fuel + 1) (.Return e) closure1 w1 =
        (.error (.thrown (.object_holder v)), closure2, w2) := by
      rw [Execute_Return, he]
    rw [Execute_MethodBody, Execute_Compound,
      ExecuteCompound_append _ _ pre closure closure1 w w1 hpre]
    simp only [ExecuteCompound, hret]
  · intro fuel body closure closure1 w w1 v h
    rw [Execute_MethodBody, h]
  · intro fuel body closure closure1 w w1 x h
    rw [Execute_MethodBody, h]
  · intro fuel c a b closure closure1 w w1 x h
    rw [Execute_IfElse, h]
  · intro fuel body closure w v
    cases fuel with
    | zero => simp [Execute]
    | succ f =>
      rw [Execute_MethodBody]
      rcases Execute f body closure w with ⟨(_ | _ | _ | _) | x, c1, w1⟩
      · rename_i t
        cases t <;> simp
      all_goals simp
  · rfl

theorem return_scoping_witness :
    Execute 5 bodyNested [("x", some (.Number 1))] World.initial =
        (.error (.thrown (.object_holder (some (.Number 7)))), [("x", some (.Number 1))],
         (World.initial.write "a").write "\n") ∧
      Execute (5 + 1) (.MethodBody bodyNested) [("x", some (.Number 1))] World.initial =
        (.ok (some (.Number 7)), [("x", some (.Number 1))],
         (World.initial.write "a").write "\n") ∧
      ∀ rest : List Statement,
        Execute (5 + 2) (.Compound (.MethodBody bodyNested :: rest))
            [("x", some (.Number 1))] World.initial =
          ExecuteCompound (Execute (5 + 1)) rest [("x", some (.Number 1))]
            ((World.initial.write "a").write "\n") :=
  return_scoping.1 5 bodyNested [("x", some (.Number 1))] [("x", some (.Number 1))]
    World.initial ((World.initial.write "a").write "\n") (some (.Number 7))
    (ReachesReturn.compound 4 [.Print none [StringConst "a"]]
      (.IfElse (.VariableValue ["x"])
        (.Compound [.Return (NumericConst 7), .Print none [StringConst "b"]]) none)
      [.Print none [StringConst "c"]] _ [("x", some (.Number 1))] _ _
      ((World.initial.write "a").write "\n") _ _ rfl
      (ReachesReturn.ifTrue 3 _ _ _ _ [("x", some (.Number 1))] _ _
        ((World.initial.write "a").write "\n") _ (some (.Number 1)) _ rfl rfl
        (ReachesReturn.compound 2 [] (.Return (NumericConst 7))
          [.Print none [StringConst "b"]] _ [("x", some (.Number 1))] _ _
          ((World.initial.write "a").write "\n") _ _ rfl
          (ReachesReturn.here 1 (NumericConst 7) _ _ _ _ _ rfl))))

/-! ## Evaluation: instances and method calls -/

/-- C15 as stated fails: in `f = F(); p = f.make(); q = f.make(); p.x = 1; print q.x`
the node `A()` of `make` is executed twice, and the field written through the first
result is read through the second: the program prints `1`. -/
theorem NewInstance_shared :
    (Execute 8 programTwoInstances [] World.initial).1 = .ok none ∧
      (Execute 8 programTwoInstances [] World.initial).2.2.output = "1\n" :=
  ⟨rfl, rfl⟩

theorem Execute_VariableValue (fuel : Nat) (dotted_ids : List String) (closure : Env)
    (w : World) :
    Execute (fuel + 1) (.VariableValue dotted_ids) closure w =
      (VariableValueExecute dotted_ids closure w, closure, w) := rfl

theorem Execute_FieldAssignment (fuel : Nat) (object : List String) (field_name : String)
    (rv : Statement) (closure : Env) (w : World) :
    Execute (fuel + 1) (.FieldAssignment object field_name rv) closure w =
      match VariableValueExecute object closure w with
      | .ok (some (.ClassInstance addr _)) =>
        match Execute fuel rv closure w with
        | (.ok v, closure1, w1) => (.ok v, closure1, w1.setField addr field_name v)
        | (.error e, closure1, w1) => (.error e, closure1, w1)
      | .ok _ =>
        (.error (.thrown (.runtime_error
          "FieldAssignment::Execute: Error in FieldAssignment::Execute")), closure, w)
      | .error e => (.error e, closure, w) := rfl

theorem Closure.lookup_assign {B : Type} (closure : Closure B) (key : String)
    (value : ObjectHolder B) : (closure.assign key value).lookup key = some value := by
  simp [Closure.assign, List.lookup]

theorem lookup_filter_ne (a b : Nat) (h : a ≠ b) : ∀ l : List (Nat × Env),
    (l.filter (fun e => e.1 != b)).lookup a = l.lookup a
  | [] => rfl
  | (k, c) :: l => by
    by_cases hk : k = b
    · subst hk
      have h1 : (a == k) = false := by simpa using h
      simp only [List.filter, bne_self_eq_false, List.lookup, h1]
      exact lookup_filter_ne a k h l
    · have h2 : (k != b) = true := by simpa using hk
      simp only [List.filter, h2, List.lookup]
      rw [lookup_filter_ne a b h l]

/-- A field written on the instance at `addr` is in the field map of that instance. -/
theorem World.fieldsOf_setField (w : World) (addr : Nat) (key : String) (value : Holder) :
    (w.setField addr key value).fieldsOf addr = (w.fieldsOf addr).assign key value := by
  simp [World.setField, World.fieldsOf, List.lookup]

/-- A field written on the instance at `addr` leaves the field maps of the instances at
other addresses as they are. -/
theorem World.fieldsOf_setField_ne (w : World) (addr addr2 : Nat) (key : String)
    (value : Holder) (h : addr2 ≠ addr) :
    (w.setField addr key value).fieldsOf addr2 = w.fieldsOf addr2 := by
  have h1 : (addr2 == addr) = false := by simpa using h
  unfold World.setField World.fieldsOf
  simp only [List.lookup, h1]
  rw [lookup_filter_ne addr2 addr h]

/-- Every successful execution of a `NewInstance` node returns the holder of the instance
at the address of the node. -/
theorem NewInstance_result {fuel addr : Nat} {cls : Class Statement} {args : List Statement}
    {closure closure1 : Env} {w w1 : World} {v : Holder}
    (h : Execute fuel (.NewInstance addr cls args) closure w = (.ok v, closure1, w1)) :
    v = some (.ClassInstance addr cls) := by
  cases fuel with
  | zero => simp [Execute] at h
  | succ f =>
    rw [Execute_NewInstance] at h
    split at h
    · rcases hargs : ExecuteArgs (Execute f) args closure w with ⟨_ | objs, c1, w2⟩
      · rw [hargs] at h
        simp at h
      · rw [hargs] at h
        simp only at h
        rcases hcall : Call (asExecutor (Execute f)) addr cls "__init__" objs w2 with
          ⟨_ | r, w3⟩
        · rw [hcall] at h
          simp at h
        · rw [hcall] at h
          simp only [Prod.mk.injEq, Except.ok.injEq] at h
          exact h.1.symm
    · simp only [Prod.mk.injEq, Except.ok.injEq] at h
      exact h.1.symm

/-- C15, amended. Every execution of a `NewInstance` node returns a holder to the one
instance the node owns (the instance at the node's `addr`).  The field map of that
instance is empty in the initial state, and an execution of the node does not reset it:
without a matching `__init__` the execution changes nothing at all, with one it
evaluates the arguments and runs `__init__` on the instance as it is.  A field written
through the result of one execution (`p.x = rv`, with `p` bound to that result) is read
through the result of any other execution of the same node (`q.x`, with `q` bound to
that result).  The instances of different nodes are independent: what `q.y` gives for a
result `q` of a node at another address is not changed by the assignment. -/
theorem NewInstance_returns_member (fuel : Nat) (addr : Nat) (cls : Class Statement)
    (args : List Statement) :
    (∀ (closure closure1 : Env) (w w1 : World) (v : Holder),
      Execute fuel (.NewInstance addr cls args) closure w = (.ok v, closure1, w1) →
      v = some (.ClassInstance addr cls)) ∧
    (∀ (closure : Env) (w : World), HasMethod cls "__init__" args.length = false →
      Execute (fuel + 1) (.NewInstance addr cls args) closure w =
        (.ok (some (.ClassInstance addr cls)), closure, w)) ∧
    (∀ (closure closure1 : Env) (w w1 : World) (objs : List Holder),
      HasMethod cls "__init__" args.length = true →
      ExecuteArgs (Execute fuel) args closure w = (.ok objs, closure1, w1) →
      Execute (fuel + 1) (.NewInstance addr cls args) closure w =
        match Call (asExecutor (Execute fuel)) addr cls "__init__" objs w1 with
        | (.ok _, w2) => (.ok (some (.ClassInstance addr cls)), closure1, w2)
        | (.error e, w2) => (.error e, closure1, w2)) ∧
    World.initial.fieldsOf addr = [] ∧
    (∀ (r1 r2 : Holder) (ca ca1 cb cb1 : Env) (wa wa1 wb wb1 : World) (p q x : String)
        (rv : Statement) (closure closure1 closure2 : Env) (w w1 : World) (v : Holder),
      Execute fuel (.NewInstance addr cls args) ca wa = (.ok r1, ca1, wa1) →
      Execute fuel (.NewInstance addr cls args) cb wb = (.ok r2, cb1, wb1) →
      closure.lookup p = some r1 → closure2.lookup q = some r2 →
      Execute fuel rv closure w = (.ok v, closure1, w1) →
      Execute (fuel + 1) (.FieldAssignment [p] x rv) closure w =
          (.ok v, closure1, w1.setField addr x v) ∧
        Execute (fuel + 1) (.VariableValue [q, x]) closure2 (w1.setField addr x v) =
          (.ok v, closure2, w1.setField addr x v)) ∧
    (∀ (addr2 : Nat) (cls2 : Class Statement) (args2 : List Statement) (r2 : Holder)
        (cb cb1 : Env) (wb wb1 : World) (q x y : String) (closure2 : Env) (w : World)
        (v : Holder),
      addr2 ≠ addr →
      Execute fuel (.NewInstance addr2 cls2 args2) cb wb = (.ok r2, cb1, wb1) →
      closure2.lookup q = some r2 →
      Execute (fuel + 1) (.VariableValue [q, y]) closure2 (w.setField addr x v) =
        ((Execute (fuel + 1) (.VariableValue [q, y]) closure2 w).1, closure2,
         w.setField addr x v)) := by
  refine ⟨fun _ _ _ _ _ h => NewInstance_result h, ?_, ?_, rfl, ?_, ?_⟩
  · intro closure w h
    rw [Execute_NewInstance, h]
    simp
  · intro closure closure1 w w1 objs h hargs
    rw [Execute_NewInstance, h, if_pos rfl, hargs]
  · intro r1 r2 ca ca1 cb cb1 wa wa1 wb wb1 p q x rv closure closure1 closure2 w w1 v
      h1 h2 hp hq hrv
    have e1 := NewInstance_result h1
    have e2 := NewInstance_result h2
    subst e1; subst e2
    constructor
    · rw [Execute_FieldAssignment]
      simp only [VariableValueExecute, hp, ResolveFields, hrv]
    · rw [Execute_VariableValue]
      simp only [VariableValueExecute, hq, ResolveFields, World.fieldsOf_setField,
        Closure.lookup_assign]
  · intro addr2 cls2 args2 r2 cb cb1 wb wb1 q x y closure2 w v hne h2 hq
    have e2 := NewInstance_result h2
    subst e2
    rw [Execute_VariableValue, Execute_VariableValue]
    simp only [VariableValueExecute, hq, ResolveFields,
      World.fieldsOf_setField_ne w addr addr2 x v hne]

theorem NewInstance_returns_member_witness :
    Execute (1 + 1) (.FieldAssignment ["p"] "x" (NumericConst 5))
        [("p", some (.ClassInstance 1 classA)), ("q", some (.ClassInstance 1 classA))]
        World.initial =
      (.ok (some (.Number 5)),
       [("p", some (.ClassInstance 1 classA)), ("q", some (.ClassInstance 1 classA))],
       World.initial.setField 1 "x" (some (.Number 5))) ∧
    Execute (1 + 1) (.VariableValue ["q", "x"])
        [("p", some (.ClassInstance 1 classA)), ("q", some (.ClassInstance 1 classA))]
        (World.initial.setField 1 "x" (some (.Number 5))) =
      (.ok (some (.Number 5)),
       [("p", some (.ClassInstance 1 classA)), ("q", some (.ClassInstance 1 classA))],
       World.initial.setField 1 "x" (some (.Number 5))) :=
  (NewInstance_returns_member 1 1 classA []).2.2.2.2.1
    (some (.ClassInstance 1 classA)) (some (.ClassInstance 1 classA)) [] [] [] []
    World.initial World.initial World.initial World.initial "p" "q" "x" (NumericConst 5)
    [("p", some (.ClassInstance 1 classA)), ("q", some (.ClassInstance 1 classA))]
    [("p", some (.ClassInstance 1 classA)), ("q", some (.ClassInstance 1 classA))]
    [("p", some (.ClassInstance 1 classA)), ("q", some (.ClassInstance 1 classA))]
    World.initial World.initial (some (.Number 5)) rfl rfl rfl rfl rfl

/-- C16 as stated fails: in `L().m(self.log())` the object expression `L()` prints
`obj` and the argument expression prints `arg`; the output is `arg` first, then `obj`. -/
theorem MethodCall_arguments_first :
    (Execute 8 callWithEffects [("self", some (.ClassInstance 0 classL))] World.initial).1 =
        .ok (some (.Number 0)) ∧
      (Execute 8 callWithEffects [("self", some (.ClassInstance 0 classL))]
        World.initial).2.2.output = "arg\nobj\n" :=
  ⟨rfl, rfl⟩

/-- C16, amended. `MethodCall(obj, method, args)` evaluates the arguments first, from
left to right, each in the state its predecessor left, then the object expression in the
state the last argument left, then dispatches; when an argument fails the object
expression is not evaluated. -/
theorem MethodCall_order (fuel : Nat) (object : Statement) (method : String)
    (closure : Env) (w : World) :
    (∀ (args : List Statement) (vs : List Holder) (closure1 closure2 : Env) (w1 w2 : World)
        (addr : Nat) (cls : Class Statement),
      ExecuteArgs (Execute fuel) args closure w = (.ok vs, closure1, w1) →
      Execute fuel object closure1 w1 = (.ok (some (.ClassInstance addr cls)), closure2, w2) →
      Execute (fuel + 1) (.MethodCall object method args) closure w =
        ((Call (asExecutor (Execute fuel)) addr cls method vs w2).1, closure2,
         (Call (asExecutor (Execute fuel)) addr cls method vs w2).2)) ∧
    (∀ (args : List Statement) (e : Stop Statement) (closure1 : Env) (w1 : World),
      ExecuteArgs (Execute fuel) args closure w = (.error e, closure1, w1) →
      Execute (fuel + 1) (.MethodCall object method args) closure w =
        (.error e, closure1, w1)) ∧
    (∀ (arg : Statement) (rest : List Statement) (v : Holder) (vs : List Holder)
        (closure1 closure2 : Env) (w1 w2 : World),
      Execute fuel arg closure w = (.ok v, closure1, w1) →
      ExecuteArgs (Execute fuel) rest closure1 w1 = (.ok vs, closure2, w2) →
      ExecuteArgs (Execute fuel) (arg :: rest) closure w = (.ok (v :: vs), closure2, w2)) := by
  refine ⟨?_, ?_, ?_⟩
  · intro args vs closure1 closure2 w1 w2 addr cls hargs hobj
    rw [Execute_MethodCall, hargs]
    simp only [hobj]
  · intro args e closure1 w1 hargs
    rw [Execute_MethodCall, hargs]
  · intro arg rest v vs closure1 closure2 w1 w2 harg hrest
    simp only [ExecuteArgs, harg, hrest]

theorem MethodCall_order_witness :
    Execute 2 (.MethodCall (.VariableValue ["s"]) "nothing" [NumericConst 1])
        [("s", some (.ClassInstance 0 classA))] World.initial =
      ((Call (asExecutor (Execute 1)) 0 classA "nothing" [some (.Number 1)] World.initial).1,
       [("s", some (.ClassInstance 0 classA))],
       (Call (asExecutor (Execute 1)) 0 classA "nothing" [some (.Number 1)]
         World.initial).2) :=
  (MethodCall_order 1 (.VariableValue ["s"]) "nothing" [("s", some (.ClassInstance 0 classA))]
    World.initial).1 [NumericConst 1] [some (.Number 1)] _ _ _ _ 0 classA rfl rfl

/-- C17 (the code at the failing input). In `x = 1; x.m()` the object expression
evaluates to a Number, `TryAs<ClassInstance>()` yields a null pointer and `Call` is
invoked through it: no exception is thrown, the behaviour is undefined. -/
theorem MethodCall_on_number :
    (Execute 3 programCallOnNumber [] World.initial).1 = .error .undefined :=
  rfl

/-! ## Evaluation: arithmetic and printing -/

theorem ExecuteBinary_ok (ex : Statement → Env → World → Res) (lhs rhs : Statement)
    (f : Holder → Holder → World → Except (Stop Statement) Holder × World)
    (closure closure1 closure2 : Env) (w w1 w2 : World) (l r : Holder)
    (hl : ex lhs closure w = (.ok l, closure1, w1))
    (hr : ex rhs closure1 w1 = (.ok r, closure2, w2)) :
    ExecuteBinary ex lhs rhs f closure w = ((f l r w2).1, closure2, (f l r w2).2) := by
  simp only [ExecuteBinary, hl, hr]

/-- C18 as stated fails: `p` is an instance of `P`, whose `__add__` takes one parameter
and returns 1, and the right operand is the absent holder.  The call `p.__add__(None)`
would return `Number(1)`, but `Add` does not call it and fails with its error. -/
theorem Add_absent_rhs :
    HasMethod classP "__add__" 1 = true ∧
    Call (asExecutor (Execute 3)) 0 classP "__add__" [none] World.initial =
      (.ok (some (.Number 1)), World.initial) ∧
    Execute 4 sumWithNone [("p", some (.ClassInstance 0 classP))] World.initial =
      (.error (.thrown (.runtime_error "Error in Add::Execute")),
       [("p", some (.ClassInstance 0 classP))], World.initial) :=
  ⟨rfl, rfl, rfl⟩

/-- C18, amended. Add: with the operands evaluated left then right, an instance on the
left whose class resolves a one-parameter `__add__` and a present right operand give
`l.__add__(r)`; otherwise two Numbers give `Number(a + b)` (as an `int`), two Strings
their concatenation, two Bools `Bool(p or q)`, and every other combination (mixed kinds,
an instance without `__add__`, a class object, an absent operand) fails with the error of
`Add`; with the absent holder on the right `Add` fails also for an instance with
`__add__`, which is not called. -/
theorem Add_spec (exec : Executor Statement World) (w : World) :
    (∀ (addr : Nat) (cls : Class Statement) (r : Object Statement),
      HasMethod cls "__add__" 1 = true →
      AddHolders exec (some (.ClassInstance addr cls)) (some r) w =
        Call exec addr cls "__add__" [some r] w) ∧
    (∀ l r : Holder,
      (∀ addr cls, l = some (.ClassInstance addr cls) →
        HasMethod cls "__add__" 1 = false ∨ r = none) →
      AddHolders exec l r w = (AddPrimitive l r, w)) ∧
    (∀ a b : Int, INT_MIN ≤ a + b → a + b ≤ INT_MAX → wrapInt (a + b) = a + b) ∧
    (∀ (fuel : Nat) (lhs rhs : Statement) (closure closure1 closure2 : Env) (w1 w2 : World)
        (l r : Holder),
      Execute fuel lhs closure w = (.ok l, closure1, w1) →
      Execute fuel rhs closure1 w1 = (.ok r, closure2, w2) →
      Execute (fuel + 1) (.Add lhs rhs) closure w =
        ((AddHolders (asExecutor (Execute fuel)) l r w2).1, closure2,
         (AddHolders (asExecutor (Execute fuel)) l r w2).2)) ∧
    (∀ l : Holder, AddHolders exec l none w =
      (.error (.thrown (.runtime_error "Error in Add::Execute")), w)) := by
  refine ⟨?_, ?_, ?_, ?_, ?_⟩
  · intro addr cls r h
    simp only [AddHolders, h, if_true]
  · intro l r h
    rcases l with _ | (a | a | a | a | ⟨a, c⟩)
    · rcases r with _ | r <;> rfl
    · rcases r with _ | (b | b | b | b | ⟨b, d⟩) <;> rfl
    · rcases r with _ | (b | b | b | b | ⟨b, d⟩) <;> rfl
    · rcases r with _ | (b | b | b | b | ⟨b, d⟩) <;> try rfl
      cases a <;> cases b <;> rfl
    · rcases r with _ | (b | b | b | b | ⟨b, d⟩) <;> rfl
    · rcases r with _ | r
      · rfl
      · rcases h a c rfl with h | h
        · simp only [AddHolders, h]
          rfl
        · cases h
  · intro a b h1 h2
    unfold wrapInt
    unfold INT_MIN at h1
    unfold INT_MAX at h2
    omega
  · intro fuel lhs rhs closure closure1 closure2 w1 w2 l r hl hr
    rw [Execute_Add]
    exact ExecuteBinary_ok _ _ _ _ _ _ _ _ _ _ _ _ hl hr
  · intro l
    rcases l with _ | (a | a | a | a | ⟨a, c⟩) <;> rfl

theorem Add_spec_witness :
    Execute 2 (.Add (NumericConst 2) (NumericConst 3)) [] World.initial =
      ((AddHolders (asExecutor (Execute 1)) (some (.Number 2)) (some (.Number 3))
          World.initial).1, [],
       (AddHolders (asExecutor (Execute 1)) (some (.Number 2)) (some (.Number 3))
          World.initial).2) ∧
    AddHolders (asExecutor (Execute 3)) (some (.ClassInstance 0 classP)) (some (.Number 2))
        World.initial =
      Call (asExecutor (Execute 3)) 0 classP "__add__" [some (.Number 2)] World.initial :=
  ⟨(Add_spec (asExecutor (Execute 1)) World.initial).2.2.2.1 1 (NumericConst 2)
      (NumericConst 3) [] [] [] World.initial World.initial (some (.Number 2))
      (some (.Number 3)) rfl rfl,
    (Add_spec (asExecutor (Execute 3)) World.initial).1 0 classP (.Number 2) rfl⟩

theorem neg_tmod_eq (a b : Int) : Int.tmod (-a) b = -(Int.tmod a b) := by
  rw [Int.tmod_def, Int.tmod_def, Int.neg_tdiv]; ring

theorem natAbs_tmod_eq (a b : Int) : (Int.tmod a b).natAbs = a.natAbs % b.natAbs := by
  obtain ⟨m, rfl | rfl⟩ := Int.eq_nat_or_neg a <;>
    obtain ⟨n, rfl | rfl⟩ := Int.eq_nat_or_neg b <;>
    simp [neg_tmod_eq, Int.tmod_neg, ← Int.ofNat_tmod] <;> omega

theorem tmod_bounds (a b : Int) (hb : b ≠ 0) :
    |Int.tmod a b| < |b| ∧ (0 ≤ a → 0 ≤ Int.tmod a b) ∧ (a ≤ 0 → Int.tmod a b ≤ 0) := by
  refine ⟨?_, fun h => Int.tmod_nonneg b h, fun h => ?_⟩
  · rw [Int.abs_eq_natAbs, Int.abs_eq_natAbs, natAbs_tmod_eq]
    have : 0 < b.natAbs := Int.natAbs_pos.mpr hb
    exact_mod_cast Nat.mod_lt _ this
  · have h1 : 0 ≤ -a := by omega
    have h2 := Int.tmod_nonneg b h1
    rw [neg_tmod_eq] at h2
    omega

/-- C19. Integer division: for Numbers `a` and `b` with `b ≠ 0`, other than the pair
`(INT_MIN, -1)`, `Div` returns `Number(q)` where `a = q * b + r` with `|r| < |b|` and `r`
zero or of the sign of `a`, that is the quotient truncated toward zero (`-7 / 2` is `-3`);
when an operand is not a Number `Div` fails with its error. -/
theorem Div_spec :
    (∀ a b : Int, b ≠ 0 → ¬ (a = INT_MIN ∧ b = -1) →
      ∃ q r : Int, DivHolders (some (.Number a)) (some (.Number b)) = .ok (some (.Number q)) ∧
        a = q * b + r ∧ |r| < |b| ∧ (0 ≤ a → 0 ≤ r) ∧ (a ≤ 0 → r ≤ 0)) ∧
    DivHolders (some (.Number (-7))) (some (.Number 2)) = .ok (some (.Number (-3))) ∧
    (∀ l r : Holder, ((∀ a, l ≠ some (.Number a)) ∨ (∀ b, r ≠ some (.Number b))) →
      DivHolders l r = .error (.thrown (.runtime_error "Error in Dir::Execute"))) ∧
    (∀ (fuel : Nat) (lhs rhs : Statement) (closure closure1 closure2 : Env) (w w1 w2 : World)
        (l r : Holder),
      Execute fuel lhs closure w = (.ok l, closure1, w1) →
      Execute fuel rhs closure1 w1 = (.ok r, closure2, w2) →
      Execute (fuel + 1) (.Div lhs rhs) closure w = (DivHolders l r, closure2, w2)) := by
  refine ⟨?_, rfl, ?_, ?_⟩
  · intro a b hb hov
    refine ⟨Int.tdiv a b, Int.tmod a b, ?_, (Int.tdiv_add_tmod' a b).symm, tmod_bounds a b hb⟩
    simp only [DivHolders]
    rw [if_neg]
    intro h
    rcases h with h | h
    · exact hb h
    · exact hov h
  · intro l r h
    rcases l with _ | (a | a | a | a | ⟨a, c⟩)
    · rcases r with _ | r <;> rfl
    · rcases r with _ | (b | b | b | b | ⟨b, d⟩) <;> try rfl
      rcases h with h | h
      · exact absurd rfl (h a)
      · exact absurd rfl (h b)
    · rcases r with _ | (b | b | b | b | ⟨b, d⟩) <;> rfl
    · rcases r with _ | (b | b | b | b | ⟨b, d⟩) <;> rfl
    · rcases r with _ | (b | b | b | b | ⟨b, d⟩) <;> rfl
    · rcases r with _ | (b | b | b | b | ⟨b, d⟩) <;> rfl
  · intro fuel lhs rhs closure closure1 closure2 w w1 w2 l r hl hr
    rw [Execute_Div]
    exact ExecuteBinary_ok _ _ _ _ _ _ _ _ _ _ _ _ hl hr

theorem Div_spec_witness :
    ∃ q r : Int, DivHolders (some (.Number (-7))) (some (.Number 2)) = .ok (some (.Number q)) ∧
      (-7 : Int) = q * 2 + r ∧ |r| < |(2 : Int)| ∧ ((0 : Int) ≤ -7 → 0 ≤ r) ∧
      ((-7 : Int) ≤ 0 → r ≤ 0) :=
  Div_spec.1 (-7) 2 (by decide) (by decide)

theorem World.write_write (w : World) (a b : String) :
    (w.write a).write b = w.write (a ++ b) := by
  simp [World.write, String.append_assoc]

theorem World.write_empty (w : World) : w.write "" = w := by
  cases w
  simp [World.write]

theorem PrintHolder_primitive (exec : Executor Statement World) (fuel : Nat) (v : Holder)
    (w : World) (hv : isPrimitiveOrNone v = true) :
    PrintHolder exec (fuel + 1) v w = (.ok (), w.write (renderPrimitive v)) := by
  rcases v with _ | (a | a | a | a | ⟨a, c⟩)
  · rfl
  · rfl
  · rfl
  · rfl
  · cases hv
  · cases hv

theorem PrintRest_spec (fuel : Nat) :
    ∀ (rest : List Statement) (closure closure2 : Env) (w w2 : World),
      PrintsArgs (fuel + 1) " " rest closure w closure2 w2 →
      PrintRest (Execute (fuel + 1)) (asExecutor (Execute (fuel + 1))) (fuel + 1) rest
        closure w = (.ok (), closure2, w2)
  | [], closure, closure2, w, w2, h => by
    cases h
    rfl
  | arg :: rest, closure, closure2, w, w2, h => by
    cases h with
    | cons _ _ _ _ closure1 _ _ w1 _ v harg hv hrest =>
      simp only [PrintRest, harg, PrintHolder_primitive _ _ _ _ hv]
      exact PrintRest_spec fuel rest closure1 closure2 _ w2 hrest

theorem PrintsArgs_fuel_pos {fuel : Nat} {sep : String} {arg : Statement}
    {rest : List Statement} {closure closure2 : Env} {w w2 : World}
    (h : PrintsArgs fuel sep (arg :: rest) closure w closure2 w2) : ∃ f, fuel = f + 1 := by
  cases fuel with
  | zero =>
    cases h with
    | cons _ _ _ _ _ _ _ _ _ _ harg _ _ => simp [Execute] at harg
  | succ f => exact ⟨f, rfl⟩

theorem separated_cons (sep s : String) (rest : List String) :
    separated sep (s :: rest) = sep ++ s ++ separated " " rest := by
  cases rest with
  | nil => simp [separated, joinWithSpaces, String.append_assoc]
  | cons u us => simp [separated, joinWithSpaces, String.append_assoc]

theorem PrintsArgs_pure (fuel : Nat) (closure : Env) :
    ∀ (args : List Statement) (vs : List Holder) (sep : String) (w : World),
      List.Forall₂ (fun a v => (∀ w1, Execute fuel a closure w1 = (.ok v, closure, w1)) ∧
        isPrimitiveOrNone v = true) args vs →
      PrintsArgs fuel sep args closure w closure
        (w.write (separated sep (vs.map renderPrimitive)))
  | [], [], sep, w, _ => by
    simp only [List.map_nil, separated]
    rw [World.write_empty]
    exact PrintsArgs.nil sep closure w
  | arg :: rest, v :: vs, sep, w, h => by
    rw [List.forall₂_cons] at h
    obtain ⟨⟨harg, hv⟩, hrest⟩ := h
    have ih := PrintsArgs_pure fuel closure rest vs " " ((w.write sep).write (renderPrimitive v))
      hrest
    rw [World.write_write, World.write_write] at ih
    rw [List.map_cons, separated_cons]
    exact PrintsArgs.cons sep arg rest closure closure closure w (w.write sep) _ v
      (harg _) hv (by rw [World.write_write]; exact ih)

/-- C20. Print format: `Print` evaluates its arguments in order, each in the state left
by what was written before it, writes their renderings separated by exactly one space
and followed by exactly one line feed, and returns None; for arguments whose evaluation
writes nothing and changes nothing the text written is the renderings joined by single
spaces and the line feed (just the line feed for no argument).  An absent value renders
as `None`, a Bool as `True` or `False`, a Number in decimal, a String as its content. -/
theorem Print_format (fuel : Nat) (args : List Statement) (closure : Env) (w : World) :
    (∀ closure2 w2, PrintsArgs fuel "" args closure w closure2 w2 →
      Execute (fuel + 1) (.Print none args) closure w = (.ok none, closure2, w2.write "\n")) ∧
    (∀ vs : List Holder,
      List.Forall₂ (fun a v => (∀ w1, Execute fuel a closure w1 = (.ok v, closure, w1)) ∧
        isPrimitiveOrNone v = true) args vs →
      Execute (fuel + 1) (.Print none args) closure w =
        (.ok none, closure, w.write (joinWithSpaces (vs.map renderPrimitive) ++ "\n"))) ∧
    renderPrimitive none = "None" ∧
    renderPrimitive (some (.Bool true)) = "True" ∧
    renderPrimitive (some (.Bool false)) = "False" ∧
    renderPrimitive (some (.Number (-12))) = "-12" ∧
    (∀ s : String, renderPrimitive (some (.String s)) = s) := by
  have main : ∀ closure2 w2, PrintsArgs fuel "" args closure w closure2 w2 →
      Execute (fuel + 1) (.Print none args) closure w =
        (.ok none, closure2, w2.write "\n") := by
    intro closure2 w2 h
    cases args with
    | nil =>
      cases h
      rfl
    | cons arg rest =>
      obtain ⟨f, rfl⟩ := PrintsArgs_fuel_pos h
      cases h with
      | cons _ _ _ _ closure1 _ _ w1 _ v harg hv hrest =>
        rw [World.write_empty] at harg
        rw [Execute_Print_cons, harg]
        simp only [PrintHolder_primitive _ _ _ _ hv, PrintRest_spec f rest _ _ _ _ hrest]
  refine ⟨main, ?_, rfl, rfl, rfl, rfl, fun _ => rfl⟩
  intro vs h
  have hp := PrintsArgs_pure fuel closure args vs "" w h
  rw [main _ _ hp, World.write_write]
  cases vs <;> simp [separated, joinWithSpaces]

theorem Print_format_witness :
    Execute 2 (.Print none [NumericConst 2, StringConst "a", .ValueStatement none,
        BoolConst true]) [] World.initial =
      (.ok none, [], World.initial.write (joinWithSpaces ([some (.Number 2),
          some (.String "a"), none, some (.Bool true)].map renderPrimitive) ++ "\n")) :=
  (Print_format 1 [NumericConst 2, StringConst "a", .ValueStatement none, BoolConst true] []
    World.initial).2.1 [some (.Number 2), some (.String "a"), none, some (.Bool true)]
    (List.Forall₂.cons ⟨fun _ => rfl, rfl⟩ (List.Forall₂.cons ⟨fun _ => rfl, rfl⟩
      (List.Forall₂.cons ⟨fun _ => rfl, rfl⟩ (List.Forall₂.cons ⟨fun _ => rfl, rfl⟩
        List.Forall₂.nil))))

/-! ## Runtime: the derived comparisons -/

/-- From the three basic results and their trichotomy to the six functions. -/
theorem consistent_of_trichotomy {B W : Type} (exec : Executor B W) (a b : ObjectHolder B)
    (w : W) (x y z : Bool) (h1 : Less exec a b w = (.ok x, w))
    (h2 : Equal exec a b w = (.ok y, w)) (h3 : Less exec b a w = (.ok z, w))
    (h4 : Equal exec b a w = (.ok y, w)) (h : ExactlyOne x y z) :
    ComparisonsConsistent exec a b w := by
  unfold ExactlyOne at h
  rcases h with ⟨rfl, rfl, rfl⟩ | ⟨rfl, rfl, rfl⟩ | ⟨rfl, rfl, rfl⟩
  · exact ⟨true, false, false, true, true, false, false, false, h1, h2,
      by simp only [Greater, h1], by simp only [NotEqual, h2]; rfl,
      by simp only [LessOrEqual, h1], by simp only [GreaterOrEqual, h1]; rfl, h3,
      by simp only [LessOrEqual, h3, h4], rfl, rfl, rfl, rfl⟩
  · exact ⟨false, true, false, false, true, true, false, true, h1, h2,
      by simp only [Greater, h1, h2]; rfl, by simp only [NotEqual, h2]; rfl,
      by simp only [LessOrEqual, h1, h2], by simp only [GreaterOrEqual, h1]; rfl, h3,
      by simp only [LessOrEqual, h3, h4], rfl, rfl, rfl, rfl⟩
  · exact ⟨false, false, true, true, false, true, true, true, h1, h2,
      by simp only [Greater, h1, h2]; rfl, by simp only [NotEqual, h2]; rfl,
      by simp only [LessOrEqual, h1, h2], by simp only [GreaterOrEqual, h1]; rfl, h3,
      by simp only [LessOrEqual, h3], rfl, rfl, rfl, rfl⟩

theorem exactlyOne_int (a b : Int) : ExactlyOne (decide (a < b)) (a == b) (decide (b < a)) := by
  rcases lt_trichotomy a b with h | h | h
  · have h1 : ¬ b < a := not_lt.mpr h.le
    have h2 : a ≠ b := h.ne
    simp [ExactlyOne, h, h1, h2]
  · subst h; simp [ExactlyOne]
  · have h1 : ¬ a < b := not_lt.mpr h.le
    have h2 : a ≠ b := h.ne'
    simp [ExactlyOne, h, h1, h2]

theorem exactlyOne_string (a b : String) : ExactlyOne (strLess a b) (a == b) (strLess b a) := by
  have h := strLessData_trichotomy a.data b.data
  have e : decide (a.data = b.data) = (a == b) := by
    by_cases hab : a = b
    · subst hab; simp
    · have : a.data ≠ b.data := fun hd => hab (String.ext hd)
      simp [hab, this]
  rw [e] at h
  exact h

theorem exactlyOne_bool (a b : Bool) :
    ExactlyOne (decide (a.toNat < b.toNat)) (a == b) (decide (b.toNat < a.toNat)) := by
  cases a <;> cases b <;> simp [ExactlyOne]

/-- C23. The derived comparisons are consistent on like-typed primitives: for two
Numbers, two Strings or two Bools none of the six comparison functions fails,
`Greater(a, b) = Less(b, a)`, `GreaterOrEqual(a, b) = LessOrEqual(b, a) =
(Greater(a, b) or Equal(a, b))` and `NotEqual(a, b) = (Less(a, b) or Less(b, a))`. -/
theorem derived_comparisons_consistent {B W : Type} (exec : Executor B W) (w : W) :
    (∀ a b : Int, ComparisonsConsistent exec (some (.Number a)) (some (.Number b)) w) ∧
    (∀ a b : String, ComparisonsConsistent exec (some (.String a)) (some (.String b)) w) ∧
    (∀ a b : Bool, ComparisonsConsistent exec (some (.Bool a)) (some (.Bool b)) w) := by
  refine ⟨fun a b => ?_, fun a b => ?_, fun a b => ?_⟩
  · refine consistent_of_trichotomy exec _ _ w _ _ _ rfl rfl rfl ?_ (exactlyOne_int a b)
    show (Except.ok (b == a), w) = (Except.ok (a == b), w)
    rw [Bool.beq_comm]
  · refine consistent_of_trichotomy exec _ _ w _ _ _ rfl rfl rfl ?_ (exactlyOne_string a b)
    show (Except.ok (b == a), w) = (Except.ok (a == b), w)
    rw [Bool.beq_comm]
  · refine consistent_of_trichotomy exec _ _ w _ _ _ rfl rfl rfl ?_ (exactlyOne_bool a b)
    show (Except.ok (b == a), w) = (Except.ok (a == b), w)
    rw [Bool.beq_comm]

/-! ## Lexer: unrecognized escapes -/

theorem bodySource_append (xs ys : List StrPiece) :
    bodySource (xs ++ ys) = bodySource xs ++ bodySource ys := by
  induction xs with
  | nil => rfl
  | cons x xs ih => simp [bodySource, ih]

theorem bodyPayload_append (xs ys : List StrPiece) :
    bodyPayload (xs ++ ys) = bodyPayload xs ++ bodyPayload ys := by
  induction xs with
  | nil => rfl
  | cons x xs ih => simp [bodyPayload, ih]

/-- The four-way `switch` of `GetStr` appends the payload of the escape. -/
theorem switch_payload (e : Char) (result : List Char) :
    (if e = '\'' ∨ e = '"' then result ++ [e]
      else if e = 'n' then result ++ ['\n']
      else if e = 't' then result ++ ['\t'] else result ++ ['\\']) =
      result ++ StrPiece.payload (.escape e) := by
  unfold StrPiece.payload StrPiece.value
  by_cases h1 : e = '\''
  · subst h1; simp
  by_cases h2 : e = '"'
  · subst h2; simp
  by_cases h3 : e = 'n'
  · subst h3; simp
  by_cases h4 : e = 't'
  · subst h4; simp
  simp [h1, h2, h3, h4]

theorem GetStrLoop_pieces (k : Char) (hk : k ≠ '\\') (tail : List Char) :
    ∀ (body : List StrPiece) (fuel : Nat) (pred_c : Char) (result p : List Char),
      (∀ x ∈ body, x.accepted k = true) → pred_c ≠ '\\' →
      (bodySource body).length < fuel →
      GetStrLoop fuel k pred_c
          (toChar (IStream.goodAt p (bodySource body ++ k :: tail)).get.1) result
          (IStream.goodAt p (bodySource body ++ k :: tail)).get.2 =
        .ok (result ++ bodyPayload body,
             IStream.goodAt (k :: ((bodySource body).reverse ++ p)) tail)
  | [], fuel + 1, pred_c, result, p, _, hp, _ => by
    simp [bodySource, bodyPayload, IStream.get_goodAt_cons, toChar_some, GetStrLoop, hp]
  | .plain c :: body, fuel + 1, pred_c, result, p, hb, hp, hf => by
    have hc : c ≠ '\\' ∧ c ≠ k := by
      have := hb (.plain c) (List.mem_cons_self _ _)
      simpa [StrPiece.accepted] using this
    have hb1 : ∀ x ∈ body, x.accepted k = true :=
      fun x hx => hb x (List.mem_cons_of_mem _ hx)
    have hf1 : (bodySource body).length < fuel := by
      simp [bodySource, StrPiece.source] at hf; omega
    have ih := GetStrLoop_pieces k hk tail body fuel c (result ++ [c]) (c :: p) hb1 hc.1 hf1
    simp only [bodySource, StrPiece.source, List.cons_append, List.nil_append,
      IStream.get_goodAt_cons, toChar_some]
    unfold GetStrLoop
    rw [if_pos (Or.inl hc.2), if_neg hp, if_pos hc.1, ih]
    simp [bodyPayload, StrPiece.payload]
  | .escape e :: body, fuel + 2, pred_c, result, p, hb, hp, hf => by
    have he1 : e ≠ '\\' := by
      have := hb (.escape e) (List.mem_cons_self _ _)
      simpa [StrPiece.accepted] using this
    have hb1 : ∀ x ∈ body, x.accepted k = true :=
      fun x hx => hb x (List.mem_cons_of_mem _ hx)
    have hf1 : (bodySource body).length < fuel := by
      simp [bodySource, StrPiece.source] at hf; omega
    have ih := GetStrLoop_pieces k hk tail body fuel e
      (result ++ StrPiece.payload (.escape e)) (e :: '\\' :: p) hb1 he1 hf1
    simp only [bodySource, StrPiece.source, List.cons_append, List.nil_append,
      IStream.get_goodAt_cons, toChar_some]
    unfold GetStrLoop
    rw [if_pos (Or.inl (Ne.symm hk)), if_neg hp, if_neg (by simp)]
    simp only [IStream.get_goodAt_cons, toChar_some]
    unfold GetStrLoop
    rw [if_pos (Or.inr rfl), if_pos rfl, switch_payload, ih]
    simp [bodyPayload]
  | .escape e :: body, 1, _, _, _, _, _, hf => by
    simp [bodySource, StrPiece.source] at hf
  | _, 0, _, _, _, _, _, hf => by simp at hf

theorem GetStr_pieces (q : Char) (hq : q ≠ '\\') (body : List StrPiece) (p tail : List Char)
    (fuel : Nat) (hb : ∀ x ∈ body, x.accepted q = true)
    (hfuel : (bodySource body).length < fuel) :
    GetStr fuel (IStream.goodAt p (q :: (bodySource body ++ q :: tail))) =
      .ok (bodyPayload body,
           IStream.goodAt (q :: ((bodySource body).reverse ++ q :: p)) tail) := by
  unfold GetStr
  simp only [IStream.get_goodAt_cons, toChar_some]
  rw [GetStrLoop_pieces q hq tail body fuel ' ' [] (q :: p) hb (by decide) hfuel]
  simp

/-- At a quote, with nothing pending, `NextToken` returns the `String` token of what
`GetStr` reads from the quote on. -/
theorem NextToken_of_GetStr (fuel : Nat) (lx : Lexer) (q : Char) (p rest : List Char)
    (payload : List Char) (s1 : IStream) (hq : q = '\'' ∨ q = '"')
    (hin : lx.input = IStream.goodAt p (q :: rest))
    (he : lx.token ≠ .Eof) (hded : lx.dedent = 0)
    (hind : lx.token = .Newline → lx.indent = 0) (hfuel : 0 < fuel)
    (hg : GetStr fuel (IStream.goodAt p (q :: rest)) = .ok (payload, s1)) :
    NextToken fuel lx = .ok { lx with input := s1, token := .String payload } := by
  have hq2 : q ≠ ' ' := by rcases hq with rfl | rfl <;> decide
  have hq3 : q ≠ '\n' := by rcases hq with rfl | rfl <;> decide
  have hq4 : q ≠ '#' := by rcases hq with rfl | rfl <;> decide
  have hq5 : q ≠ '\xff' := by rcases hq with rfl | rfl <;> decide
  have hq6 : isDigit q = false := by rcases hq with rfl | rfl <;> decide
  obtain ⟨f, rfl⟩ : ∃ f, fuel = f + 1 := ⟨fuel - 1, by omega⟩
  have hcl : classify (f + 1) lx q (IStream.goodAt (q :: p) rest) =
      .ok { lx with input := s1, token := .String payload } := by
    unfold classify
    rw [if_neg hq5, if_neg (by simp [hq6]), if_pos hq, IStream.unget_goodAt_cons, hg]
  by_cases hn : lx.token = .Newline
  · have h := NextToken_line_start (f + 1) lx 0 q p rest hn hded
      (by simpa using hin) hq2 hq3 hq4 (by omega)
    have hi := hind hn
    rw [h, if_neg (by omega), if_neg (by omega)]
    simpa using hcl
  · rw [NextToken_mid_line f lx q p _ hn he hded hin hq2]
    exact hcl

/-- C21 as stated fails: the literal `"a\qb"` is read as the three
bytes `a`, backslash, `b`: the byte `q` that follows the backslash is not in the payload,
which is therefore not `a`, backslash, `q`, `b`.  On the text `"\\" "` (the byte after the
backslash is a backslash) the second quote does not close the literal: the payload is
backslash, quote, space and the stream is left behind the third quote. -/
theorem unrecognized_escape_drops_byte :
    GetStr 10 (IStream.ofList "\"a\\qb\"".toList) =
        .ok (['a', '\\', 'b'], IStream.goodAt "\"bq\\a\"".toList []) ∧
      (NextToken 10 (Lexer.start (IStream.ofList "\"a\\qb\"".toList))).map Lexer.token =
        .ok (.String ['a', '\\', 'b']) ∧
      (NextToken 10 (Lexer.start (IStream.ofList "\"a\\qb\"".toList))).map Lexer.token ≠
        .ok (.String ['a', '\\', 'q', 'b']) ∧
      GetStr 10 (IStream.ofList "\"\\\\\" \"".toList) =
        .ok (['\\', '"', ' '], IStream.goodAt "\" \"\\\\\"".toList []) :=
  ⟨rfl, rfl, fun h => by
    have h1 : (Except.ok (Token.String ['a', '\\', 'b']) : Except LexFail Token) =
        .ok (.String ['a', '\\', 'q', 'b']) := h
    simp at h1, rfl⟩

/-- On recognized pieces the payload is the byte the piece denotes. -/
theorem payload_of_recognized (q : Char) (x : StrPiece) (h : x.recognized q = true) :
    x.payload = [x.value] := by
  cases x with
  | plain c => rfl
  | escape c =>
    simp only [StrPiece.recognized, Bool.or_eq_true, beq_iff_eq] at h
    show (if c = '\'' ∨ c = '"' ∨ c = 'n' ∨ c = 't' then [StrPiece.value (.escape c)]
      else ['\\']) = _
    rw [if_pos (by tauto)]

/-- C21, amended. Unrecognized string escape: in a literal opened by the quote `q` whose
body is `pre`, a backslash, a byte `x` that is none of `'`, `"`, `n`, `t` and not a
backslash, and `post` (`pre` and `post` made of ordinary bytes and of escapes other than
the double backslash), the escape adds exactly one backslash to the payload at that
position and `x` is dropped; the rest is read as usual up to the closing quote, behind
which the stream is left, and `NextToken` returns the `String` token with that payload. -/
theorem string_literal_unrecognized (fuel : Nat) (lx : Lexer) (q x : Char)
    (pre post : List StrPiece) (p tail : List Char) (hq : q = '\'' ∨ q = '"')
    (hx : unrecognizedEscape x = true) (hpre : ∀ y ∈ pre, y.accepted q = true)
    (hpost : ∀ y ∈ post, y.accepted q = true)
    (hin : lx.input = IStream.goodAt p
      (q :: (bodySource pre ++ '\\' :: x :: (bodySource post ++ q :: tail))))
    (he : lx.token ≠ .Eof) (hded : lx.dedent = 0)
    (hind : lx.token = .Newline → lx.indent = 0)
    (hfuel : (bodySource pre).length + 2 + (bodySource post).length < fuel) :
    GetStr fuel lx.input =
        .ok (bodyPayload pre ++ '\\' :: bodyPayload post,
             IStream.goodAt (q :: ((bodySource post).reverse ++ x :: '\\' ::
               ((bodySource pre).reverse ++ q :: p))) tail) ∧
      NextToken fuel lx =
        .ok { lx with
              input := IStream.goodAt (q :: ((bodySource post).reverse ++ x :: '\\' ::
                ((bodySource pre).reverse ++ q :: p))) tail,
              token := .String (bodyPayload pre ++ '\\' :: bodyPayload post) } := by
  have hq1 : q ≠ '\\' := by rcases hq with rfl | rfl <;> decide
  have hx1 : x ≠ '\'' ∧ x ≠ '"' ∧ x ≠ 'n' ∧ x ≠ 't' ∧ x ≠ '\\' := by
    simpa [unrecognizedEscape, and_assoc] using hx
  have hb : ∀ y ∈ pre ++ .escape x :: post, y.accepted q = true := by
    intro y hy
    rcases List.mem_append.mp hy with h | h
    · exact hpre y h
    · rcases List.mem_cons.mp h with h | h
      · subst h; simpa [StrPiece.accepted] using hx1.2.2.2.2
      · exact hpost y h
  have hs : bodySource (pre ++ .escape x :: post) =
      bodySource pre ++ '\\' :: x :: bodySource post := by
    rw [bodySource_append]; rfl
  have hpay : bodyPayload (pre ++ .escape x :: post) =
      bodyPayload pre ++ '\\' :: bodyPayload post := by
    rw [bodyPayload_append]
    simp [bodyPayload, StrPiece.payload, hx1.1, hx1.2.1, hx1.2.2.1, hx1.2.2.2.1]
  have hg := GetStr_pieces q hq1 (pre ++ .escape x :: post) p tail fuel hb
    (by rw [hs]; simp; omega)
  rw [hs, hpay] at hg
  simp only [List.append_assoc, List.cons_append, List.reverse_append, List.reverse_cons,
    List.nil_append] at hg
  refine ⟨?_, ?_⟩
  · rw [hin]; simpa using hg
  · refine NextToken_of_GetStr fuel lx q p _ _ _ hq hin he hded hind (by omega) ?_
    simpa using hg

theorem string_literal_unrecognized_witness :
    GetStr 10 (Lexer.start (IStream.ofList "\"a\\qb\"".toList)).input =
        .ok (bodyPayload [.plain 'a'] ++ '\\' :: bodyPayload [.plain 'b'],
             IStream.goodAt ('"' :: ((bodySource [.plain 'b']).reverse ++ 'q' :: '\\' ::
               ((bodySource [.plain 'a']).reverse ++ '"' :: []))) []) ∧
      NextToken 10 (Lexer.start (IStream.ofList "\"a\\qb\"".toList)) =
        .ok { Lexer.start (IStream.ofList "\"a\\qb\"".toList) with
              input := IStream.goodAt ('"' :: ((bodySource [.plain 'b']).reverse ++ 'q' ::
                '\\' :: ((bodySource [.plain 'a']).reverse ++ '"' :: []))) [],
              token := .String (bodyPayload [.plain 'a'] ++ '\\' :: bodyPayload [.plain 'b']) } :=
  string_literal_unrecognized 10 (Lexer.start (IStream.ofList "\"a\\qb\"".toList)) '"' 'q'
    [.plain 'a'] [.plain 'b'] [] [] (Or.inr rfl) (by decide) (by decide) (by decide) rfl
    (by decide) rfl (by decide) (by decide)

/-! ## Lexer: blank lines and comment lines -/

theorem countIndent_exit : ∀ (fuel i : Nat) (c : Char) (s : IStream) (i1 : Nat) (c1 : Char)
    (s1 : IStream), countIndent fuel i c s = .ok (i1, c1, s1) → c1 ≠ ' '
  | 0, _, _, _, _, _, _, h => by simp [countIndent] at h
  | fuel + 1, i, c, s, i1, c1, s1, h => by
    unfold countIndent at h
    by_cases hc : c = ' '
    · rw [if_pos hc] at h
      simp only at h
      split at h
      · exact countIndent_exit fuel _ _ _ _ _ _ h
      · injection h
    · rw [if_neg hc] at h
      injection h with h
      injection h with h1 h2
      injection h2 with h2 h3
      subst h2
      exact hc

theorem lineStartLoop_exit (n : Nat) : ∀ (fuel i : Nat) (c : Char) (s : IStream) (i1 : Nat)
    (c1 : Char) (s1 : IStream), lineStartLoop n fuel i c s = .ok (i1, c1, s1) → c ≠ ' ' →
    c1 ≠ ' ' ∧ c1 ≠ '\n' ∧ c1 ≠ '#'
  | 0, _, _, _, _, _, _, h, _ => by simp [lineStartLoop] at h
  | fuel + 1, i, c, s, i1, c1, s1, h, h0 => by
    unfold lineStartLoop at h
    by_cases hc : c = '\n' ∨ c = '#'
    · rw [if_pos hc] at h
      cases h1 : skipLines n c s with
      | error e => rw [h1] at h; injection h
      | ok r =>
        obtain ⟨c2, s2⟩ := r
        rw [h1] at h
        simp only at h
        cases h2 : countIndent n 0 c2 s2 with
        | error e => rw [h2] at h; injection h
        | ok r2 =>
          obtain ⟨i3, c3, s3⟩ := r2
          rw [h2] at h
          exact lineStartLoop_exit n fuel _ _ _ _ _ _ h (countIndent_exit _ _ _ _ _ _ _ h2)
    · rw [if_neg hc] at h
      injection h with h
      injection h with h1 h2
      injection h2 with h2 h3
      subst h2
      exact ⟨h0, fun e => hc (Or.inl e), fun e => hc (Or.inr e)⟩

/-- The bytes at which `classify` returns a `Newline`. -/
theorem classify_newline {fuel : Nat} {lx lx1 : Lexer} {c : Char} {s : IStream}
    (h : classify fuel lx c s = .ok lx1) (ht : lx1.token = .Newline) :
    (c = '\xff' ∧ lx.token ≠ .Newline ∧ lx.token ≠ .Dedent) ∨ c = '\n' ∨ c = '#' := by
  by_cases h1 : c = '\xff'
  · rcases classify_cases h with ⟨_, _, _, _, e1, e2⟩ | ⟨_, _, _, _, _⟩
    · exact Or.inl ⟨h1, e1, e2⟩
    · unfold classify at h
      rw [if_pos h1] at h
      split at h
      · rename_i hx; exact Or.inl ⟨h1, hx⟩
      · injection h with h; subst h; simp at ht
  by_cases h5 : c = '\n'
  · exact Or.inr (Or.inl h5)
  by_cases h6 : c = '#'
  · exact Or.inr (Or.inr h6)
  exfalso
  unfold classify at h
  rw [if_neg h1] at h
  by_cases h2 : isDigit c = true
  · rw [if_pos h2] at h
    injection h with h; subst h; simp at ht
  rw [if_neg h2] at h
  by_cases h3 : c = '\'' ∨ c = '"'
  · rw [if_pos h3] at h
    split at h
    · injection h
    · injection h with h; subst h; simp at ht
  rw [if_neg h3] at h
  split at h
  · split at h
    · injection h
    · injection h with h; subst h; exact (keyword_ne _).2.2.2 ht
  repeat' (first
    | (injection h with h; subst h; simp at ht)
    | injection h
    | split at h)

/-- The token returned after a `Newline`: an `Indent`, a `Dedent`, or what `classify`
makes of a byte that is neither a space, a line feed nor a `#`, which is no `Newline`. -/
theorem NextToken_after_newline {fuel : Nat} {lx lx1 : Lexer} (ht : lx.token = .Newline)
    (h : NextToken fuel lx = .ok lx1) :
    lx1.token = .Indent ∨ lx1.token = .Dedent ∨
      (lx1.token ≠ .Newline ∧
        ∃ c s, c ≠ ' ' ∧ c ≠ '\n' ∧ c ≠ '#' ∧ classify fuel lx c s = .ok lx1) := by
  unfold NextToken at h
  rw [if_neg (by rw [ht]; simp)] at h
  by_cases hd : lx.dedent > 0
  · rw [if_pos hd] at h
    injection h with h; subst h
    exact Or.inr (Or.inl rfl)
  rw [if_neg hd] at h
  simp only [ht, if_true] at h
  cases h1 : countIndent fuel 0 (toChar lx.input.get.1) lx.input.get.2 with
  | error e => rw [h1] at h; injection h
  | ok r =>
    obtain ⟨i0, c0, s0⟩ := r
    rw [h1] at h
    simp only at h
    cases h2 : lineStartLoop fuel fuel i0 c0 s0 with
    | error e => rw [h2] at h; injection h
    | ok r2 =>
      obtain ⟨i, c, s⟩ := r2
      rw [h2] at h
      simp only at h
      obtain ⟨e0, e1, e2⟩ := lineStartLoop_exit fuel fuel _ _ _ _ _ _ h2
        (countIndent_exit _ _ _ _ _ _ _ h1)
      by_cases hi : i > lx.indent
      · rw [if_pos hi] at h
        injection h with h; subst h
        exact Or.inl rfl
      rw [if_neg hi] at h
      by_cases hi2 : i < lx.indent
      · rw [if_pos hi2] at h
        injection h with h; subst h
        exact Or.inr (Or.inl rfl)
      rw [if_neg hi2] at h
      refine Or.inr (Or.inr ⟨fun hn => ?_, c, s, e0, e1, e2, h⟩)
      rcases classify_newline h hn with ⟨_, x, _⟩ | x | x
      · exact x ht
      · exact e1 x
      · exact e2 x

theorem lexSteps_newlines {fuel : Nat} : ∀ {n : Nat} {lx lx2 : Lexer} {ts : List Token},
    lexSteps fuel n lx = .ok (ts, lx2) → List.Chain NotBothNewline lx.token ts
  | 0, lx, lx2, ts, h => by
    unfold lexSteps at h
    injection h with h; injection h with ha hb; subst ha; exact List.Chain.nil
  | n + 1, lx, lx2, ts, h => by
    obtain ⟨lx1, ts1, h1, h2, rfl⟩ := lexSteps_succ h
    refine List.Chain.cons (fun hb => ?_) (lexSteps_newlines h2)
    rcases NextToken_after_newline hb.1 h1 with x | x | ⟨x, _⟩
    · rw [hb.2] at x; cases x
    · rw [hb.2] at x; cases x
    · exact x hb.2

theorem startsToken_get (p tail : List Char) (ht : startsToken tail = true) :
    toChar (IStream.goodAt p tail).get.1 ≠ ' ' ∧ toChar (IStream.goodAt p tail).get.1 ≠ '\n' ∧
      toChar (IStream.goodAt p tail).get.1 ≠ '#' := by
  cases tail with
  | nil =>
    exact ⟨(by decide : ('\xff' : Char) ≠ ' '), (by decide : ('\xff' : Char) ≠ '\n'),
      (by decide : ('\xff' : Char) ≠ '#')⟩
  | cons c t =>
    rw [IStream.get_goodAt_cons, toChar_some]
    simpa [startsToken, and_assoc] using ht

/-- The space-counting loop on `2 * k` spaces followed by the end of the text or by a byte
of another kind. -/
theorem countIndent_pairs (tail : List Char) (ht : startsToken tail = true) :
    ∀ (k fuel i : Nat) (p : List Char), k < fuel →
      countIndent fuel i
          (toChar (IStream.goodAt p (List.replicate (2 * k) ' ' ++ tail)).get.1)
          (IStream.goodAt p (List.replicate (2 * k) ' ' ++ tail)).get.2 =
        .ok (i + k, toChar (IStream.goodAt (List.replicate (2 * k) ' ' ++ p) tail).get.1,
             (IStream.goodAt (List.replicate (2 * k) ' ' ++ p) tail).get.2)
  | 0, fuel + 1, i, p, _ => by
    have h := (startsToken_get p tail ht).1
    simp only [Nat.mul_zero, List.replicate_zero, List.nil_append, Nat.add_zero]
    unfold countIndent
    rw [if_neg h]
  | k + 1, fuel + 1, i, p, hf => by
    have e : List.replicate (2 * (k + 1)) ' ' ++ tail =
        ' ' :: ' ' :: (List.replicate (2 * k) ' ' ++ tail) := by
      have e2 : 2 * (k + 1) = 2 + 2 * k := by ring
      rw [e2, List.replicate_add]
      rfl
    rw [e, IStream.get_goodAt_cons]
    simp only [toChar_some, countIndent, if_true, IStream.get_goodAt_cons]
    rw [countIndent_pairs tail ht k fuel (i + 1) (' ' :: ' ' :: p) (by omega),
      replicate_two_succ]
    congr 2
    omega

/-- The call `getline` on a text that holds a line feed: the stream is left behind the
first one. -/
theorem IStream.getline_goodAt (p text rest : List Char)
    (h : text.all (fun c => c != '\n') = true) :
    (IStream.goodAt p (text ++ '\n' :: rest)).getline =
      IStream.goodAt ('\n' :: (text.reverse ++ p)) rest := by
  have hp : ∀ a ∈ text, (fun c => c != '\n') a = true := List.all_eq_true.mp h
  have h1 : (text ++ '\n' :: rest).takeWhile (fun c => c != '\n') = text := by
    rw [List.takeWhile_append_of_pos hp]
    simp
  have h2 : (text ++ '\n' :: rest).dropWhile (fun c => c != '\n') = '\n' :: rest := by
    rw [List.dropWhile_append_of_pos hp]
    simp
  unfold IStream.getline
  simp only [IStream.goodAt, IStream.good, h1, h2]
  rfl

theorem lineStartLoop_blank (n fuel i : Nat) (c : Char) (s : IStream)
    (h : c = '\n' ∨ c = '#') :
    lineStartLoop n (fuel + 1) i c s = skipScan n n fuel c s := by
  unfold lineStartLoop skipScan lineScan
  rw [if_pos h]

theorem skipScan_blank (n m fuel : Nat) (c : Char) (s : IStream) (h : c = '\n' ∨ c = '#') :
    skipScan n (m + 1) fuel c s =
      skipScan n m fuel (toChar (if c = '#' then s.getline else s).get.1)
        (if c = '#' then s.getline else s).get.2 := by
  unfold skipScan
  rw [skipLines, if_pos h]

theorem skipScan_ordinary (n m fuel : Nat) (c : Char) (s : IStream) (h1 : c ≠ '\n')
    (h2 : c ≠ '#') : skipScan n (m + 1) fuel c s = lineScan n fuel c s := by
  unfold skipScan
  rw [skipLines, if_neg (by simp [h1, h2])]

/-- A run of blank and comment lines in front of a line of `2 * k` spaces is passed over
by the loops at the head of the `Newline` branch, which stop behind the first byte after
those spaces with the count `k`. -/
theorem lineScan_blank (n k : Nat) (tail : List Char) (ht : startsToken tail = true)
    (hk : k < n) :
    ∀ (blanks : List BlankLine) (p : List Char) (f m : Nat),
      (∀ b ∈ blanks, b.wellFormed = true ∧ b.indent < n) → blanks.length + 1 < n →
      blanks.length < f → blanks.length < m →
      lineScan n f
          (toChar (IStream.goodAt p
            (blankSource blanks ++ (List.replicate (2 * k) ' ' ++ tail))).get.1)
          (IStream.goodAt p (blankSource blanks ++ (List.replicate (2 * k) ' ' ++ tail))).get.2 =
        .ok (k, toChar (IStream.goodAt
              (List.replicate (2 * k) ' ' ++ ((blankSource blanks).reverse ++ p)) tail).get.1,
            (IStream.goodAt
              (List.replicate (2 * k) ' ' ++ ((blankSource blanks).reverse ++ p)) tail).get.2) ∧
      skipScan n m f
          (toChar (IStream.goodAt p
            (blankSource blanks ++ (List.replicate (2 * k) ' ' ++ tail))).get.1)
          (IStream.goodAt p (blankSource blanks ++ (List.replicate (2 * k) ' ' ++ tail))).get.2 =
        .ok (k, toChar (IStream.goodAt
              (List.replicate (2 * k) ' ' ++ ((blankSource blanks).reverse ++ p)) tail).get.1,
            (IStream.goodAt
              (List.replicate (2 * k) ' ' ++ ((blankSource blanks).reverse ++ p)) tail).get.2)
  | [], p, f + 1, m + 1, _, _, _, _ => by
    obtain ⟨_, g1, g2⟩ := startsToken_get (List.replicate (2 * k) ' ' ++ p) tail ht
    have hL : lineScan n (f + 1)
        (toChar (IStream.goodAt p (List.replicate (2 * k) ' ' ++ tail)).get.1)
        (IStream.goodAt p (List.replicate (2 * k) ' ' ++ tail)).get.2 =
        .ok (k, toChar (IStream.goodAt (List.replicate (2 * k) ' ' ++ p) tail).get.1,
            (IStream.goodAt (List.replicate (2 * k) ' ' ++ p) tail).get.2) := by
      unfold lineScan
      rw [countIndent_pairs tail ht k n 0 p hk]
      simp only [Nat.zero_add]
      exact lineStartLoop_ordinary _ _ _ _ _ g1 g2
    have hc : toChar (IStream.goodAt p (List.replicate (2 * k) ' ' ++ tail)).get.1 ≠ '\n' ∧
        toChar (IStream.goodAt p (List.replicate (2 * k) ' ' ++ tail)).get.1 ≠ '#' := by
      cases k with
      | zero => exact (startsToken_get p tail ht).2
      | succ j =>
        have e : List.replicate (2 * (j + 1)) ' ' ++ tail =
            ' ' :: (List.replicate (2 * j + 1) ' ' ++ tail) := by
          have e2 : 2 * (j + 1) = (2 * j + 1) + 1 := by ring
          rw [e2, List.replicate_succ]
          rfl
        rw [e, IStream.get_goodAt_cons, toChar_some]
        exact ⟨by decide, by decide⟩
    simp only [blankSource, List.nil_append, List.reverse_nil]
    exact ⟨hL, by rw [skipScan_ordinary _ _ _ _ _ hc.1 hc.2]; exact hL⟩
  | b :: bs, p, f + 1, m + 1, hb, hn, hf, hm => by
    obtain ⟨n1, rfl⟩ : ∃ n1, n = n1 + 1 := ⟨n - 1, by omega⟩
    have hb0 := hb b (List.mem_cons_self _ _)
    have hbs : ∀ x ∈ bs, x.wellFormed = true ∧ x.indent < n1 + 1 :=
      fun x hx => hb x (List.mem_cons_of_mem _ hx)
    simp only [List.length_cons] at hn hf hm
    have ih := fun q f1 m1 => lineScan_blank (n1 + 1) k tail ht hk bs q f1 m1 hbs (by omega)
    obtain ⟨j, comment⟩ := b
    cases comment with
    | none =>
      have es : blankSource (⟨j, none⟩ :: bs) ++ (List.replicate (2 * k) ' ' ++ tail) =
          List.replicate (2 * j) ' ' ++
            '\n' :: (blankSource bs ++ (List.replicate (2 * k) ' ' ++ tail)) := by
        simp [blankSource, BlankLine.source]
      have er : (blankSource (⟨j, none⟩ :: bs)).reverse ++ p =
          (blankSource bs).reverse ++ ('\n' :: (List.replicate (2 * j) ' ' ++ p)) := by
        simp [blankSource, BlankLine.source]
      -- past the line feed, from the inner loop
      have hS : ∀ m1 f1, bs.length < m1 → bs.length < f1 →
          skipScan (n1 + 1) (m1 + 1) f1 '\n'
            (IStream.goodAt ('\n' :: (List.replicate (2 * j) ' ' ++ p))
              (blankSource bs ++ (List.replicate (2 * k) ' ' ++ tail))) =
          .ok (k, toChar (IStream.goodAt (List.replicate (2 * k) ' ' ++
                ((blankSource (⟨j, none⟩ :: bs)).reverse ++ p)) tail).get.1,
              (IStream.goodAt (List.replicate (2 * k) ' ' ++
                ((blankSource (⟨j, none⟩ :: bs)).reverse ++ p)) tail).get.2) := by
        intro m1 f1 hm1 hf1
        rw [skipScan_blank _ _ _ _ _ (Or.inl rfl), if_neg (by decide), er]
        exact (ih _ f1 m1 hf1 hm1).2
      have hL : lineScan (n1 + 1) (f + 1)
          (toChar (IStream.goodAt p (List.replicate (2 * j) ' ' ++
            '\n' :: (blankSource bs ++ (List.replicate (2 * k) ' ' ++ tail)))).get.1)
          (IStream.goodAt p (List.replicate (2 * j) ' ' ++
            '\n' :: (blankSource bs ++ (List.replicate (2 * k) ' ' ++ tail)))).get.2 =
          .ok (k, toChar (IStream.goodAt (List.replicate (2 * k) ' ' ++
                ((blankSource (⟨j, none⟩ :: bs)).reverse ++ p)) tail).get.1,
              (IStream.goodAt (List.replicate (2 * k) ' ' ++
                ((blankSource (⟨j, none⟩ :: bs)).reverse ++ p)) tail).get.2) := by
        unfold lineScan
        rw [countIndent_spaces '\n' _ (by decide) j (n1 + 1) 0 p hb0.2]
        simp only [Nat.zero_add]
        rw [lineStartLoop_blank _ _ _ _ _ (Or.inl rfl)]
        exact hS n1 f (by omega) (by omega)
      rw [es]
      refine ⟨hL, ?_⟩
      cases j with
      | zero =>
        simp only [Nat.mul_zero, List.replicate_zero, List.nil_append,
          IStream.get_goodAt_cons, toChar_some]
        have h := hS m (f + 1) (by omega) (by omega)
        simpa using h
      | succ j1 =>
        have e : List.replicate (2 * (j1 + 1)) ' ' ++
              '\n' :: (blankSource bs ++ (List.replicate (2 * k) ' ' ++ tail)) =
            ' ' :: (List.replicate (2 * j1 + 1) ' ' ++
              '\n' :: (blankSource bs ++ (List.replicate (2 * k) ' ' ++ tail))) := by
          have e2 : 2 * (j1 + 1) = (2 * j1 + 1) + 1 := by ring
          rw [e2, List.replicate_succ]
          rfl
        have hL1 := hL
        rw [e] at hL1 ⊢
        rw [IStream.get_goodAt_cons, toChar_some] at hL1 ⊢
        rw [skipScan_ordinary _ _ _ _ _ (by decide) (by decide)]
        exact hL1
    | some text =>
      have hw : text.all (fun c => c != '\n') = true := hb0.1
      have es : blankSource (⟨j, some text⟩ :: bs) ++ (List.replicate (2 * k) ' ' ++ tail) =
          List.replicate (2 * j) ' ' ++
            '#' :: (text ++ '\n' :: (blankSource bs ++ (List.replicate (2 * k) ' ' ++ tail))) := by
        simp [blankSource, BlankLine.source]
      have er : (blankSource (⟨j, some text⟩ :: bs)).reverse ++ p =
          (blankSource bs).reverse ++
            ('\n' :: (text.reverse ++ '#' :: (List.replicate (2 * j) ' ' ++ p))) := by
        simp [blankSource, BlankLine.source]
      have hS : ∀ m1 f1, bs.length < m1 → bs.length < f1 →
          skipScan (n1 + 1) (m1 + 1) f1 '#'
            (IStream.goodAt ('#' :: (List.replicate (2 * j) ' ' ++ p))
              (text ++ '\n' :: (blankSource bs ++ (List.replicate (2 * k) ' ' ++ tail)))) =
          .ok (k, toChar (IStream.goodAt (List.replicate (2 * k) ' ' ++
                ((blankSource (⟨j, some text⟩ :: bs)).reverse ++ p)) tail).get.1,
              (IStream.goodAt (List.replicate (2 * k) ' ' ++
                ((blankSource (⟨j, some text⟩ :: bs)).reverse ++ p)) tail).get.2) := by
        intro m1 f1 hm1 hf1
        rw [skipScan_blank _ _ _ _ _ (Or.inr rfl), if_pos rfl,
          IStream.getline_goodAt _ _ _ hw, er]
        exact (ih _ f1 m1 hf1 hm1).2
      have hL : lineScan (n1 + 1) (f + 1)
          (toChar (IStream.goodAt p (List.replicate (2 * j) ' ' ++
            '#' :: (text ++ '\n' ::
              (blankSource bs ++ (List.replicate (2 * k) ' ' ++ tail))))).get.1)
          (IStream.goodAt p (List.replicate (2 * j) ' ' ++
            '#' :: (text ++ '\n' ::
              (blankSource bs ++ (List.replicate (2 * k) ' ' ++ tail))))).get.2 =
          .ok (k, toChar (IStream.goodAt (List.replicate (2 * k) ' ' ++
                ((blankSource (⟨j, some text⟩ :: bs)).reverse ++ p)) tail).get.1,
              (IStream.goodAt (List.replicate (2 * k) ' ' ++
                ((blankSource (⟨j, some text⟩ :: bs)).reverse ++ p)) tail).get.2) := by
        unfold lineScan
        rw [countIndent_spaces '#' _ (by decide) j (n1 + 1) 0 p hb0.2]
        simp only [Nat.zero_add]
        rw [lineStartLoop_blank _ _ _ _ _ (Or.inr rfl)]
        exact hS n1 f (by omega) (by omega)
      rw [es]
      refine ⟨hL, ?_⟩
      cases j with
      | zero =>
        simp only [Nat.mul_zero, List.replicate_zero, List.nil_append,
          IStream.get_goodAt_cons, toChar_some]
        have h := hS m (f + 1) (by omega) (by omega)
        simpa using h
      | succ j1 =>
        have e : List.replicate (2 * (j1 + 1)) ' ' ++
              '#' :: (text ++ '\n' ::
                (blankSource bs ++ (List.replicate (2 * k) ' ' ++ tail))) =
            ' ' :: (List.replicate (2 * j1 + 1) ' ' ++
              '#' :: (text ++ '\n' ::
                (blankSource bs ++ (List.replicate (2 * k) ' ' ++ tail)))) := by
          have e2 : 2 * (j1 + 1) = (2 * j1 + 1) + 1 := by ring
          rw [e2, List.replicate_succ]
          rfl
        have hL1 := hL
        rw [e] at hL1 ⊢
        rw [IStream.get_goodAt_cons, toChar_some] at hL1 ⊢
        rw [skipScan_ordinary _ _ _ _ _ (by decide) (by decide)]
        exact hL1
  | [], _, 0, _, _, _, hf, _ => by simp at hf
  | [], _, _ + 1, 0, _, _, _, hm => by simp at hm
  | _ :: _, _, 0, _, _, _, hf, _ => by simp at hf
  | _ :: _, _, _ + 1, 0, _, _, _, hm => by simp at hm

/-- After a `Newline`, with nothing pending, `NextToken` is its two loops over the line
start followed by the comparison of the count with the indent level. -/
theorem NextToken_newline (fuel : Nat) (lx : Lexer) (htok : lx.token = .Newline)
    (hded : lx.dedent = 0) :
    NextToken fuel lx =
      match lineScan fuel fuel (toChar lx.input.get.1) lx.input.get.2 with
      | .error e => .error e
      | .ok (i, c, s) =>
        if i > lx.indent then
          .ok { lx with input := s.unget, indent := lx.indent + 1, token := .Indent }
        else if i < lx.indent then
          .ok { input := s.unget, dedent := lx.indent - i - 1, indent := i, token := .Dedent }
        else classify fuel lx c s := by
  unfold NextToken lineScan
  rw [if_neg (by rw [htok]; simp), if_neg (by omega)]
  simp only [htok, if_true]
  cases countIndent fuel 0 (toChar lx.input.get.1) lx.input.get.2 with
  | error e => rfl
  | ok r => rfl

/-- C22. The lexer never returns two `Newline` tokens in a row: in the tokens of any run
of `NextToken`, from any state, no `Newline` follows a `Newline`.  The token returned
after a `Newline` is an `Indent`, a `Dedent`, or the classification of a byte that is
neither a space, a line feed nor a `#` (the end of input gives `Eof`).  A run of blank
lines and comment-only lines (each indented by an even number of spaces) after a
`Newline` is absorbed: the call returns what it returns when the stream stands behind
those lines, at a line of `2 * k` spaces followed by the end of input or by a byte that
is neither a space, a line feed nor a `#`. -/
theorem newline_not_repeated :
    (∀ (fuel n : Nat) (lx lx2 : Lexer) (ts : List Token),
      lexSteps fuel n lx = .ok (ts, lx2) → List.Chain NotBothNewline lx.token ts) ∧
    (∀ (fuel : Nat) (lx lx1 : Lexer), lx.token = .Newline → NextToken fuel lx = .ok lx1 →
      lx1.token = .Indent ∨ lx1.token = .Dedent ∨
        (lx1.token ≠ .Newline ∧
          ∃ c s, c ≠ ' ' ∧ c ≠ '\n' ∧ c ≠ '#' ∧ classify fuel lx c s = .ok lx1)) ∧
    (∀ (fuel : Nat) (lx : Lexer) (blanks : List BlankLine) (k : Nat) (p tail : List Char),
      lx.token = .Newline → lx.dedent = 0 →
      (∀ b ∈ blanks, b.wellFormed = true ∧ b.indent < fuel) → startsToken tail = true →
      lx.input = IStream.goodAt p (blankSource blanks ++ (List.replicate (2 * k) ' ' ++ tail)) →
      blanks.length + 1 < fuel → k < fuel →
      NextToken fuel lx =
        NextToken fuel
          { lx with
            input := IStream.goodAt ((blankSource blanks).reverse ++ p)
              (List.replicate (2 * k) ' ' ++ tail) }) := by
  refine ⟨fun fuel n lx lx2 ts h => lexSteps_newlines h,
    fun fuel lx lx1 ht h => NextToken_after_newline ht h, ?_⟩
  intro fuel lx blanks k p tail htok hded hb ht hin hlen hk
  have h1 := (lineScan_blank fuel k tail ht hk blanks p fuel fuel hb hlen (by omega)
    (by omega)).1
  have h2 := (lineScan_blank fuel k tail ht hk [] ((blankSource blanks).reverse ++ p) fuel fuel
    (by simp) (by simp; omega) (by simp; omega) (by simp; omega)).1
  simp only [blankSource, List.nil_append, List.reverse_nil] at h2
  have e2 := NextToken_newline fuel
    { lx with
      input := IStream.goodAt ((blankSource blanks).reverse ++ p)
        (List.replicate (2 * k) ' ' ++ tail) } htok hded
  rw [NextToken_newline fuel lx htok hded, e2, hin]
  simp only []
  rw [h1, h2]
  rfl

theorem newline_not_repeated_witness :
    NextToken 10 { input := IStream.goodAt "\nx".toList "\n  # c\n  y\n".toList,
                   token := .Newline, indent := 0, dedent := 0 } =
      NextToken 10 { input := IStream.goodAt "\nc #  \n\nx".toList "  y\n".toList,
                     token := .Newline, indent := 0, dedent := 0 } ∧
    NextToken 10 { input := IStream.goodAt "\nx".toList "\n  # c\n  y\n".toList,
                   token := .Newline, indent := 0, dedent := 0 } =
      .ok { input := IStream.goodAt "  \nc #  \n\nx".toList "y\n".toList,
            token := .Indent, indent := 1, dedent := 0 } :=
  ⟨newline_not_repeated.2.2 10
    { input := IStream.goodAt "\nx".toList "\n  # c\n  y\n".toList,
      token := .Newline, indent := 0, dedent := 0 }
    [⟨0, none⟩, ⟨1, some [' ', 'c']⟩] 1 "\nx".toList "y\n".toList rfl rfl (by decide)
    rfl rfl (by decide) (by decide), rfl⟩

end Mython
